import Mathlib

/-!
# goutils: chunk splitter, worker pools and ordered reassembly

A shallow embedding of `iowrapper/iowrapper.go` (`SliceToBytesChunks`),
`iowrapper/pipeline.go` (`StartFileProducer`, `StartChunkWorkers`,
`streamFileChunks`, `StartChunkProcessors`, `CollectOrdered`, `drainBuffer`,
`StreamOrdered`), `common/hash.go` (`IsValidSHA1`, `IsValidSHA256`,
`IsValidSHA512`), `common/domain.go` (`IsValidDomain`,
`ValidateDomainNames`, `GenerateDomainPairs`) and `pkg/common/common.go`
(`Unique`) together with the properties the specification states about them.

Conventions of the embedding

* a byte is a natural number (the proofs never use the bound 256);
* a Go `error` value is a `GoError`, a nil error is `none`;
* a nil slice is `none`, a non-nil slice is `some l`;
* a channel that is filled and then closed is the list of the values sent on it;
* for `StartFileProducer` and the processor workers the receivers of the
  unbuffered output channel are a parameter (`demand`): a send completes only
  when a receiver takes the value;
* a Go `map[string]V` is a function `String → Option V`, an inner
  `map[int]V` is an association list with unique keys;
* a Go `string` handled by package `common` is the list of its bytes; the
  functions of the standard library it is passed to are parameters.
-/

namespace Goutils

/-! ## Errors, readers, contexts -/

/-- A Go `error` value. -/
inductive GoError where
  | msg (s : String)
  | wrapped (s : String) (cause : GoError)
  | canceled
  deriving DecidableEq, Repr

/-- One byte of a stream. -/
abbrev Byte := Nat

/-- The line terminator `'\n'`. -/
def NL : Byte := 10

/-- An `io.Reader` seen up to its first error: it delivers `data` and then
fails, with `io.EOF` (`err = none`) or with the read error `err = some e`. -/
structure Reader where
  data : List Byte
  err : Option GoError
  deriving DecidableEq, Repr

/-- The error a reader returns once its data is exhausted (`io.EOF` or the
read error). It is never nil. -/
inductive ReadErr where
  | eof
  | failed (e : GoError)
  deriving DecidableEq, Repr

/-- Terminal error of a reader. -/
def Reader.terminal (r : Reader) : ReadErr :=
  match r.err with
  | none => ReadErr.eof
  | some e => ReadErr.failed e

/-- Search of the unread bytes for the delimiter, as `ReadBytes` does: the
bytes up to and including the first `delim` with the unread rest, or all the
remaining bytes and no rest when the stream ends before a delimiter. -/
def readUntil (delim : Byte) : List Byte → List Byte × Option (List Byte)
  | [] => ([], none)
  | b :: bs =>
    if b = delim then ([b], some bs)
    else ((b :: (readUntil delim bs).1), (readUntil delim bs).2)

/-- The call `line, err := reader.ReadBytes(delim)` of `bufio.Reader`: the line
read, the error (nil when the delimiter was found, the terminal error of the
reader otherwise, with the bytes read before it) and the reader afterwards. -/
def ReadBytes (delim : Byte) (r : Reader) : List Byte × Option ReadErr × Reader :=
  match readUntil delim r.data with
  | (line, some rest) => (line, none, ⟨rest, r.err⟩)
  | (line, none) => (line, some r.terminal, ⟨[], r.err⟩)

/-- The values of `line` returned by the successive calls
`reader.ReadBytes('\n')` of the loop of `SliceToBytesChunks`, up to and
including the call that returns an error (whose `line` may be empty). -/
def readAll : List Byte → List (List Byte)
  | [] => [[]]
  | b :: bs =>
    if b = NL then [b] :: readAll bs
    else
      match readAll bs with
      | [] => [[b]]
      | l :: ls => (b :: l) :: ls

/-! ## SliceToBytesChunks -/

/-- The struct `BytesChunk`. -/
structure BytesChunk where
  Index : Nat
  Data : List Byte
  deriving DecidableEq, Repr

/-- Local variables of `SliceToBytesChunks` (`index`, `buffer`) and the
chunks sent on `chunkCh` so far, in emission order. -/
structure SliceState where
  index : Nat
  buffer : List Byte
  out : List BytesChunk
  deriving DecidableEq, Repr

/-- The closure `flush` of `SliceToBytesChunks`. -/
def SliceState.flush (s : SliceState) : SliceState :=
  if s.buffer.length = 0 then s
  else { index := s.index + 1, buffer := [], out := s.out ++ [⟨s.index, s.buffer⟩] }

/-- Body of the loop of `SliceToBytesChunks` for one value of `line`. -/
def processLine (chunkSize : Nat) (s : SliceState) (line : List Byte) : SliceState :=
  if line.length > 0 then
    if line.length > chunkSize ∧ s.buffer.length = 0 then
      { index := s.index + 1, buffer := s.buffer, out := s.out ++ [⟨s.index, line⟩] }
    else
      let s1 := if s.buffer.length + line.length > chunkSize ∧ s.buffer.length > 0
                then s.flush else s
      let s2 : SliceState := { index := s1.index, buffer := s1.buffer ++ line, out := s1.out }
      if s2.buffer.length ≥ chunkSize then s2.flush else s2
  else s

/-- The loop of `SliceToBytesChunks` run over the lines the reader returns. -/
def sliceLoop (chunkSize : Nat) (s : SliceState) (lines : List (List Byte)) : SliceState :=
  lines.foldl (processLine chunkSize) s

/-- The function `SliceToBytesChunks(r, chunkSize, chunkCh)`: the chunks
sent on `chunkCh`, in emission order. The loop stops at the first error of
the reader, whether `io.EOF` or not, and the function returns nothing. -/
def SliceToBytesChunks (r : Reader) (chunkSize : Nat) : List BytesChunk :=
  if chunkSize ≤ 0 then []
  else
    let s := sliceLoop chunkSize ⟨0, [], []⟩ (readAll r.data)
    (if s.buffer.length > 0 then s.flush else s).out

/-- Bytes of a string, for examples. -/
def bytes (s : String) : List Byte := s.toList.map Char.toNat

/-- Payloads of a list of chunks. -/
def payloads (cs : List BytesChunk) : List (List Byte) := cs.map BytesChunk.Data

/-- The lines of an input: the runs of bytes up to and including `'\n'`, and
the final unterminated run when it is not empty. -/
def inputLines (data : List Byte) : List (List Byte) :=
  (readAll data).filter (fun l => decide (0 < l.length))

/-! ## Contexts and Go maps -/

/-- A `context.Context` as the `select` statements of one run see it:
`doneAfter = some k` when the first `k` selects of the run find `ctx.Done()`
not ready and every later one takes the `ctx.Done()` branch, `none` when no
select of the run ever takes it; `cause` is the value of `ctx.Err()` then. -/
structure Context where
  doneAfter : Option Nat
  cause : GoError
  deriving DecidableEq, Repr

/-- Whether the select statement now executed takes the `<-ctx.Done()` branch. -/
def Context.isDone (ctx : Context) : Bool :=
  match ctx.doneAfter with
  | some 0 => true
  | _ => false

/-- The context as the next select statement sees it. -/
def Context.tick (ctx : Context) : Context :=
  match ctx.doneAfter with
  | some (k + 1) => ⟨some k, ctx.cause⟩
  | _ => ctx

/-- A context that is never cancelled. -/
def Context.background : Context := ⟨none, GoError.canceled⟩

/-- Assignment `m[k] = v` on a Go map with string keys (`v = none` deletes the key). -/
def setKey {V : Type} (m : String → Option V) (k : String) (v : Option V) :
    String → Option V :=
  fun k2 => if k2 = k then v else m k2

/-- Assignment `m[k] = v` on a counter map, whose absent keys read as 0. -/
def setCount (m : String → Nat) (k : String) (v : Nat) : String → Nat :=
  fun k2 => if k2 = k then v else m k2

/-- Read `m[k]` of a `map[string][]T`: the nil slice when the key is absent. -/
def readSlice {T : Type} (m : String → Option (List T)) (k : String) : List T :=
  (m k).getD []

/-- Lookup `pending[i]` in a `map[int][]T` kept as an association list. -/
def pendingGet {T : Type} (i : Nat) : List (Nat × List T) → Option (List T)
  | [] => none
  | (k, v) :: rest => if k = i then some v else pendingGet i rest

/-- The call `delete(pending, i)`. -/
def pendingDelete {T : Type} (i : Nat) (pending : List (Nat × List T)) : List (Nat × List T) :=
  pending.filter (fun kv => decide (kv.1 ≠ i))

/-- Assignment `pending[i] = items`. -/
def pendingSet {T : Type} (i : Nat) (items : List T) (pending : List (Nat × List T)) :
    List (Nat × List T) :=
  (i, items) :: pendingDelete i pending

/-! ## The worker pool -/

/-- The struct `FileJob`. -/
structure FileJob where
  Path : String
  deriving DecidableEq, Repr

/-- The struct `FileChunk`. -/
structure FileChunk where
  File : String
  Chunk : BytesChunk
  deriving DecidableEq, Repr

/-- The struct `ProcessedChunk[T]`; `Items = none` is the nil slice, `Err = none` the nil error. -/
structure ProcessedChunk (T : Type) where
  File : String
  ChunkIndex : Nat
  Items : Option (List T)
  Err : Option GoError

/-- Result of `streamFileChunks`: the chunks sent on `out`, the error
returned, and the context as the next select sees it. -/
structure StreamFileResult where
  sent : List FileChunk
  err : Option GoError
  ctx : Context
  deriving DecidableEq, Repr

/-- The loop `for chunk := range ch` of `streamFileChunks`. -/
def sendChunks (ctx : Context) (path : String) : List BytesChunk → StreamFileResult
  | [] => ⟨[], none, ctx⟩
  | chunk :: rest =>
    if ctx.isDone then ⟨[], some ctx.cause, ctx⟩
    else
      let r := sendChunks ctx.tick path rest
      ⟨⟨path, chunk⟩ :: r.sent, r.err, r.ctx⟩

/-- The variable `bufferSize` of `streamFileChunks`. -/
def readerBufferSize (chunkSize : Nat) : Nat :=
  if chunkSize ≤ 0 then 64 * 1024 else chunkSize

/-- The function `streamFileChunks(ctx, path, chunkSize, out)`. The opener
`openReader` stands for `Reader(path, bufferSize)` on the file system of the
run, and `chunker` for `SliceToBytesChunks2`, which like `SliceToBytesChunks`
returns nothing and only sends chunks on its channel. -/
def streamFileChunks (openReader : String → Nat → Except GoError Reader)
    (chunker : Reader → Nat → List BytesChunk)
    (ctx : Context) (path : String) (chunkSize : Nat) : StreamFileResult :=
  match openReader path (readerBufferSize chunkSize) with
  | Except.error err => ⟨[], some (GoError.wrapped ("open reader for " ++ path) err), ctx⟩
  | Except.ok reader => sendChunks ctx path (chunker reader chunkSize)

/-- State of the pool of `StartChunkWorkers`: the number of worker goroutines
still in their loop, the chunks sent on `out`, the content of the buffered
channel `errCh`, the errors whose non-blocking send took the `default`
branch, and the context. -/
structure PoolState where
  live : Nat
  out : List FileChunk
  errCh : List GoError
  dropped : List GoError
  ctx : Context
  deriving DecidableEq, Repr

/-- The worker loops of `StartChunkWorkers` over the jobs published on
`files`, one job at a time in the order in which they are claimed. Workers
are interchangeable, so the state only counts those still running; the chunks
of jobs processed at the same time are listed job after job, which is one of
the interleavings the pool can produce. Returns the final state and the jobs
that no worker claimed. -/
def poolLoop (openReader : String → Nat → Except GoError Reader)
    (chunker : Reader → Nat → List BytesChunk) (workerCount chunkSize : Nat)
    (st : PoolState) : List FileJob → PoolState × List FileJob
  | [] => ({ st with live := 0 }, [])
  | job :: rest =>
    if st.live = 0 then (st, job :: rest)
    else if st.ctx.isDone then ({ st with live := 0 }, job :: rest)
    else
      let r := streamFileChunks openReader chunker st.ctx.tick job.Path chunkSize
      match r.err with
      | some err =>
        -- `select { case errCh <- err: default: }` and then `return`
        let sent := decide (st.errCh.length < workerCount)
        poolLoop openReader chunker workerCount chunkSize
          { live := st.live - 1, out := st.out ++ r.sent,
            errCh := if sent then st.errCh ++ [err] else st.errCh,
            dropped := if sent then st.dropped else st.dropped ++ [err],
            ctx := r.ctx } rest
      | none =>
        poolLoop openReader chunker workerCount chunkSize
          { st with out := st.out ++ r.sent, ctx := r.ctx } rest

/-- Whether opening the input of a job fails. -/
def openFails (openReader : String → Nat → Except GoError Reader) (chunkSize : Nat)
    (job : FileJob) : Bool :=
  match openReader job.Path (readerBufferSize chunkSize) with
  | Except.error _ => true
  | Except.ok _ => false

/-- The function `StartChunkWorkers(ctx, workerCount, chunkSize, files)`. -/
def StartChunkWorkers (openReader : String → Nat → Except GoError Reader)
    (chunker : Reader → Nat → List BytesChunk) (ctx : Context)
    (workerCount chunkSize : Nat) (files : List FileJob) : PoolState × List FileJob :=
  poolLoop openReader chunker workerCount chunkSize ⟨workerCount, [], [], [], ctx⟩ files

/-! ## CollectOrdered -/

/-- The three maps of `CollectOrdered`. -/
structure CollectState (T : Type) where
  results : String → Option (List T)
  nextIndex : String → Nat
  buffers : String → Option (List (Nat × List T))

/-- The loop of `drainBuffer`, with a bound on the number of iterations. -/
def drainLoop {T : Type} : Nat → String → CollectState T → CollectState T
  | 0, _, st => st
  | fuel + 1, file, st =>
    match st.buffers file with
    | some pendingChunks =>
      match pendingGet (st.nextIndex file) pendingChunks with
      | some entry =>
        drainLoop fuel file
          { results := setKey st.results file (some (readSlice st.results file ++ entry)),
            nextIndex := setCount st.nextIndex file (st.nextIndex file + 1),
            buffers := setKey st.buffers file
              (some (pendingDelete (st.nextIndex file) pendingChunks)) }
      | none =>
        if pendingChunks.length = 0 then { st with buffers := setKey st.buffers file none }
        else st
    | none => st

/-- Number of entries of the pending map of a file. -/
def pendingCount {T : Type} (buffers : String → Option (List (Nat × List T))) (file : String) :
    Nat :=
  match buffers file with
  | some pendingChunks => pendingChunks.length
  | none => 0

/-- The function `drainBuffer(file, results, nextIndex, buffers)`. Every
iteration but the last deletes an entry of the pending map of the file, so
the loop runs at most one more time than the map has entries. -/
def drainBuffer {T : Type} (file : String) (st : CollectState T) : CollectState T :=
  drainLoop (pendingCount st.buffers file + 1) file st

/-- Body of the loop of `CollectOrdered` for a batch received with a nil `Err`. -/
def collectStep {T : Type} (st : CollectState T) (res : ProcessedChunk T) : CollectState T :=
  match res.Items with
  | none => st
  | some items =>
    if res.ChunkIndex = st.nextIndex res.File then
      drainBuffer res.File
        { results := setKey st.results res.File (some (readSlice st.results res.File ++ items)),
          nextIndex := setCount st.nextIndex res.File (st.nextIndex res.File + 1),
          buffers := st.buffers }
    else
      { results := st.results,
        nextIndex := st.nextIndex,
        buffers := setKey st.buffers res.File
          (some (pendingSet res.ChunkIndex items ((st.buffers res.File).getD []))) }

/-- What `CollectOrdered` returns (the map, nil when `results = none`, and
the error) and the batches it left unread on the channel. -/
structure CollectOutcome (T : Type) where
  results : Option (String → Option (List T))
  err : Option GoError
  unread : List (ProcessedChunk T)

/-- The loop of `CollectOrdered` on the batches sent on `in` before it is closed. -/
def collectLoop {T : Type} (ctx : Context) (st : CollectState T) :
    List (ProcessedChunk T) → CollectOutcome T
  | [] =>
    if ctx.isDone then ⟨none, some ctx.cause, []⟩
    else ⟨some st.results, none, []⟩
  | res :: rest =>
    if ctx.isDone then ⟨none, some ctx.cause, res :: rest⟩
    else
      match res.Err with
      | some err => ⟨none, some err, rest⟩
      | none => collectLoop ctx.tick (collectStep st res) rest

/-- The function `CollectOrdered(ctx, in)`. -/
def CollectOrdered {T : Type} (ctx : Context) (inp : List (ProcessedChunk T)) :
    CollectOutcome T :=
  collectLoop ctx ⟨fun _ => none, fun _ => 0, fun _ => none⟩ inp

/-- The records returned for one input: `results[file]` of the returned map
(empty when the map is nil or has no such key). -/
def CollectOutcome.records {T : Type} (o : CollectOutcome T) (file : String) : List T :=
  match o.results with
  | some m => readSlice m file
  | none => []

/-- The first `k` select statements of a run do not take the `ctx.Done()` branch. -/
def Context.quietFor (ctx : Context) (k : Nat) : Prop :=
  ∀ d, ctx.doneAfter = some d → k ≤ d

/-! ## StreamOrdered -/

/-- One invocation `sink(file, items)`; `Index` is the chunk index the items
were received with (the sink itself is not given it). -/
structure SinkCall (T : Type) where
  File : String
  Index : Nat
  Items : List T

/-- A sink: its result may depend on the invocations made before
(their arguments, oldest first) as well as on its two arguments. -/
abbrev Sink (T : Type) := List (String × List T) → String → List T → Option GoError

/-- The two maps of `StreamOrdered` and the invocations of the sink so far. -/
structure StreamState (T : Type) where
  nextIndex : String → Nat
  buffers : String → Option (List (Nat × List T))
  calls : List (SinkCall T)

/-- The arguments of the invocations made so far, as the sink saw them. -/
def sinkHistory {T : Type} (calls : List (SinkCall T)) : List (String × List T) :=
  calls.map (fun c => (c.File, c.Items))

/-- The loop of the closure `flush` of `StreamOrdered`, with a bound on the
number of iterations; returns the state and the error returned. -/
def flushLoop {T : Type} (sink : Sink T) :
    Nat → String → StreamState T → StreamState T × Option GoError
  | 0, _, st => (st, none)
  | fuel + 1, file, st =>
    match st.buffers file with
    | some pending =>
      match pendingGet (st.nextIndex file) pending with
      | none =>
        if pending.length = 0 then
          ({ nextIndex := st.nextIndex, buffers := setKey st.buffers file none,
             calls := st.calls }, none)
        else (st, none)
      | some items =>
        match sink (sinkHistory st.calls) file items with
        | some err =>
          ({ nextIndex := st.nextIndex, buffers := st.buffers,
             calls := st.calls ++ [⟨file, st.nextIndex file, items⟩] }, some err)
        | none =>
          flushLoop sink fuel file
            { nextIndex := setCount st.nextIndex file (st.nextIndex file + 1),
              buffers := setKey st.buffers file
                (some (pendingDelete (st.nextIndex file) pending)),
              calls := st.calls ++ [⟨file, st.nextIndex file, items⟩] }
    | none => (st, none)

/-- The closure `flush(file)` of `StreamOrdered`: every iteration but the last
deletes an entry of the pending map of the file. -/
def streamFlush {T : Type} (sink : Sink T) (file : String) (st : StreamState T) :
    StreamState T × Option GoError :=
  flushLoop sink (pendingCount st.buffers file + 1) file st

/-- Body of the loop of `StreamOrdered` for a batch received with a nil
`Err`; a non-nil error returned makes `StreamOrdered` return it. -/
def streamStep {T : Type} (sink : Sink T) (st : StreamState T) (res : ProcessedChunk T) :
    StreamState T × Option GoError :=
  match res.Items with
  | none => (st, none)
  | some items =>
    if res.ChunkIndex = st.nextIndex res.File then
      match sink (sinkHistory st.calls) res.File items with
      | some err =>
        ({ nextIndex := st.nextIndex, buffers := st.buffers,
           calls := st.calls ++ [⟨res.File, res.ChunkIndex, items⟩] }, some err)
      | none =>
        streamFlush sink res.File
          { nextIndex := setCount st.nextIndex res.File (st.nextIndex res.File + 1),
            buffers := st.buffers,
            calls := st.calls ++ [⟨res.File, res.ChunkIndex, items⟩] }
    else
      ({ nextIndex := st.nextIndex,
         buffers := setKey st.buffers res.File
           (some (pendingSet res.ChunkIndex items ((st.buffers res.File).getD []))),
         calls := st.calls }, none)

/-- What `StreamOrdered` returns (the error), the invocations of the sink it
made, in order, and the batches it left unread on the channel. -/
structure StreamOutcome (T : Type) where
  err : Option GoError
  calls : List (SinkCall T)
  unread : List (ProcessedChunk T)

/-- The loop of `StreamOrdered` on the batches sent on `in` before it is closed. -/
def streamLoop {T : Type} (sink : Sink T) (ctx : Context) (st : StreamState T) :
    List (ProcessedChunk T) → StreamOutcome T
  | [] =>
    if ctx.isDone then ⟨some ctx.cause, st.calls, []⟩
    else ⟨none, st.calls, []⟩
  | res :: rest =>
    if ctx.isDone then ⟨some ctx.cause, st.calls, res :: rest⟩
    else
      match res.Err with
      | some err => ⟨some err, st.calls, rest⟩
      | none =>
        match streamStep sink st res with
        | (st2, some err) => ⟨some err, st2.calls, rest⟩
        | (st2, none) => streamLoop sink ctx.tick st2 rest

/-- The function `StreamOrdered(ctx, in, sink)`. -/
def StreamOrdered {T : Type} (ctx : Context) (inp : List (ProcessedChunk T)) (sink : Sink T) :
    StreamOutcome T :=
  streamLoop sink ctx ⟨fun _ => 0, fun _ => none, []⟩ inp

/-- The chunk indices handed to the sink for one input, in invocation order. -/
def deliveredIndices {T : Type} (calls : List (SinkCall T)) (file : String) : List Nat :=
  (calls.filter (fun c => decide (c.File = file))).map SinkCall.Index

/-- The chunk indices of the batches of one input in a sequence of batches. -/
def fileIndices {T : Type} (inp : List (ProcessedChunk T)) (file : String) : List Nat :=
  (inp.filter (fun b => decide (b.File = file))).map ProcessedChunk.ChunkIndex

/-- Per-input invariant of the reassembly loop while `drainBuffer` runs: the
indices in `seen` are those received for the input, `v i` the records received
with index `i`. All indices below the next expected one were received, the
result is the concatenation of their records, and the pending map holds
the records of the received indices not yet delivered. -/
structure DrainInv {T : Type} (st : CollectState T) (f : String) (v : Nat → List T)
    (seen : List Nat) : Prop where
  below : ∀ i, i < st.nextIndex f → i ∈ seen
  recs : readSlice st.results f = (List.range (st.nextIndex f)).flatMap v
  pendSome : ∀ i, i ∈ seen → st.nextIndex f ≤ i →
    pendingGet i ((st.buffers f).getD []) = some (v i)
  pendNone : ∀ i, (i ∉ seen ∨ i < st.nextIndex f) →
    pendingGet i ((st.buffers f).getD []) = none

/-- Per-input invariant of the reassembly loop between two batches: the next
expected index is the least index not received. -/
structure FileInv {T : Type} (st : CollectState T) (f : String) (v : Nat → List T)
    (seen : List Nat) extends DrainInv st f v seen : Prop where
  fresh : st.nextIndex f ∉ seen

/-- Invariant of `StreamOrdered` between two batches: the indices handed to
the sink for every input are those below its next expected index, in order. -/
def TraceInv {T : Type} (st : StreamState T) : Prop :=
  ∀ f, deliveredIndices st.calls f = List.range (st.nextIndex f)

/-- The indices handed to the sink for every input are `0, 1, ..., k-1` for some `k`. -/
def TraceOK {T : Type} (calls : List (SinkCall T)) : Prop :=
  ∀ f, ∃ k, deliveredIndices calls f = List.range k

/-- A file system for the examples: `"A"` cannot be opened, `"B"` holds two
lines, `"C"` one line after which reading fails. -/
def exampleFS : String → Nat → Except GoError Reader := fun path _ =>
  if path = "A" then Except.error (GoError.msg "no such file")
  else if path = "B" then Except.ok ⟨bytes "b1\nb2\n", none⟩
  else Except.ok ⟨bytes "c1\n", some (GoError.msg "read failure")⟩

/-- Invariant of the loop of `SliceToBytesChunks` after the non-empty lines
`ls` have been read: the emitted chunks are groups of consecutive lines, the
buffer holds the lines `gb` read since the last emission. -/
def SliceInv (n : Nat) (s : SliceState) (ls : List (List Byte)) : Prop :=
  ∃ groups : List (List (List Byte)), ∃ gb : List (List Byte),
    payloads s.out = groups.map List.flatten ∧
    s.buffer = gb.flatten ∧
    groups.flatten ++ gb = ls ∧
    (∀ g ∈ groups, g ≠ [] ∧ ((List.flatten g).length ≤ n ∨ ∃ l, g = [l])) ∧
    (∀ l ∈ gb, l ≠ []) ∧
    s.buffer.length < n ∧
    s.index = s.out.length ∧
    s.out.map BytesChunk.Index = List.range s.out.length

/-! ## StartFileProducer and StartChunkProcessors -/

/-- The receiving side of an unbuffered channel as its sender sees it over a
run: `some m` when the receivers take `m` more values and then never receive
again, `none` when they take every value offered. This is whether a receiver
takes the value now offered. -/
def receiverReady : Option Nat → Bool
  | some 0 => false
  | _ => true

/-- The receiving side of an unbuffered channel after it has taken a value. -/
def receiverNext : Option Nat → Option Nat
  | some (m + 1) => some m
  | d => d

/-- The smaller of a bound that may be absent and a number. -/
def capAt (bound : Option Nat) (n : Nat) : Nat :=
  match bound with
  | some b => min b n
  | none => n

/-- What a run of `StartFileProducer` leaves behind: the jobs handed off on
`out`, in order, and whether `out` was closed (the goroutine returned). -/
structure ProducerOutcome where
  published : List FileJob
  closed : Bool
  deriving DecidableEq, Repr

/-- The function `StartFileProducer(ctx, files)`, run against the receivers
`demand` of its unbuffered channel `out`. Each `select` either takes the
`ctx.Done()` branch, and the goroutine returns, or completes the send when a
receiver takes the job. When no receiver takes it, the `select` blocks until
the context is cancelled; when it never is, the goroutine blocks for ever and
`out` is not closed. -/
def StartFileProducer (ctx : Context) (demand : Option Nat) : List String → ProducerOutcome
  | [] => ⟨[], true⟩
  | file :: rest =>
    if ctx.isDone then ⟨[], true⟩
    else if receiverReady demand then
      ⟨⟨file⟩ :: (StartFileProducer ctx.tick (receiverNext demand) rest).published,
        (StartFileProducer ctx.tick (receiverNext demand) rest).closed⟩
    else ⟨[], ctx.doneAfter.isSome⟩

/-- The type `ChunkProcessorFunc[T]`: the items (nil is `none`) and the error returned. -/
abbrev ChunkProcessorFunc (T : Type) := FileChunk → Option (List T) × Option GoError

/-- The value a processor worker sends on `out` for a chunk it took. -/
def processChunk {T : Type} (lineProcessor : ChunkProcessorFunc T) (chunk : FileChunk) :
    ProcessedChunk T :=
  { File := chunk.File,
    ChunkIndex := chunk.Chunk.Index,
    Items := (lineProcessor chunk).1,
    Err := (lineProcessor chunk).2 }

/-- The loop of one worker goroutine of `StartChunkProcessors` over the
chunks it takes from `chunks`, run against the receivers `demand` of the
unbuffered channel `out`: the batches it hands off, in order. A `select`
that takes the `ctx.Done()` branch, or that no receiver ever serves, ends the
worker without a batch for the chunk just processed. -/
def processorWorker {T : Type} (ctx : Context) (demand : Option Nat)
    (lineProcessor : ChunkProcessorFunc T) : List FileChunk → List (ProcessedChunk T)
  | [] => []
  | chunk :: rest =>
    if ctx.isDone then []
    else if receiverReady demand then
      processChunk lineProcessor chunk ::
        processorWorker ctx.tick (receiverNext demand) lineProcessor rest
    else []

/-! ## Vocabulary of the claims on reassembly -/

/-- The records received with index `i` for input `f` in a sequence of batches
(those of the first such batch; empty when there is none). -/
def recordsAt {T : Type} (inp : List (ProcessedChunk T)) (f : String) (i : Nat) : List T :=
  match inp.find? (fun b => decide (b.File = f ∧ b.ChunkIndex = i)) with
  | some b => b.Items.getD []
  | none => []

/-- The records handed to the sink for one input, in invocation order: what
a sink that appends every slice it is given to a list per input collects. -/
def streamRecords {T : Type} (calls : List (SinkCall T)) (f : String) : List T :=
  (calls.filter (fun c => decide (c.File = f))).flatMap SinkCall.Items

/-- Correspondence between the state of `StreamOrdered` (with the records its
sink was given) and the state of `CollectOrdered` on the same batches. -/
def StreamSim {T : Type} (ss : StreamState T) (cs : CollectState T) : Prop :=
  ss.nextIndex = cs.nextIndex ∧ ss.buffers = cs.buffers ∧
  ∀ f, streamRecords ss.calls f = readSlice cs.results f

/-- A sequence of lines as a reader returns them: every line that is followed
by another ends with the terminator and has no other terminator, the last
one is not empty and has no terminator before its last byte. -/
def LinesShape : List (List Byte) → Prop
  | [] => True
  | [l] => l ≠ [] ∧ NL ∉ l.dropLast
  | l :: l2 :: rest => (∃ body, l = body ++ [NL] ∧ NL ∉ body) ∧ LinesShape (l2 :: rest)

/-- The records `F c` of the chunk `c` at position `i` of a list of chunks
(none when there is no such position). -/
def recordsOfChunk {α β : Type} (F : α → List β) (cs : List α) (i : Nat) : List β :=
  match cs[i]? with
  | some c => F c
  | none => []

/-- The processor built from a per-line transform `t`: on a chunk it returns
the non-nil concatenation of `t` on the lines of the chunk, and no error. -/
def perLineProcessor {T : Type} (t : List Byte → List T) : ChunkProcessorFunc T :=
  fun c => (some ((inputLines c.Chunk.Data).flatMap t), none)

/-! ## Package common: strings, hash and domain validators -/

/-- A Go `string`: a sequence of bytes, each a natural number. -/
abbrev GoString := List Nat

/-- The functions of the Go standard library the validators call, taken as
parameters: `strings.ToLower`, `strings.TrimSpace`, and the runes a
`for _, c := range s` loop yields for a string (its UTF-8 decoding). -/
structure GoStrings where
  ToLower : GoString → GoString
  TrimSpace : GoString → GoString
  runes : GoString → List Nat

/-- Lower-casing of an ASCII byte: `'A'..'Z'` to `'a'..'z'`, others unchanged. -/
def asciiLower (b : Nat) : Byte :=
  if 65 ≤ b ∧ b ≤ 90 then b + 32 else b

/-- What the validators need from the standard library: on a string of ASCII
bytes, lower-casing works byte by byte and each byte is a rune; lower-casing a
string with a byte outside ASCII leaves a rune that is no hexadecimal digit
(an invalid byte decodes to U+FFFD, and no rune outside ASCII has a digit or a
letter `a..f` as lower case). -/
structure GoStrings.Lawful (lib : GoStrings) : Prop where
  ascii : ∀ s : GoString, (∀ b ∈ s, b < 128) → lib.runes (lib.ToLower s) = s.map asciiLower
  nonAscii : ∀ s : GoString, (∃ b ∈ s, 128 ≤ b) →
    ∃ r ∈ lib.runes (lib.ToLower s),
      ¬ ((48 ≤ r ∧ r ≤ 57) ∨ (97 ≤ r ∧ r ≤ 102))

/-- The test of the loops of the hash validators:
`(c >= '0' && c <= '9') || (c >= 'a' && c <= 'f')`. -/
def isLowerHexRune (c : Nat) : Bool :=
  decide ((48 ≤ c ∧ c ≤ 57) ∨ (97 ≤ c ∧ c ≤ 102))

/-- The function `IsValidSHA1`. -/
def IsValidSHA1 (lib : GoStrings) (sha1 : GoString) : Bool :=
  if sha1.length ≠ 40 then false
  else (lib.runes (lib.ToLower sha1)).all isLowerHexRune

/-- The function `IsValidSHA256`. -/
def IsValidSHA256 (lib : GoStrings) (sha256 : GoString) : Bool :=
  if sha256.length ≠ 64 then false
  else (lib.runes (lib.ToLower sha256)).all isLowerHexRune

/-- The function `IsValidSHA512`. -/
def IsValidSHA512 (lib : GoStrings) (sha512 : GoString) : Bool :=
  if sha512.length ≠ 128 then false
  else (lib.runes (lib.ToLower sha512)).all isLowerHexRune

/-- A hexadecimal digit `0-9`, `a-f` or `A-F`. -/
def isHexDigit (b : Nat) : Prop :=
  (48 ≤ b ∧ b ≤ 57) ∨ (97 ≤ b ∧ b ≤ 102) ∨ (65 ≤ b ∧ b ≤ 70)

/-- A library for the examples, exact on ASCII strings: bytes outside ASCII are
left alone by `ToLower` and decoded as U+FFFD; `TrimSpace` removes the ASCII
white space at both ends. -/
def asciiStrings : GoStrings where
  ToLower := fun s => s.map asciiLower
  TrimSpace := fun s =>
    ((s.dropWhile (fun b => decide (b = 32 ∨ (9 ≤ b ∧ b ≤ 13)))).reverse.dropWhile
      (fun b => decide (b = 32 ∨ (9 ≤ b ∧ b ≤ 13)))).reverse
  runes := fun s => s.map (fun b => if b < 128 then b else 65533)

/-- A parsed regular expression, as far as `labelRegex` needs: a character
class, a concatenation, an optional group `a?`, a bounded repetition `a{0,n}`. -/
inductive Regex where
  | cls (p : Nat → Bool)
  | cat (a b : Regex)
  | opt (a : Regex)
  | rep (n : Nat) (a : Regex)

/-- The ways to match `a{0,n}` at the start of `s`, given the ways `f` to match
`a`: the list of what is left of `s` after each. -/
def repRun (f : List Nat → List (List Nat)) : Nat → List Nat → List (List Nat)
  | 0, s => [s]
  | n + 1, s => s :: (f s).flatMap (repRun f n)

/-- The ways to match a regular expression at the start of `s`: the list of
what is left of `s` after each. The classes of `labelRegex` hold ASCII bytes
only, so matching byte by byte and matching rune by rune agree. -/
def Regex.run : Regex → List Nat → List (List Nat)
  | Regex.cls p, s =>
    match s with
    | [] => []
    | c :: rest => if p c then [rest] else []
  | Regex.cat a b, s => (Regex.run a s).flatMap (fun t => Regex.run b t)
  | Regex.opt a, s => s :: Regex.run a s
  | Regex.rep n a, s => repRun (fun t => Regex.run a t) n s

/-- The call `re.MatchString(s)` for an expression anchored by `^` and `$`:
some way of matching leaves nothing of `s`. -/
def Regex.MatchString (re : Regex) (s : GoString) : Bool :=
  (re.run s).any (fun t => t.isEmpty)

/-- The class `[a-z0-9]`. -/
def isAlnumLower (b : Nat) : Bool :=
  decide ((97 ≤ b ∧ b ≤ 122) ∨ (48 ≤ b ∧ b ≤ 57))

/-- The class `[a-z0-9-_]`: `'-'` is 45 and `'_'` is 95. -/
def isLabelByte (b : Nat) : Bool :=
  decide ((97 ≤ b ∧ b ≤ 122) ∨ (48 ≤ b ∧ b ≤ 57) ∨ b = 45 ∨ b = 95)

/-- The expression of `IsValidDomain`, without its anchors:
`[a-z0-9]([a-z0-9-_]{0,61}[a-z0-9])?`. -/
def labelRegex : Regex :=
  Regex.cat (Regex.cls isAlnumLower)
    (Regex.opt (Regex.cat (Regex.rep 61 (Regex.cls isLabelByte)) (Regex.cls isAlnumLower)))

/-- The call `strings.Split(s, sep)` for a separator of one byte. -/
def Split (sep : Nat) : GoString → List GoString
  | [] => [[]]
  | b :: bs =>
    if b = sep then [] :: Split sep bs
    else
      match Split sep bs with
      | [] => [[b]]
      | p :: ps => (b :: p) :: ps

/-- The function `IsValidDomain`; `'.'` is 46. -/
def IsValidDomain (domain : GoString) : Bool :=
  if domain.length = 0 ∨ domain.length > 253 then false
  else
    let parts := Split 46 domain
    if parts.length < 2 then false
    else
      parts.all (fun label =>
        if label.length = 0 ∨ label.length > 63 then false
        else if !labelRegex.MatchString label then false
        else true)

/-- Local variables of `ValidateDomainNames`; the set `seen` is the list of its keys. -/
structure ValidateState where
  validDomains : List GoString
  invalidDomains : List GoString
  seen : List GoString

/-- Body of the loop of `ValidateDomainNames`. -/
def validateStep (lib : GoStrings) (st : ValidateState) (raw : GoString) : ValidateState :=
  let domain := lib.ToLower (lib.TrimSpace raw)
  if domain = [] then st
  else if domain ∈ st.seen then st
  else if IsValidDomain domain then
    { validDomains := st.validDomains ++ [domain], invalidDomains := st.invalidDomains,
      seen := domain :: st.seen }
  else
    { validDomains := st.validDomains, invalidDomains := st.invalidDomains ++ [domain],
      seen := domain :: st.seen }

/-- The function `ValidateDomainNames`. -/
def ValidateDomainNames (lib : GoStrings) (domains : List GoString) :
    List GoString × List GoString :=
  let st := domains.foldl (validateStep lib) ⟨[], [], []⟩
  (st.validDomains, st.invalidDomains)

/-- The non-empty normalised inputs (trimmed, then lower-cased), in input order. -/
def normalisedInputs (lib : GoStrings) (domains : List GoString) : List GoString :=
  (domains.map (fun raw => lib.ToLower (lib.TrimSpace raw))).filter (fun d => decide (d ≠ []))

/-- The position of the first occurrence of `x` in a list (its length when
`x` does not occur). -/
def firstIndex (x : GoString) : List GoString → Nat
  | [] => 0
  | y :: ys => if y = x then 0 else firstIndex x ys + 1

/-- Invariant of the loop of `ValidateDomainNames` once the non-empty
normalised inputs `N` have been seen. -/
structure ValidateInv (st : ValidateState) (N : List GoString) : Prop where
  seenIff : ∀ x, x ∈ st.seen ↔ x ∈ N
  memIff : ∀ x, x ∈ st.validDomains ++ st.invalidDomains ↔ x ∈ N
  nodup : (st.validDomains ++ st.invalidDomains).Nodup
  validOrder : st.validDomains.Pairwise (fun x y => firstIndex x N < firstIndex y N)
  invalidOrder : st.invalidDomains.Pairwise (fun x y => firstIndex x N < firstIndex y N)
  valid : ∀ x ∈ st.validDomains, IsValidDomain x = true
  invalid : ∀ x ∈ st.invalidDomains, IsValidDomain x = false

/-! ## Vocabulary of the claims on the reassembly state -/

/-- Two states of `CollectOrdered` hold the same result, next expected index
and pending buffer for input `f`. -/
def AgreeAt {T : Type} (f : String) (st1 st2 : CollectState T) : Prop :=
  st1.results f = st2.results f ∧ st1.nextIndex f = st2.nextIndex f ∧
  st1.buffers f = st2.buffers f

/-- The pending buffer of input `f` has no entry keyed by the next expected
index of `f`. -/
def DrainedAt {T : Type} (nextIndex : String → Nat)
    (buffers : String → Option (List (Nat × List T))) (f : String) : Prop :=
  pendingGet (nextIndex f) ((buffers f).getD []) = none

/-- The loop of `StreamOrdered` on batches received with a nil `Err` and
without cancellation: the state reached and the error returned by the sink,
after which no batch is processed. -/
def streamFold {T : Type} (sink : Sink T) (st : StreamState T) :
    List (ProcessedChunk T) → StreamState T × Option GoError
  | [] => (st, none)
  | res :: rest =>
    match streamStep sink st res with
    | (st2, some err) => (st2, some err)
    | (st2, none) => streamFold sink st2 rest

/-- Every invocation of the sink recorded in `calls` returned nil. -/
def AllOk {T : Type} (sink : Sink T) (calls : List (SinkCall T)) : Prop :=
  ∀ pre c post, calls = pre ++ c :: post → sink (sinkHistory pre) c.File c.Items = none

/-- A sink for the examples: it fails on its second invocation. -/
def failsSecond : Sink Nat := fun history _ _ =>
  if history.length = 1 then some (GoError.msg "sink failed") else none

/-! ## Vocabulary of the claim on chunk closing -/

/-- A group of lines `g` followed by the group `g2` was closed for a reason:
it is full, or it could not take the first line of `g2`. -/
def GreedyPair (n : Nat) (g g2 : List (List Byte)) : Prop :=
  n ≤ g.flatten.length ∨ ∃ l, g2.head? = some l ∧ n < g.flatten.length + l.length

/-- Every group of a sequence that is followed by another was closed for a reason. -/
def GreedyChain (n : Nat) : List (List (List Byte)) → Prop
  | [] => True
  | [_] => True
  | g :: g2 :: rest => GreedyPair n g g2 ∧ GreedyChain n (g2 :: rest)

/-- Invariant of the loop of `SliceToBytesChunks` for the closing of chunks:
the groups emitted, followed by the group in the buffer, form a chain. -/
def GreedyInv (n : Nat) (s : SliceState) (ls : List (List Byte)) : Prop :=
  ∃ groups : List (List (List Byte)), ∃ gb : List (List Byte),
    payloads s.out = groups.map List.flatten ∧
    s.buffer = gb.flatten ∧
    groups.flatten ++ gb = ls ∧
    (∀ l ∈ gb, l ≠ []) ∧
    s.buffer.length < n ∧
    GreedyChain n (groups ++ [gb])

/-! ## Model of `GenerateDomainPairs` (common/domain.go) -/

/-- The call `strings.Join(parts, sep)`: the parts with the separator between
every two neighbours; the empty string for no parts. -/
def Join : List GoString → GoString → GoString
  | [], _ => []
  | [a], _ => a
  | a :: b :: rest, sep => a ++ sep ++ Join (b :: rest) sep

/-- The function `GenerateDomainPairs`; `'.'` is 46. The loop
`for i := range n` appends the pair `(Join(parts[i:]), Join(parts[i+1:]))` for
`i = 0, ..., n-1`, with `n = len(parts) - 1`. -/
def GenerateDomainPairs (lib : GoStrings) (domain : GoString) : List (GoString × GoString) :=
  let domain := lib.ToLower (lib.TrimSpace domain)
  let parts := Split 46 domain
  let n := parts.length - 1
  (List.range n).map (fun i => (Join (parts.drop i) [46], Join (parts.drop (i + 1)) [46]))

/-! ## Model of `Unique` (pkg/common/common.go) -/

/-- The comparison `s < t` of two Go strings: byte-wise lexicographic, a proper
prefix being smaller. It is the order `sort.Strings` sorts by. -/
def strLess : GoString → GoString → Bool
  | _, [] => false
  | [], _ :: _ => true
  | a :: as, b :: bs => if a < b then true else if b < a then false else strLess as bs

/-- The comparison `s <= t` of two Go strings, as `!(t < s)`. -/
def StrLe (s t : GoString) : Prop := strLess t s = false

instance StrLe.decidable : DecidableRel StrLe := fun s t =>
  inferInstanceAs (Decidable (strLess t s = false))

/-- What `Unique` needs from `sort.Strings`, taken as a parameter: the slice
afterwards holds the same strings, in ascending order (no later element is
smaller than an earlier one). -/
structure SortsStrings (sort : List GoString → List GoString) : Prop where
  perm : ∀ l, (sort l).Perm l
  sorted : ∀ l, (sort l).Pairwise StrLe

/-- The local variables `seen` and `result` of `Unique`; the set `seen` is the
list of its keys. -/
structure UniqueState where
  seen : List GoString
  result : List GoString

/-- One iteration of the loop of `Unique`: a value not seen before is recorded
in `seen` and appended to `result`. -/
def uniqueStep (st : UniqueState) (val : GoString) : UniqueState :=
  if val ∈ st.seen then st
  else { seen := val :: st.seen, result := st.result ++ [val] }

/-- The function `Unique`, over the sorting function `sort.Strings`. -/
def Unique (sort : List GoString → List GoString) (input : List GoString) : List GoString :=
  sort (input.foldl uniqueStep { seen := [], result := [] }).result

/-- An insertion sort by `<=`, a concrete instance of `sort.Strings`. -/
def insertionSortStrings (l : List GoString) : List GoString :=
  l.insertionSort StrLe

/-! ## Vocabulary of the drain of a pending map -/

/-- The entries of the keys `n, n+1, ..., n+k-1` of a pending map, in key
order (an absent key reads as the nil slice). -/
def readyEntries {T : Type} (pending : List (Nat × List T)) (n k : Nat) : List (Nat × List T) :=
  (List.range k).map (fun j => (n + j, (pendingGet (n + j) pending).getD []))

/-- What a drain has done to the pending map of an input when, started at the
next expected index `n`, it took `k` entries and left the map `new` from the
map `old`: the keys `n, ..., n+k-1` were all present, the key `n+k` is absent,
and `new` is `old` without exactly these keys. -/
def DrainedRun {T : Type} (old new : List (Nat × List T)) (n k : Nat) : Prop :=
  (∀ j, j < k → pendingGet (n + j) old ≠ none) ∧
  pendingGet (n + k) old = none ∧
  ∀ i, pendingGet i new = if n ≤ i ∧ i < n + k then none else pendingGet i old

/-! ## Proofs: the chunk splitter -/

theorem payloads_append (a b : List BytesChunk) :
    payloads (a ++ b) = payloads a ++ payloads b := by
  simp [payloads]

theorem flatten_eq_nil_of_ne {gb : List (List Byte)} (h : ∀ l ∈ gb, l ≠ [])
    (hf : gb.flatten = []) : gb = [] := by
  cases gb with
  | nil => rfl
  | cons a t =>
    exfalso
    have ha : a ≠ [] := h a (by simp)
    simp at hf
    exact ha hf.1

theorem sliceInv_init (n : Nat) (hn : 0 < n) : SliceInv n ⟨0, [], []⟩ [] :=
  ⟨[], [], by simp [payloads], by simp, by simp, by simp, by simp, by simpa using hn,
    by simp, by simp⟩

/-- The invariant is kept by a flush of a non-empty buffer that is a legal group. -/
theorem sliceInv_flush {n : Nat} {s : SliceState} {L : List (List Byte)}
    (groups : List (List (List Byte))) (gb : List (List Byte))
    (hn : 0 < n)
    (h1 : payloads s.out = groups.map List.flatten)
    (h2 : s.buffer = gb.flatten)
    (h3 : groups.flatten ++ gb = L)
    (h4 : ∀ g ∈ groups, g ≠ [] ∧ ((List.flatten g).length ≤ n ∨ ∃ l, g = [l]))
    (h5 : ∀ l ∈ gb, l ≠ [])
    (h7 : s.index = s.out.length)
    (h8 : s.out.map BytesChunk.Index = List.range s.out.length)
    (hne : s.buffer ≠ [])
    (hg : (List.flatten gb).length ≤ n ∨ ∃ l, gb = [l]) :
    SliceInv n s.flush L := by
  have hlen : s.buffer.length ≠ 0 := by
    intro h; exact hne (List.length_eq_zero.mp h)
  have hgb : gb ≠ [] := by
    intro h; subst h; simp at h2; exact hne h2
  refine ⟨groups ++ [gb], [], ?_, ?_, ?_, ?_, ?_, ?_, ?_, ?_⟩
  · simp [SliceState.flush, hlen, payloads_append, h1]
    simp [payloads, h2]
  · simp [SliceState.flush, hlen]
  · simpa using h3
  · intro g hg'
    rcases List.mem_append.mp hg' with hg' | hg'
    · exact h4 g hg'
    · simp at hg'; subst hg'; exact ⟨hgb, hg⟩
  · simp
  · simpa [SliceState.flush, hlen] using hn
  · simp [SliceState.flush, hlen, h7]
  · simp [SliceState.flush, hlen, h8, h7, List.range_succ]

theorem sliceInv_step {n : Nat} (hn : 0 < n) {s : SliceState} {ls : List (List Byte)}
    (h : SliceInv n s ls) (line : List Byte) (hl : line ≠ []) :
    SliceInv n (processLine n s line) (ls ++ [line]) := by
  obtain ⟨groups, gb, h1, h2, h3, h4, h5, h6, h7, h8⟩ := h
  have hlpos : 0 < line.length := List.length_pos.mpr hl
  unfold processLine
  rw [if_pos hlpos]
  by_cases hA : line.length > n ∧ s.buffer.length = 0
  · rw [if_pos hA]
    have hb : s.buffer = [] := List.length_eq_zero.mp hA.2
    have hgb : gb = [] := flatten_eq_nil_of_ne h5 (by rw [← h2]; exact hb)
    subst hgb
    refine ⟨groups ++ [[line]], [], ?_, ?_, ?_, ?_, ?_, ?_, ?_, ?_⟩
    · simp [payloads_append, h1]; simp [payloads]
    · simpa using hb
    · simp at h3; simp [h3]
    · intro g hg
      rcases List.mem_append.mp hg with hg | hg
      · exact h4 g hg
      · simp at hg; subst hg; exact ⟨by simp, Or.inr ⟨line, rfl⟩⟩
    · simp
    · simpa [hb] using hn
    · simp [h7]
    · simp [h8, h7, List.range_succ]
  · rw [if_neg hA]
    by_cases hB : s.buffer.length + line.length > n ∧ s.buffer.length > 0
    · -- the buffer is flushed first, then the line starts a new buffer
      simp only [hB, and_self, if_true]
      have hne : s.buffer ≠ [] := List.length_pos.mp hB.2
      have hf : SliceInv n s.flush (groups.flatten ++ gb) :=
        sliceInv_flush groups gb hn h1 h2 rfl h4 h5 h7 h8 hne
          (Or.inl (by rw [← h2]; exact Nat.le_of_lt h6))
      have hfb : s.flush.buffer = [] := by
        simp [SliceState.flush, List.length_eq_zero, hne]
      obtain ⟨groups1, gb1, f1, f2, f3, f4, f5, _, f7, f8⟩ := hf
      have hgb1 : gb1 = [] := flatten_eq_nil_of_ne f5 (by rw [← f2]; exact hfb)
      subst hgb1
      simp only [hfb, List.nil_append]
      by_cases hC : line.length ≥ n
      · rw [if_pos hC]
        have := sliceInv_flush (s := ⟨s.flush.index, line, s.flush.out⟩) (L := ls ++ [line])
          groups1 [line] hn f1 (by simp) (by simp at f3; simp [f3, h3]) f4
          (by simpa using hl) f7 f8 hl (Or.inr ⟨line, rfl⟩)
        exact this
      · rw [if_neg hC]
        refine ⟨groups1, [line], f1, by simp, ?_, f4, by simpa using hl, ?_, f7, f8⟩
        · simp at f3; simp [f3, h3]
        · simpa using hC
    · simp only [hB, if_false]
      have hfit : s.buffer.length + line.length ≤ n ∨ gb = [] := by
        by_cases hz : s.buffer.length > 0
        · left
          by_contra hgt
          exact hB ⟨Nat.lt_of_not_le hgt, hz⟩
        · right
          have : s.buffer = [] := List.length_eq_zero.mp (Nat.eq_zero_of_not_pos hz)
          exact flatten_eq_nil_of_ne h5 (by rw [← h2]; exact this)
      have hgrp : (List.flatten (gb ++ [line])).length ≤ n ∨ ∃ l, gb ++ [line] = [l] := by
        rcases hfit with hfit | hfit
        · left; simpa [← h2] using hfit
        · right; exact ⟨line, by simp [hfit]⟩
      by_cases hC : (s.buffer ++ line).length ≥ n
      · rw [if_pos hC]
        exact sliceInv_flush (s := ⟨s.index, s.buffer ++ line, s.out⟩) (L := ls ++ [line])
          groups (gb ++ [line]) hn h1 (by simp [h2]) (by simp [← h3])
          h4 (by
            intro l hl'
            rcases List.mem_append.mp hl' with hl' | hl'
            · exact h5 l hl'
            · simp at hl'; subst hl'; exact hl)
          h7 h8 (by simp [hl]) hgrp
      · rw [if_neg hC]
        refine ⟨groups, gb ++ [line], h1, by simp [h2], by simp [← h3], h4, ?_, ?_, h7, h8⟩
        · intro l hl'
          rcases List.mem_append.mp hl' with hl' | hl'
          · exact h5 l hl'
          · simp at hl'; subst hl'; exact hl
        · simpa using hC

theorem sliceInv_loop {n : Nat} (hn : 0 < n) (lines : List (List Byte)) :
    ∀ (s : SliceState) (ls : List (List Byte)), SliceInv n s ls →
      SliceInv n (sliceLoop n s lines)
        (ls ++ lines.filter (fun l => decide (0 < l.length))) := by
  induction lines with
  | nil => intro s ls h; simpa [sliceLoop] using h
  | cons line rest ih =>
    intro s ls h
    by_cases hl : line = []
    · subst hl
      have hp : processLine n s [] = s := by simp [processLine]
      have := ih s ls h
      simpa [sliceLoop, hp] using this
    · have hpos : 0 < line.length := List.length_pos.mpr hl
      have := ih (processLine n s line) (ls ++ [line]) (sliceInv_step hn h line hl)
      simpa [sliceLoop, hpos, List.filter_cons] using this

/-- What the splitter emits: groups of consecutive input lines, each group
non-empty and either within the size bound or a single line, numbered from 0. -/
theorem slice_groups (r : Reader) {n : Nat} (hn : 0 < n) :
    ∃ groups : List (List (List Byte)),
      payloads (SliceToBytesChunks r n) = groups.map List.flatten ∧
      groups.flatten = inputLines r.data ∧
      (∀ g ∈ groups, g ≠ [] ∧ ((List.flatten g).length ≤ n ∨ ∃ l, g = [l])) ∧
      (SliceToBytesChunks r n).map BytesChunk.Index
        = List.range (SliceToBytesChunks r n).length := by
  have h := sliceInv_loop hn (readAll r.data) ⟨0, [], []⟩ [] (sliceInv_init n hn)
  have hn0 : ¬ n ≤ 0 := Nat.not_le.mpr hn
  simp only [SliceToBytesChunks, hn0, if_false]
  simp only [List.nil_append] at h
  by_cases hb : (sliceLoop n ⟨0, [], []⟩ (readAll r.data)).buffer.length > 0
  · simp only [hb, if_true]
    obtain ⟨groups, gb, h1, h2, h3, h4, h5, h6, h7, h8⟩ := h
    have hne : (sliceLoop n ⟨0, [], []⟩ (readAll r.data)).buffer ≠ [] := List.length_pos.mp hb
    obtain ⟨G, gb2, g1, g2, g3, g4, g5, _, _, g8⟩ :=
      sliceInv_flush (L := inputLines r.data) groups gb hn h1 h2 h3 h4 h5 h7 h8 hne
        (Or.inl (by rw [← h2]; exact Nat.le_of_lt h6))
    have hfb : (sliceLoop n ⟨0, [], []⟩ (readAll r.data)).flush.buffer = [] := by
      simp [SliceState.flush, List.length_eq_zero, hne]
    have hgb2 : gb2 = [] := flatten_eq_nil_of_ne g5 (by rw [← g2]; exact hfb)
    subst hgb2
    exact ⟨G, g1, by simpa using g3, g4, g8⟩
  · simp only [hb, if_false]
    obtain ⟨groups, gb, h1, h2, h3, h4, h5, _, _, h8⟩ := h
    have hnil : (sliceLoop n ⟨0, [], []⟩ (readAll r.data)).buffer = [] :=
      List.length_eq_zero.mp (Nat.eq_zero_of_not_pos hb)
    have hgb : gb = [] := flatten_eq_nil_of_ne h5 (by rw [← h2]; exact hnil)
    subst hgb
    exact ⟨groups, h1, by simpa using h3, h4, h8⟩

/-! ### The lines of an input -/

/-- The model of the read loop is the iteration of `ReadBytes` until it
returns a non-nil error, whatever that error is. -/
theorem readAll_eq_readBytes (r : Reader) :
    readAll r.data = match ReadBytes NL r with
      | (line, none, r2) => line :: readAll r2.data
      | (line, some _, _) => [line] := by
  obtain ⟨d, e⟩ := r
  simp only [ReadBytes]
  induction d with
  | nil => simp [readAll, readUntil]
  | cons b bs ih =>
    by_cases hb : b = NL
    · simp [readAll, readUntil, hb]
    · simp only [readAll, readUntil, hb, if_false]
      rw [ih]
      rcases hr : readUntil NL bs with ⟨line, _ | rest⟩ <;> simp

theorem readAll_flatten (d : List Byte) : (readAll d).flatten = d := by
  induction d with
  | nil => simp [readAll]
  | cons b bs ih =>
    by_cases hb : b = NL
    · simp [readAll, hb, ih]
    · simp only [readAll, hb, if_false]
      rcases hr : readAll bs with _ | ⟨l, ls⟩
      · rw [hr] at ih; simp at ih; simp [ih]
      · rw [hr] at ih; simp at ih; simp [ih]

theorem inputLines_flatten (d : List Byte) : (inputLines d).flatten = d := by
  have h := readAll_flatten d
  have key : ∀ L : List (List Byte),
      (L.filter (fun l => decide (0 < l.length))).flatten = L.flatten := by
    intro L
    induction L with
    | nil => rfl
    | cons a t ih =>
      by_cases ha : 0 < a.length
      · simp [List.filter_cons, ha, ih]
      · have : a = [] := List.length_eq_zero.mp (Nat.eq_zero_of_not_pos ha)
        subst this
        simp [List.filter_cons, ih]
  rw [inputLines, key, h]

theorem inputLines_ne_nil (d : List Byte) : ∀ l ∈ inputLines d, l ≠ [] := by
  intro l hl
  simp [inputLines, List.mem_filter] at hl
  exact List.length_pos.mp hl.2

/-- Shape of the result of the read loop: every line but the last ends with
the terminator and has no other terminator; the last has none. -/
theorem readAll_shape (d : List Byte) :
    ∃ init last, readAll d = init ++ [last] ∧
      (∀ l ∈ init, (∃ ys, l = ys ++ [NL]) ∧ NL ∉ l.dropLast) ∧ NL ∉ last := by
  induction d with
  | nil => exact ⟨[], [], by simp [readAll], by simp, by simp⟩
  | cons b bs ih =>
    obtain ⟨init, last, h1, h2, h3⟩ := ih
    by_cases hb : b = NL
    · refine ⟨[b] :: init, last, by simp [readAll, hb, h1], ?_, h3⟩
      intro l hl
      rcases List.mem_cons.mp hl with hl | hl
      · subst hl; exact ⟨⟨[], by simp [hb]⟩, by simp⟩
      · exact h2 l hl
    · cases init with
      | nil =>
        refine ⟨[], b :: last, ?_, by simp, ?_⟩
        · simp only [readAll, hb, if_false, h1]; simp
        · simp only [List.mem_cons, not_or]
          exact ⟨fun h => hb h.symm, h3⟩
      | cons i init2 =>
        refine ⟨(b :: i) :: init2, last, ?_, ?_, h3⟩
        · simp only [readAll, hb, if_false, h1]; simp
        · intro l hl
          rcases List.mem_cons.mp hl with hl | hl
          · subst hl
            obtain ⟨⟨ys, hys⟩, hno⟩ := h2 i (by simp)
            refine ⟨⟨b :: ys, by simp [hys]⟩, ?_⟩
            have hi : i ≠ [] := by rw [hys]; simp
            rw [List.dropLast_cons_of_ne_nil hi]
            simp only [List.mem_cons, not_or]
            exact ⟨fun h => hb h.symm, hno⟩
          · exact h2 l (List.mem_cons_of_mem _ hl)

theorem getElem?_middle {α : Type} (pre : List α) (l : α) (post : List α) :
    (pre ++ l :: post)[pre.length]? = some l := by
  rw [List.getElem?_append_right (Nat.le_refl _), Nat.sub_self, List.getElem?_cons_zero]

/-- Shape of the lines of an input: no line has a terminator before its last
byte, and every line that is followed by another ends with the terminator. -/
theorem inputLines_shape (d : List Byte) (pre : List (List Byte)) (l : List Byte)
    (post : List (List Byte)) (h : inputLines d = pre ++ l :: post) :
    NL ∉ l.dropLast ∧ (post ≠ [] → ∃ ys, l = ys ++ [NL]) := by
  obtain ⟨init, last, h1, h2, h3⟩ := readAll_shape d
  have hinit : init.filter (fun l => decide (0 < l.length)) = init := by
    rw [List.filter_eq_self]
    intro a ha
    obtain ⟨⟨ys, hys⟩, _⟩ := h2 a ha
    simp [hys]
  have hIL : inputLines d = init ++ [last].filter (fun l => decide (0 < l.length)) := by
    rw [inputLines, h1, List.filter_append, hinit]
  have htl : ([last].filter (fun l => decide (0 < l.length))).length ≤ 1 :=
    (List.length_filter_le _ _).trans (by simp)
  have hmem : l ∈ inputLines d := by rw [h]; simp
  constructor
  · have hl : l ∈ readAll d := by
      simp only [inputLines, List.mem_filter] at hmem
      exact hmem.1
    rw [h1] at hl
    rcases List.mem_append.mp hl with hl | hl
    · exact (h2 l hl).2
    · simp at hl; subst hl
      exact fun hc => h3 (List.mem_of_mem_dropLast hc)
  · intro hpost
    have hpl : 0 < post.length := List.length_pos.mpr hpost
    have hlen : pre.length < init.length := by
      have := congrArg List.length (h.symm.trans hIL)
      simp only [List.length_append, List.length_cons] at this
      omega
    have e1 : (inputLines d)[pre.length]? = some l := by
      rw [h]; exact getElem?_middle pre l post
    have e2 : (inputLines d)[pre.length]? = init[pre.length]? := by
      rw [hIL]; exact List.getElem?_append_left hlen
    have : l ∈ init := List.getElem?_mem (e2.symm.trans e1)
    exact (h2 l this).1

/-- Splitting a grouping at a line that can only sit in a group of its own. -/
theorem groups_split_at {P : List Byte → Prop} (G : List (List (List Byte))) :
    ∀ (pre : List (List Byte)) (l : List Byte) (post : List (List Byte)),
      G.flatten = pre ++ l :: post → P l →
      (∀ g ∈ G, ∀ x ∈ g, P x → g = [x]) →
      ∃ G1 G2, G = G1 ++ [l] :: G2 ∧ G1.flatten = pre ∧ G2.flatten = post := by
  induction G with
  | nil => intro pre l post h; simp at h
  | cons g G ih =>
    intro pre l post h hP hall
    simp only [List.flatten_cons] at h
    rcases List.append_eq_append_iff.mp h with ⟨a, ha1, ha2⟩ | ⟨c, hc1, hc2⟩
    · obtain ⟨G1, G2, e1, e2, e3⟩ := ih a l post ha2 hP
        (fun g' hg' => hall g' (List.mem_cons_of_mem _ hg'))
      exact ⟨g :: G1, G2, by simp [e1], by simp [e2, ha1], e3⟩
    · cases c with
      | nil =>
        simp at hc1 hc2
        obtain ⟨G1, G2, e1, e2, e3⟩ := ih [] l post hc2.symm hP
          (fun g' hg' => hall g' (List.mem_cons_of_mem _ hg'))
        exact ⟨g :: G1, G2, by simp [e1], by simp [e2, hc1], e3⟩
      | cons x c =>
        simp only [List.cons_append, List.cons.injEq] at hc2
        obtain ⟨hx, hpost⟩ := hc2
        subst hx
        have hg : g = [l] := hall g (by simp) l (by rw [hc1]; simp) hP
        rw [hg] at hc1
        have hpre : pre = [] := by
          cases pre with
          | nil => rfl
          | cons p ps =>
            have := congrArg List.length hc1
            simp at this
        subst hpre
        simp at hc1
        subst hc1
        exact ⟨[], G, by simp [hg], by simp, by simpa using hpost.symm⟩

/-- The index of a chunk is its position in the emission order. -/
theorem index_of_position {cs cs1 cs2 : List BytesChunk} {c : BytesChunk}
    (hidx : cs.map BytesChunk.Index = List.range cs.length)
    (h : cs = cs1 ++ c :: cs2) : c.Index = cs1.length := by
  have hlt : cs1.length < cs.length := by rw [h]; simp
  have e1 : (cs.map BytesChunk.Index)[cs1.length]? = some c.Index := by
    rw [h, List.map_append, List.map_cons]
    have := getElem?_middle (cs1.map BytesChunk.Index) c.Index (cs2.map BytesChunk.Index)
    simpa using this
  rw [hidx, List.getElem?_range hlt] at e1
  exact (Option.some.inj e1).symm

/-! ### Claims about the chunk splitter -/

/-- C1 (byte-completeness): for every input and every positive chunk size the
payloads of the chunks emitted by `SliceToBytesChunks`, concatenated in
emission order, are exactly the bytes of the input. -/
theorem C1_byte_completeness (r : Reader) (chunkSize : Nat) (h : 0 < chunkSize) :
    (payloads (SliceToBytesChunks r chunkSize)).flatten = r.data := by
  obtain ⟨groups, h1, h2, _, _⟩ := slice_groups r h
  rw [h1, ← List.flatten_flatten, h2, inputLines_flatten]

/-- Witness of C1 on the input `"line1\nline2\nline3\n"` with chunk size 15. -/
theorem C1_byte_completeness_witness :
    0 < 15 ∧ (payloads (SliceToBytesChunks ⟨bytes "line1\nline2\nline3\n", none⟩ 15)).flatten
      = bytes "line1\nline2\nline3\n" :=
  ⟨by decide, C1_byte_completeness ⟨bytes "line1\nline2\nline3\n", none⟩ 15 (by decide)⟩

/-- C2 (chunk indices): the i-th chunk emitted by `SliceToBytesChunks` carries
`Index = i`: the indices of the emitted chunks are `0, 1, ..., n-1` in emission
order, on the oversized-line path as on the buffer-flush path. -/
theorem C2_chunk_indices (r : Reader) (chunkSize : Nat) :
    (SliceToBytesChunks r chunkSize).map BytesChunk.Index
      = List.range (SliceToBytesChunks r chunkSize).length := by
  rcases Nat.eq_zero_or_pos chunkSize with h0 | hpos
  · subst h0; simp [SliceToBytesChunks]
  · obtain ⟨_, _, _, _, h4⟩ := slice_groups r hpos
    exact h4

/-- C3 (line-atomicity): every chunk emitted by `SliceToBytesChunks` is the
concatenation of one or more consecutive whole lines of the input, the groups
of lines of the successive chunks partitioning the lines of the input in
order; and every chunk that is followed by another ends with the terminator. -/
theorem C3_line_atomicity (r : Reader) (chunkSize : Nat) (h : 0 < chunkSize) :
    (∃ groups : List (List (List Byte)),
      (∀ g ∈ groups, g ≠ []) ∧
      groups.flatten = inputLines r.data ∧
      payloads (SliceToBytesChunks r chunkSize) = groups.map List.flatten) ∧
    (∀ (cs : List BytesChunk) (c c2 : BytesChunk) (rest : List BytesChunk),
      SliceToBytesChunks r chunkSize = cs ++ c :: c2 :: rest →
      c.Data.getLast? = some NL) := by
  obtain ⟨groups, h1, h2, h3, _⟩ := slice_groups r h
  refine ⟨⟨groups, fun g hg => (h3 g hg).1, h2, h1⟩, ?_⟩
  intro cs c c2 rest hsplit
  rw [hsplit] at h1
  simp only [payloads, List.map_append, List.map_cons] at h1
  obtain ⟨G1, GB, e1, _, e3⟩ := List.map_eq_append_iff.mp h1.symm
  obtain ⟨g, GB2, f1, f2, f3⟩ := List.map_eq_cons_iff.mp e3
  obtain ⟨g2, G2, k1, _, _⟩ := List.map_eq_cons_iff.mp f3
  subst f1 k1 e1
  have hg : g ≠ [] := (h3 g (by simp)).1
  have hg2 : g2 ≠ [] := (h3 g2 (by simp)).1
  rcases List.eq_nil_or_concat g with hnil | ⟨gi, l, hgl⟩
  · exact absurd hnil hg
  · rw [List.concat_eq_append] at hgl
    have hdecomp : inputLines r.data
        = (G1.flatten ++ gi) ++ l :: (g2 ++ G2.flatten) := by
      rw [← h2, hgl]; simp
    obtain ⟨ys, hys⟩ := (inputLines_shape r.data _ l _ hdecomp).2 (by simp [hg2])
    rw [← f2, hgl, List.flatten_append, hys]
    simp [List.getLast?_append]

/-- Witness of C3 on the input `"line1\nline2"` with chunk size 10. -/
theorem C3_line_atomicity_witness :
    0 < 10 ∧
    ((∃ groups : List (List (List Byte)),
      (∀ g ∈ groups, g ≠ []) ∧
      groups.flatten = inputLines (bytes "line1\nline2") ∧
      payloads (SliceToBytesChunks ⟨bytes "line1\nline2", none⟩ 10)
        = groups.map List.flatten) ∧
    (∀ (cs : List BytesChunk) (c c2 : BytesChunk) (rest : List BytesChunk),
      SliceToBytesChunks ⟨bytes "line1\nline2", none⟩ 10 = cs ++ c :: c2 :: rest →
      c.Data.getLast? = some NL)) :=
  ⟨by decide, C3_line_atomicity ⟨bytes "line1\nline2", none⟩ 10 (by decide)⟩

/-- C4 (oversized line): every line of the input that is longer than the chunk
size is emitted as a chunk whose payload is exactly that line, at the index
equal to the number of chunks emitted before it, the chunks before it holding
exactly the lines before it and the chunks after it the lines after it;
whether the buffer was empty or not when the line was read. -/
theorem C4_oversized_line (r : Reader) (chunkSize : Nat) (h : 0 < chunkSize)
    (pre : List (List Byte)) (l : List Byte) (post : List (List Byte))
    (hl : inputLines r.data = pre ++ l :: post) (hbig : chunkSize < l.length) :
    ∃ cs1 cs2 : List BytesChunk,
      SliceToBytesChunks r chunkSize = cs1 ++ ⟨cs1.length, l⟩ :: cs2 ∧
      (payloads cs1).flatten = pre.flatten ∧
      (payloads cs2).flatten = post.flatten := by
  obtain ⟨groups, h1, h2, h3, h4⟩ := slice_groups r h
  have hsingle : ∀ g ∈ groups, ∀ x ∈ g, chunkSize < x.length → g = [x] := by
    intro g hg x hx hxbig
    rcases (h3 g hg).2 with hle | ⟨y, hy⟩
    · exfalso
      have : x.length ≤ (List.flatten g).length := by
        obtain ⟨a, b, hab⟩ := List.append_of_mem hx
        rw [hab]; simp; omega
      omega
    · subst hy; simp at hx; subst hx; rfl
  obtain ⟨G1, G2, e1, e2, e3⟩ :=
    groups_split_at (P := fun x => chunkSize < x.length) groups pre l post
      (h2.trans hl) hbig hsingle
  rw [e1] at h1
  simp only [payloads, List.map_append, List.map_cons] at h1
  obtain ⟨cs1, csB, f1, f2, f3⟩ := List.map_eq_append_iff.mp h1
  obtain ⟨c, cs2, k1, k2, k3⟩ := List.map_eq_cons_iff.mp f3
  subst k1
  have hidx : c.Index = cs1.length := index_of_position h4 f1
  have hc : c = ⟨cs1.length, l⟩ := by
    cases c with
    | mk i d =>
      simp at k2 hidx
      simp [k2, hidx]
  refine ⟨cs1, cs2, by rw [f1, hc], ?_, ?_⟩
  · simp only [payloads]; rw [f2, ← List.flatten_flatten, e2]
  · simp only [payloads]; rw [k3, ← List.flatten_flatten, e3]

/-- Witness of C4 on the test `OversizedLine`: 20 bytes `x` and a terminator,
then `"short\n"`, with chunk size 10. -/
theorem C4_oversized_line_witness :
    ∃ cs1 cs2 : List BytesChunk,
      SliceToBytesChunks ⟨bytes "xxxxxxxxxxxxxxxxxxxx\nshort\n", none⟩ 10
        = cs1 ++ ⟨cs1.length, bytes "xxxxxxxxxxxxxxxxxxxx\n"⟩ :: cs2 ∧
      (payloads cs1).flatten = List.flatten ([] : List (List Byte)) ∧
      (payloads cs2).flatten = List.flatten [bytes "short\n"] :=
  C4_oversized_line ⟨bytes "xxxxxxxxxxxxxxxxxxxx\nshort\n", none⟩ 10 (by decide)
    [] (bytes "xxxxxxxxxxxxxxxxxxxx\n") [bytes "short\n"] (by decide) (by decide)

/-- The two examples of C4, evaluated: the test `OversizedLine` gives the long
line alone at index 0 and `"short\n"` at index 1; 15 bytes without terminator
with chunk size 4 give one chunk. -/
theorem oversized_examples :
    SliceToBytesChunks ⟨bytes "xxxxxxxxxxxxxxxxxxxx\nshort\n", none⟩ 10
      = [⟨0, bytes "xxxxxxxxxxxxxxxxxxxx\n"⟩, ⟨1, bytes "short\n"⟩] ∧
    SliceToBytesChunks ⟨bytes "abcabcabcabcabc", none⟩ 4
      = [⟨0, bytes "abcabcabcabcabc"⟩] := by
  constructor <;> decide

/-- C5 (size bound): a chunk emitted by `SliceToBytesChunks` that holds more
than one line (a terminator before its last byte) is at most `chunkSize` bytes
long, and a chunk longer than `chunkSize` is a single line of the input. -/
theorem C5_size_bound (r : Reader) (chunkSize : Nat) (h : 0 < chunkSize)
    (c : BytesChunk) (hc : c ∈ SliceToBytesChunks r chunkSize) :
    (NL ∈ c.Data.dropLast → c.Data.length ≤ chunkSize) ∧
    (chunkSize < c.Data.length → c.Data ∈ inputLines r.data ∧ NL ∉ c.Data.dropLast) := by
  obtain ⟨groups, h1, h2, h3, _⟩ := slice_groups r h
  have hd : c.Data ∈ payloads (SliceToBytesChunks r chunkSize) :=
    List.mem_map.mpr ⟨c, hc, rfl⟩
  rw [h1] at hd
  obtain ⟨g, hg, hgc⟩ := List.mem_map.mp hd
  have hline : ∀ l, g = [l] → c.Data ∈ inputLines r.data ∧ NL ∉ c.Data.dropLast := by
    intro l hgl
    subst hgl
    have hgc2 : l = c.Data := by simpa using hgc
    have hmem : l ∈ inputLines r.data := by
      rw [← h2]; exact List.mem_flatten.mpr ⟨[l], hg, by simp⟩
    obtain ⟨a, b, hab⟩ := List.append_of_mem hmem
    rw [← hgc2]
    exact ⟨hmem, (inputLines_shape r.data a l b hab).1⟩
  constructor
  · intro hnl
    rcases (h3 g hg).2 with hle | ⟨l, hgl⟩
    · rw [← hgc]; exact hle
    · exact absurd hnl (hline l hgl).2
  · intro hbig
    rcases (h3 g hg).2 with hle | ⟨l, hgl⟩
    · rw [hgc] at hle; omega
    · exact hline l hgl

/-- Witness of C5 on the first chunk of `"line1\nline2\nline3\n"` with chunk size 15. -/
theorem C5_size_bound_witness :
    (NL ∈ (bytes "line1\nline2\n").dropLast → (bytes "line1\nline2\n").length ≤ 15) ∧
    (15 < (bytes "line1\nline2\n").length →
      bytes "line1\nline2\n" ∈ inputLines (bytes "line1\nline2\nline3\n") ∧
      NL ∉ (bytes "line1\nline2\n").dropLast) :=
  C5_size_bound ⟨bytes "line1\nline2\nline3\n", none⟩ 15 (by decide)
    ⟨0, bytes "line1\nline2\n"⟩ (by decide)

/-! ## Proofs: Go maps and contexts -/

theorem pendingGet_delete {T : Type} (i k : Nat) (m : List (Nat × List T)) :
    pendingGet i (pendingDelete k m) = if i = k then none else pendingGet i m := by
  induction m with
  | nil => simp [pendingDelete, pendingGet]
  | cons kv rest ih =>
    obtain ⟨a, b⟩ := kv
    simp only [pendingDelete] at ih ⊢
    by_cases hak : a = k
    · subst hak
      simp only [List.filter_cons, ne_eq, not_true_eq_false, decide_False]
      simp only [Bool.false_eq_true, if_false]
      rw [ih]
      by_cases hia : i = a
      · simp [hia]
      · have : ¬ a = i := fun h => hia h.symm
        simp [pendingGet, hia, this]
    · simp only [List.filter_cons, ne_eq, hak, not_false_eq_true, decide_True, if_true]
      simp only [pendingGet]
      by_cases hai : a = i
      · subst hai; simp [hak]
      · simp only [hai, if_false]; exact ih

theorem pendingGet_set {T : Type} (i k : Nat) (items : List T) (m : List (Nat × List T)) :
    pendingGet i (pendingSet k items m) = if i = k then some items else pendingGet i m := by
  simp only [pendingSet, pendingGet]
  by_cases hki : k = i
  · simp [hki]
  · have : ¬ i = k := fun h => hki h.symm
    simp [hki, this, pendingGet_delete]

theorem pendingDelete_length_lt {T : Type} (k : Nat) (m : List (Nat × List T)) (e : List T)
    (h : pendingGet k m = some e) : (pendingDelete k m).length < m.length := by
  induction m with
  | nil => simp [pendingGet] at h
  | cons kv rest ih =>
    obtain ⟨a, b⟩ := kv
    simp only [pendingDelete] at ih ⊢
    by_cases hak : a = k
    · subst hak
      simp only [List.filter_cons, ne_eq, not_true_eq_false, decide_False]
      simp only [Bool.false_eq_true, if_false, List.length_cons]
      exact Nat.lt_succ_of_le (List.length_filter_le _ _)
    · simp only [pendingGet, hak, if_false] at h
      simp only [List.filter_cons, ne_eq, hak, not_false_eq_true, decide_True, if_true,
        List.length_cons]
      exact Nat.succ_lt_succ (ih h)

theorem quietFor_succ {ctx : Context} {k : Nat} (h : ctx.quietFor (k + 1)) :
    ctx.isDone = false ∧ ctx.tick.quietFor k := by
  obtain ⟨d, c⟩ := ctx
  cases d with
  | none => exact ⟨rfl, by intro d hd; simp [Context.tick] at hd⟩
  | some d =>
    have hd := h d rfl
    cases d with
    | zero => omega
    | succ d =>
      refine ⟨rfl, ?_⟩
      intro e he
      simp [Context.tick] at he
      omega

theorem quietFor_background (k : Nat) : Context.background.quietFor k := by
  intro d hd
  simp [Context.background] at hd

/-! ## Proofs: CollectOrdered -/

/-- Without cancellation and without a failed batch, `CollectOrdered` runs
the loop body on every batch and returns the map. -/
theorem collectLoop_quiet {T : Type} (inp : List (ProcessedChunk T)) :
    ∀ (ctx : Context) (st : CollectState T), ctx.quietFor (inp.length + 1) →
      (∀ b ∈ inp, b.Err = none) →
      collectLoop ctx st inp = ⟨some (inp.foldl collectStep st).results, none, []⟩ := by
  induction inp with
  | nil =>
    intro ctx st hq _
    simp [collectLoop, (quietFor_succ hq).1]
  | cons b rest ih =>
    intro ctx st hq herr
    have hb : b.Err = none := herr b (by simp)
    have hq2 := quietFor_succ hq
    simp only [collectLoop, hq2.1, hb, Bool.false_eq_true, if_false, List.foldl_cons]
    exact ih ctx.tick (collectStep st b) hq2.2 (fun x hx => herr x (List.mem_cons_of_mem _ hx))

theorem drainLoop_frame {T : Type} (g f : String) (hfg : f ≠ g) (fuel : Nat) :
    ∀ st : CollectState T,
      (drainLoop fuel g st).results f = st.results f ∧
      (drainLoop fuel g st).nextIndex f = st.nextIndex f ∧
      (drainLoop fuel g st).buffers f = st.buffers f := by
  induction fuel with
  | zero => intro st; simp [drainLoop]
  | succ fuel ih =>
    intro st
    simp only [drainLoop]
    cases hb : st.buffers g with
    | none => simp
    | some pending =>
      simp only
      cases hp : pendingGet (st.nextIndex g) pending with
      | none =>
        simp only
        split_ifs <;> simp [setKey, hfg]
      | some entry =>
        simp only
        obtain ⟨h1, h2, h3⟩ := ih
          { results := setKey st.results g (some (readSlice st.results g ++ entry)),
            nextIndex := setCount st.nextIndex g (st.nextIndex g + 1),
            buffers := setKey st.buffers g (some (pendingDelete (st.nextIndex g) pending)) }
        rw [h1, h2, h3]
        simp [setKey, setCount, hfg]

/-- A batch of another input leaves the three maps untouched at input `f`. -/
theorem collectStep_frame {T : Type} (st : CollectState T) (res : ProcessedChunk T)
    (f : String) (hf : res.File ≠ f) :
    (collectStep st res).results f = st.results f ∧
    (collectStep st res).nextIndex f = st.nextIndex f ∧
    (collectStep st res).buffers f = st.buffers f := by
  have hfg : f ≠ res.File := fun h => hf h.symm
  simp only [collectStep]
  cases hi : res.Items with
  | none => simp
  | some items =>
    simp only
    split_ifs with hidx
    · simp only [drainBuffer]
      obtain ⟨h1, h2, h3⟩ := drainLoop_frame res.File f hfg
        (pendingCount st.buffers res.File + 1)
        { results := setKey st.results res.File (some (readSlice st.results res.File ++ items)),
          nextIndex := setCount st.nextIndex res.File (st.nextIndex res.File + 1),
          buffers := st.buffers }
      rw [h1, h2, h3]
      simp [setKey, setCount, hfg]
    · simp [setKey, hfg]

/-- The loop of `drainBuffer` ends through its `return`, never by the bound on
the iterations, and re-establishes the invariant between batches. -/
theorem drainLoop_inv {T : Type} (f : String) (v : Nat → List T) (seen : List Nat)
    (fuel : Nat) :
    ∀ st : CollectState T, DrainInv st f v seen → pendingCount st.buffers f < fuel →
      FileInv (drainLoop fuel f st) f v seen := by
  induction fuel with
  | zero => intro st _ h; omega
  | succ fuel ih =>
    intro st hinv hfuel
    simp only [drainLoop]
    cases hb : st.buffers f with
    | none =>
      simp only
      refine ⟨hinv, ?_⟩
      intro hmem
      have := hinv.pendSome _ hmem (Nat.le_refl _)
      simp [hb, pendingGet] at this
    | some pending =>
      simp only
      cases hp : pendingGet (st.nextIndex f) pending with
      | none =>
        have hfresh : st.nextIndex f ∉ seen := by
          intro hmem
          have := hinv.pendSome _ hmem (Nat.le_refl _)
          simp [hb, hp] at this
        simp only
        split_ifs with hlen
        · have hnil : pending = [] := List.length_eq_zero.mp hlen
          refine ⟨⟨hinv.below, hinv.recs, ?_, ?_⟩, hfresh⟩
          · intro i hi hle
            have := hinv.pendSome i hi hle
            simpa [setKey, hb, hnil] using this
          · intro i hi
            simp [setKey, pendingGet]
        · exact ⟨hinv, hfresh⟩
      | some entry =>
        simp only
        have hnext : st.nextIndex f ∈ seen := by
          by_contra hmem
          have := hinv.pendNone _ (Or.inl hmem)
          simp [hb, hp] at this
        have hentry : entry = v (st.nextIndex f) := by
          have := hinv.pendSome _ hnext (Nat.le_refl _)
          simp [hb, hp] at this
          exact this
        apply ih
        · refine ⟨?_, ?_, ?_, ?_⟩
          · intro i hi
            simp only [setCount, if_true] at hi
            rcases Nat.lt_succ_iff_lt_or_eq.mp hi with h | h
            · exact hinv.below i h
            · rw [h]; exact hnext
          · simp only [readSlice, setKey, setCount, if_true, Option.getD_some]
            rw [List.range_succ, List.flatMap_append]
            have := hinv.recs
            simp only [readSlice] at this
            rw [this, hentry]
            simp
          · intro i hi hle
            simp only [setCount, if_true] at hle
            simp only [setKey, if_true, Option.getD_some, pendingGet_delete]
            have hne : ¬ i = st.nextIndex f := by omega
            simp only [hne, if_false]
            have := hinv.pendSome i hi (by omega)
            simpa [hb] using this
          · intro i hi
            simp only [setCount, if_true] at hi
            simp only [setKey, if_true, Option.getD_some, pendingGet_delete]
            by_cases hne : i = st.nextIndex f
            · simp [hne]
            · simp only [hne, if_false]
              have := hinv.pendNone i (by
                rcases hi with h | h
                · exact Or.inl h
                · exact Or.inr (by omega))
              simpa [hb] using this
        · have := pendingDelete_length_lt _ _ _ hp
          simp only [pendingCount, setKey, if_true]
          simp only [pendingCount, hb] at hfuel
          omega

/-- The loop body of `CollectOrdered` keeps the invariant of the input of the
batch, whose index is received for the first time. -/
theorem collectStep_inv {T : Type} (st : CollectState T) (f : String) (v : Nat → List T)
    (seen : List Nat) (res : ProcessedChunk T) (hinv : FileInv st f v seen)
    (hf : res.File = f) (hitems : res.Items = some (v res.ChunkIndex))
    (hnew : res.ChunkIndex ∉ seen) :
    FileInv (collectStep st res) f v (res.ChunkIndex :: seen) := by
  obtain ⟨file, idx, items, err⟩ := res
  simp only at hf hitems hnew
  subst hf hitems
  simp only [collectStep]
  split_ifs with hidx
  · simp only [drainBuffer]
    apply drainLoop_inv
    · refine ⟨?_, ?_, ?_, ?_⟩
      · intro i hi
        simp only [setCount, if_true] at hi
        rcases Nat.lt_succ_iff_lt_or_eq.mp hi with h | h
        · exact List.mem_cons_of_mem _ (hinv.below i h)
        · rw [h, hidx]; simp
      · simp only [readSlice, setKey, setCount, if_true, Option.getD_some]
        rw [List.range_succ, List.flatMap_append]
        have := hinv.recs
        simp only [readSlice] at this
        rw [this, hidx]
        simp
      · intro i hi hle
        simp only [setCount, if_true] at hle
        rcases List.mem_cons.mp hi with h | h
        · omega
        · exact hinv.pendSome i h (by omega)
      · intro i hi
        simp only [setCount, if_true] at hi
        by_cases hmem : i ∈ seen
        · apply hinv.pendNone i
          right
          rcases hi with h | h
          · exact absurd (List.mem_cons_of_mem _ hmem) h
          · rcases Nat.lt_succ_iff_lt_or_eq.mp h with h2 | h2
            · exact h2
            · exact absurd (h2 ▸ hmem) hinv.fresh
        · exact hinv.pendNone i (Or.inl hmem)
    · simp
  · have hgt : st.nextIndex file < idx := by
      rcases Nat.lt_trichotomy idx (st.nextIndex file) with h | h | h
      · exact absurd (hinv.below idx h) hnew
      · exact absurd h hidx
      · exact h
    refine ⟨⟨?_, hinv.recs, ?_, ?_⟩, ?_⟩
    · intro i hi
      exact List.mem_cons_of_mem _ (hinv.below i hi)
    · intro i hi hle
      simp only [setKey, if_true, Option.getD_some, pendingGet_set]
      by_cases hii : i = idx
      · simp [hii]
      · simp only [hii, if_false]
        rcases List.mem_cons.mp hi with h | h
        · exact absurd h hii
        · exact hinv.pendSome i h hle
    · intro i hi
      simp only [setKey, if_true, Option.getD_some, pendingGet_set]
      have hii : ¬ i = idx := by
        rcases hi with h | h
        · intro hc; exact h (hc ▸ List.mem_cons_self _ _)
        · simp only at h; omega
      simp only [hii, if_false]
      apply hinv.pendNone i
      rcases hi with h | h
      · exact Or.inl (fun hc => h (List.mem_cons_of_mem _ hc))
      · exact Or.inr h
    · intro hc
      rcases List.mem_cons.mp hc with h | h
      · exact hidx h.symm
      · exact hinv.fresh h

theorem fileInv_of_eq {T : Type} {st st2 : CollectState T} {f : String} {v : Nat → List T}
    {seen : List Nat} (hinv : FileInv st f v seen)
    (h1 : st2.results f = st.results f) (h2 : st2.nextIndex f = st.nextIndex f)
    (h3 : st2.buffers f = st.buffers f) : FileInv st2 f v seen := by
  refine ⟨⟨?_, ?_, ?_, ?_⟩, ?_⟩
  · intro i hi; rw [h2] at hi; exact hinv.below i hi
  · simp only [readSlice, h1, h2]; exact hinv.recs
  · intro i hi hle; rw [h2] at hle; rw [h3]; exact hinv.pendSome i hi hle
  · intro i hi; rw [h2] at hi; rw [h3]; exact hinv.pendNone i hi
  · rw [h2]; exact hinv.fresh

theorem fileInv_init {T : Type} (f : String) (v : Nat → List T) :
    FileInv (⟨fun _ => none, fun _ => 0, fun _ => none⟩ : CollectState T) f v [] := by
  refine ⟨⟨?_, ?_, ?_, ?_⟩, ?_⟩
  · intro i hi; simp at hi
  · simp [readSlice]
  · intro i hi; simp at hi
  · intro i _; simp [pendingGet]
  · simp

theorem fileIndices_cons {T : Type} (b : ProcessedChunk T) (rest : List (ProcessedChunk T))
    (f : String) :
    fileIndices (b :: rest) f
      = if b.File = f then b.ChunkIndex :: fileIndices rest f else fileIndices rest f := by
  by_cases h : b.File = f <;> simp [fileIndices, List.filter_cons, h]

/-- The invariant of an input after a run of batches in which its indices
are pairwise distinct and carry the records `v`. -/
theorem collect_fold_inv {T : Type} (f : String) (v : Nat → List T)
    (inp : List (ProcessedChunk T)) :
    ∀ (st : CollectState T) (seen : List Nat), FileInv st f v seen →
      (∀ b ∈ inp, b.File = f → b.Items = some (v b.ChunkIndex)) →
      (fileIndices inp f).Nodup → (∀ i ∈ fileIndices inp f, i ∉ seen) →
      ∃ seen2, FileInv (inp.foldl collectStep st) f v seen2 ∧
        ∀ i, i ∈ seen2 ↔ (i ∈ seen ∨ i ∈ fileIndices inp f) := by
  induction inp with
  | nil =>
    intro st seen hinv _ _ _
    exact ⟨seen, hinv, by simp [fileIndices]⟩
  | cons b rest ih =>
    intro st seen hinv hitems hnodup hnew
    rw [fileIndices_cons] at hnodup hnew
    simp only [List.foldl_cons]
    by_cases hbf : b.File = f
    · simp only [hbf, if_true] at hnodup hnew
      have hstep := collectStep_inv st f v seen b hinv hbf (hitems b (by simp) hbf)
        (hnew _ (by simp))
      obtain ⟨seen2, h1, h2⟩ := ih (collectStep st b) (b.ChunkIndex :: seen) hstep
        (fun x hx => hitems x (List.mem_cons_of_mem _ hx))
        (List.nodup_cons.mp hnodup).2
        (by
          intro i hi hc
          rcases List.mem_cons.mp hc with h | h
          · exact (List.nodup_cons.mp hnodup).1 (h ▸ hi)
          · exact hnew i (List.mem_cons_of_mem _ hi) h)
      refine ⟨seen2, h1, ?_⟩
      intro i
      rw [h2 i, fileIndices_cons]
      simp only [hbf, if_true, List.mem_cons]
      tauto
    · simp only [hbf, if_false] at hnodup hnew
      obtain ⟨e1, e2, e3⟩ := collectStep_frame st b f hbf
      obtain ⟨seen2, h1, h2⟩ := ih (collectStep st b) seen (fileInv_of_eq hinv e1 e2 e3)
        (fun x hx => hitems x (List.mem_cons_of_mem _ hx)) hnodup hnew
      refine ⟨seen2, h1, ?_⟩
      intro i
      rw [h2 i, fileIndices_cons]
      simp only [hbf, if_false]

/-- What `CollectOrdered` returns for an input whose batches carry pairwise
distinct indices and non-nil records `v`, without failed batch or
cancellation: the records of the indices below the least index not received. -/
theorem collect_records {T : Type} (ctx : Context) (inp : List (ProcessedChunk T))
    (f : String) (v : Nat → List T)
    (hq : ctx.quietFor (inp.length + 1))
    (herr : ∀ b ∈ inp, b.Err = none)
    (hitems : ∀ b ∈ inp, b.File = f → b.Items = some (v b.ChunkIndex))
    (hnodup : (fileIndices inp f).Nodup) :
    ∃ m, (∀ i, i < m → i ∈ fileIndices inp f) ∧ m ∉ fileIndices inp f ∧
      (CollectOrdered ctx inp).records f = (List.range m).flatMap v ∧
      (CollectOrdered ctx inp).err = none ∧
      (CollectOrdered ctx inp).results.isSome = true := by
  obtain ⟨seen2, hinv, hmem⟩ := collect_fold_inv f v inp _ [] (fileInv_init f v) hitems hnodup
    (by simp)
  refine ⟨(inp.foldl collectStep ⟨fun _ => none, fun _ => 0, fun _ => none⟩).nextIndex f,
    ?_, ?_, ?_, ?_, ?_⟩
  · intro i hi
    have := (hmem i).mp (hinv.below i hi)
    simpa using this
  · intro hc
    exact hinv.fresh ((hmem _).mpr (Or.inr hc))
  · simp only [CollectOrdered, collectLoop_quiet inp ctx _ hq herr, CollectOutcome.records]
    exact hinv.recs
  · simp only [CollectOrdered, collectLoop_quiet inp ctx _ hq herr]
  · simp only [CollectOrdered, collectLoop_quiet inp ctx _ hq herr, Option.isSome_some]

/-! ### Claims about CollectOrdered -/

/-- C6, as stated, fails: a transform that returns nil items for chunk 0 and
the record 7 for chunk 1 (no error). The batch of chunk 0 is skipped without
advancing the next expected index, so the record of chunk 1 is never
delivered: the result for the input is empty, not `[7]`. -/
theorem C6_counterexample :
    (CollectOrdered Context.background
      [(⟨"a", 0, none, none⟩ : ProcessedChunk Nat), ⟨"a", 1, some [7], none⟩]).records "a" = []
    ∧ (CollectOrdered Context.background
      [(⟨"a", 0, none, none⟩ : ProcessedChunk Nat), ⟨"a", 1, some [7], none⟩]).records "a"
      ≠ (none : Option (List Nat)).getD [] ++ (some [7]).getD [] := by
  constructor <;> decide

/-- C6 (order restoration), amended: when the batches of an input `f` arrive
in any order, interleaved in any way with error-free batches of other
inputs, each index `0..n-1` exactly once with non-nil items `v i` and no
error, and no cancellation is observed, `CollectOrdered` returns for `f` the
concatenation of `v 0, ..., v (n-1)` in ascending index order, with a nil error. -/
theorem C6_order_restoration {T : Type} (ctx : Context) (f : String) (n : Nat)
    (v : Nat → List T) (arrival : List (ProcessedChunk T))
    (hq : ctx.quietFor (arrival.length + 1))
    (herr : ∀ b ∈ arrival, b.Err = none)
    (hperm : (arrival.filter (fun b => decide (b.File = f))).Perm
      ((List.range n).map (fun i => (⟨f, i, some (v i), none⟩ : ProcessedChunk T)))) :
    (CollectOrdered ctx arrival).records f = (List.range n).flatMap v ∧
    (CollectOrdered ctx arrival).err = none := by
  have hidx : (fileIndices arrival f).Perm (List.range n) := by
    have := hperm.map ProcessedChunk.ChunkIndex
    simpa [fileIndices, Function.comp_def] using this
  have hitems : ∀ b ∈ arrival, b.File = f → b.Items = some (v b.ChunkIndex) := by
    intro b hb hbf
    have : b ∈ arrival.filter (fun b => decide (b.File = f)) := by
      simp [List.mem_filter, hb, hbf]
    have := hperm.subset this
    simp only [List.mem_map, List.mem_range] at this
    obtain ⟨i, _, hi⟩ := this
    rw [← hi]
  obtain ⟨m, h1, h2, h3, h4, _⟩ := collect_records ctx arrival f v hq herr hitems
    (hidx.nodup_iff.mpr (List.nodup_range n))
  have hm : m = n := by
    rcases Nat.lt_trichotomy m n with h | h | h
    · exact absurd (hidx.symm.subset (List.mem_range.mpr h)) h2
    · exact h
    · have := hidx.subset (h1 n h)
      simp at this
  subst hm
  exact ⟨h3, h4⟩

/-- Witness of C6: chunks 2, 0, 1 of input `"a"` arrive in that order, a batch
of input `"b"` in between. -/
theorem C6_order_restoration_witness :
    (CollectOrdered Context.background
      [(⟨"a", 2, some [20, 21], none⟩ : ProcessedChunk Nat), ⟨"a", 0, some [0, 1], none⟩,
        ⟨"b", 0, some [5], none⟩, ⟨"a", 1, some [10, 11], none⟩]).records "a"
      = (List.range 3).flatMap (fun i => [10 * i, 10 * i + 1]) ∧
    (CollectOrdered Context.background
      [(⟨"a", 2, some [20, 21], none⟩ : ProcessedChunk Nat), ⟨"a", 0, some [0, 1], none⟩,
        ⟨"b", 0, some [5], none⟩, ⟨"a", 1, some [10, 11], none⟩]).err = none :=
  C6_order_restoration Context.background "a" 3 (fun i => [10 * i, 10 * i + 1])
    [⟨"a", 2, some [20, 21], none⟩, ⟨"a", 0, some [0, 1], none⟩,
      ⟨"b", 0, some [5], none⟩, ⟨"a", 1, some [10, 11], none⟩]
    (quietFor_background _)
    (by decide)
    (by
      have h : ([2, 0, 1] : List Nat).Perm [0, 1, 2] := by decide
      have := h.map (fun i => (⟨"a", i, some [10 * i, 10 * i + 1], none⟩ : ProcessedChunk Nat))
      simpa [List.filter_cons, List.range_succ] using this)

theorem collectLoop_fail {T : Type} (pre : List (ProcessedChunk T)) (b : ProcessedChunk T)
    (post : List (ProcessedChunk T)) (e : GoError) (hb : b.Err = some e) :
    ∀ (ctx : Context) (st : CollectState T), ctx.quietFor (pre.length + 1) →
      (∀ x ∈ pre, x.Err = none) →
      (collectLoop ctx st (pre ++ b :: post)).results = none ∧
      (collectLoop ctx st (pre ++ b :: post)).err = some e ∧
      (collectLoop ctx st (pre ++ b :: post)).unread = post := by
  induction pre with
  | nil =>
    intro ctx st hq _
    simp [collectLoop, (quietFor_succ hq).1, hb]
  | cons x pre ih =>
    intro ctx st hq hpre
    have hx : x.Err = none := hpre x (by simp)
    have hq1 : ctx.quietFor (pre.length + 1 + 1) := by simpa using hq
    have hq2 := quietFor_succ hq1
    simp only [List.cons_append, collectLoop, hq2.1, hx, Bool.false_eq_true, if_false]
    exact ih ctx.tick (collectStep st x) hq2.2 (fun y hy => hpre y (List.mem_cons_of_mem _ hy))

/-- C7 (fail-fast): when the batches received are `pre`, all with a nil `Err`,
then a batch `b` with `Err = e` (whatever its `Items`), and cancellation is not
observed before `b` is received, `CollectOrdered` returns a nil map together
with `e`, and the batches sent after `b` are left unread. -/
theorem C7_fail_fast {T : Type} (ctx : Context) (pre : List (ProcessedChunk T))
    (b : ProcessedChunk T) (post : List (ProcessedChunk T)) (e : GoError)
    (hq : ctx.quietFor (pre.length + 1))
    (hpre : ∀ x ∈ pre, x.Err = none) (hb : b.Err = some e) :
    (CollectOrdered ctx (pre ++ b :: post)).results = none ∧
    (CollectOrdered ctx (pre ++ b :: post)).err = some e ∧
    (CollectOrdered ctx (pre ++ b :: post)).unread = post :=
  collectLoop_fail pre b post e hb ctx _ hq hpre

/-- Witness of C7: two good batches, a failed batch that carries items, a later batch. -/
theorem C7_fail_fast_witness :
    (CollectOrdered Context.background
      ([(⟨"a", 0, some [1], none⟩ : ProcessedChunk Nat), ⟨"a", 2, some [3], none⟩] ++
        ⟨"a", 1, some [2], some (GoError.msg "bad")⟩ ::
        [⟨"a", 3, some [4], some (GoError.msg "later")⟩])).results = none ∧
    (CollectOrdered Context.background
      ([(⟨"a", 0, some [1], none⟩ : ProcessedChunk Nat), ⟨"a", 2, some [3], none⟩] ++
        ⟨"a", 1, some [2], some (GoError.msg "bad")⟩ ::
        [⟨"a", 3, some [4], some (GoError.msg "later")⟩])).err = some (GoError.msg "bad") ∧
    (CollectOrdered Context.background
      ([(⟨"a", 0, some [1], none⟩ : ProcessedChunk Nat), ⟨"a", 2, some [3], none⟩] ++
        ⟨"a", 1, some [2], some (GoError.msg "bad")⟩ ::
        [⟨"a", 3, some [4], some (GoError.msg "later")⟩])).unread
      = [⟨"a", 3, some [4], some (GoError.msg "later")⟩] :=
  C7_fail_fast Context.background
    [⟨"a", 0, some [1], none⟩, ⟨"a", 2, some [3], none⟩]
    ⟨"a", 1, some [2], some (GoError.msg "bad")⟩
    [⟨"a", 3, some [4], some (GoError.msg "later")⟩] (GoError.msg "bad")
    (quietFor_background _) (by decide) rfl

/-! ## Proofs: StreamOrdered -/

theorem deliveredIndices_snoc {T : Type} (calls : List (SinkCall T)) (g : String) (i : Nat)
    (items : List T) (f : String) :
    deliveredIndices (calls ++ [⟨g, i, items⟩]) f
      = if g = f then deliveredIndices calls f ++ [i] else deliveredIndices calls f := by
  by_cases h : g = f <;> simp [deliveredIndices, List.filter_append, List.filter_cons, h]

theorem traceOK_of_inv {T : Type} {st : StreamState T} (h : TraceInv st) : TraceOK st.calls :=
  fun f => ⟨st.nextIndex f, h f⟩

/-- Handing the next expected index of `file` to the sink and advancing the
counter keeps the trace invariant. -/
theorem traceInv_deliver {T : Type} (st : StreamState T) (file : String) (items : List T)
    (buffers : String → Option (List (Nat × List T))) (h : TraceInv st) :
    TraceInv { nextIndex := setCount st.nextIndex file (st.nextIndex file + 1),
               buffers := buffers,
               calls := st.calls ++ [⟨file, st.nextIndex file, items⟩] } := by
  intro f
  simp only [deliveredIndices_snoc, setCount]
  by_cases hf : file = f
  · subst hf
    simp [h file, List.range_succ]
  · have hf2 : ¬ f = file := fun hc => hf hc.symm
    simp [hf, hf2, h f]

/-- Handing the next expected index of `file` to a sink that fails leaves a
trace of the required form. -/
theorem traceOK_failed {T : Type} (st : StreamState T) (file : String) (items : List T)
    (h : TraceInv st) : TraceOK (st.calls ++ [⟨file, st.nextIndex file, items⟩]) := by
  intro f
  simp only [deliveredIndices_snoc]
  by_cases hf : file = f
  · subst hf
    exact ⟨st.nextIndex file + 1, by simp [h file, List.range_succ]⟩
  · exact ⟨st.nextIndex f, by simp [hf, h f]⟩

theorem flushLoop_trace {T : Type} (sink : Sink T) (file : String) (fuel : Nat) :
    ∀ st : StreamState T, TraceInv st →
      ((flushLoop sink fuel file st).2 = none → TraceInv (flushLoop sink fuel file st).1) ∧
      TraceOK (flushLoop sink fuel file st).1.calls := by
  induction fuel with
  | zero => intro st h; exact ⟨fun _ => h, traceOK_of_inv h⟩
  | succ fuel ih =>
    intro st h
    simp only [flushLoop]
    cases hb : st.buffers file with
    | none => exact ⟨fun _ => h, traceOK_of_inv h⟩
    | some pending =>
      simp only
      cases hp : pendingGet (st.nextIndex file) pending with
      | none =>
        simp only
        split_ifs
        · exact ⟨fun _ => h, traceOK_of_inv h⟩
        · exact ⟨fun _ => h, traceOK_of_inv h⟩
      | some items =>
        simp only
        cases hs : sink (sinkHistory st.calls) file items with
        | some err =>
          exact ⟨fun hc => by simp at hc, traceOK_failed st file items h⟩
        | none => exact ih _ (traceInv_deliver st file items _ h)

theorem streamStep_trace {T : Type} (sink : Sink T) (st : StreamState T)
    (res : ProcessedChunk T) (h : TraceInv st) :
    ((streamStep sink st res).2 = none → TraceInv (streamStep sink st res).1) ∧
    TraceOK (streamStep sink st res).1.calls := by
  simp only [streamStep]
  cases hi : res.Items with
  | none => exact ⟨fun _ => h, traceOK_of_inv h⟩
  | some items =>
    simp only
    split_ifs with hidx
    · cases hs : sink (sinkHistory st.calls) res.File items with
      | some err =>
        refine ⟨fun hc => by simp at hc, ?_⟩
        simp only [hidx]
        exact traceOK_failed st res.File items h
      | none =>
        simp only [hidx, streamFlush]
        exact flushLoop_trace sink res.File _ _ (traceInv_deliver st res.File items _ h)
    · exact ⟨fun _ => h, traceOK_of_inv h⟩

theorem streamLoop_trace {T : Type} (sink : Sink T) (inp : List (ProcessedChunk T)) :
    ∀ (ctx : Context) (st : StreamState T), TraceInv st →
      TraceOK (streamLoop sink ctx st inp).calls := by
  induction inp with
  | nil =>
    intro ctx st h
    simp only [streamLoop]
    split_ifs <;> exact traceOK_of_inv h
  | cons res rest ih =>
    intro ctx st h
    simp only [streamLoop]
    split_ifs
    · exact traceOK_of_inv h
    · cases he : res.Err with
      | some err => exact traceOK_of_inv h
      | none =>
        simp only
        have hstep := streamStep_trace sink st res h
        rcases hr : streamStep sink st res with ⟨st2, _ | err⟩
        · rw [hr] at hstep
          exact ih ctx.tick st2 (hstep.1 rfl)
        · rw [hr] at hstep
          exact hstep.2

/-- C8 (streaming delivery order): for every context, every sink and every
sequence of incoming batches (any arrival order, with gaps, repeated indices,
nil items, failed batches), the chunk indices whose items `StreamOrdered`
hands to the sink for an input are `0, 1, ..., k-1` in that order for some
`k`; hence no index is handed over twice for the same input. -/
theorem C8_streaming_delivery_order {T : Type} (ctx : Context)
    (inp : List (ProcessedChunk T)) (sink : Sink T) (f : String) :
    (∃ k, deliveredIndices (StreamOrdered ctx inp sink).calls f = List.range k) ∧
    (deliveredIndices (StreamOrdered ctx inp sink).calls f).Nodup := by
  have h : TraceOK (StreamOrdered ctx inp sink).calls :=
    streamLoop_trace sink inp ctx _ (by intro g; simp [deliveredIndices])
  obtain ⟨k, hk⟩ := h f
  exact ⟨⟨k, hk⟩, by rw [hk]; exact List.nodup_range k⟩

/-- An evaluation of `StreamOrdered`: index 1 arrives twice and before index
0, index 3 is never followed by index 2; the sink gets indices 0 and 1 once each. -/
theorem stream_example :
    deliveredIndices (StreamOrdered Context.background
      [(⟨"a", 1, some [10], none⟩ : ProcessedChunk Nat), ⟨"a", 1, some [11], none⟩,
        ⟨"a", 3, some [30], none⟩, ⟨"a", 0, some [0], none⟩]
      (fun _ _ _ => none)).calls "a" = [0, 1] := by
  decide

/-! ## Proofs: the chunk worker pool -/

theorem never_done {ctx : Context} (h : ctx.doneAfter = none) :
    ctx.isDone = false ∧ ctx.tick = ctx := by
  obtain ⟨d, c⟩ := ctx
  simp only at h
  subst h
  exact ⟨rfl, rfl⟩

/-- The only error `sendChunks` returns is the error of the context. -/
theorem sendChunks_err (path : String) (cs : List BytesChunk) :
    ∀ ctx : Context, (sendChunks ctx path cs).err = none ∨
      ((sendChunks ctx path cs).err = some ctx.cause ∧ ctx.doneAfter ≠ none) := by
  induction cs with
  | nil => intro ctx; left; rfl
  | cons c rest ih =>
    intro ctx
    simp only [sendChunks]
    cases hd : ctx.isDone with
    | true =>
      right
      refine ⟨by simp, ?_⟩
      intro hn
      rw [(never_done hn).1] at hd
      cases hd
    | false =>
      simp only [Bool.false_eq_true, if_false]
      rcases ih ctx.tick with h | ⟨h1, h2⟩
      · left; exact h
      · right
        have hc : ctx.tick.cause = ctx.cause := by
          obtain ⟨d, c⟩ := ctx
          rcases d with _ | _ | d <;> rfl
        refine ⟨by rw [h1, hc], ?_⟩
        intro hn
        exact h2 (by rw [(never_done hn).2]; exact hn)

theorem sendChunks_quiet (path : String) (cs : List BytesChunk) (ctx : Context)
    (h : ctx.doneAfter = none) :
    sendChunks ctx path cs = ⟨cs.map (fun c => ⟨path, c⟩), none, ctx⟩ := by
  induction cs with
  | nil => rfl
  | cons c rest ih =>
    simp only [sendChunks, (never_done h).1, (never_done h).2, ih, Bool.false_eq_true, if_false,
      List.map_cons]

/-- The chunks the pool emits for a job when no cancellation occurs. -/
theorem streamFileChunks_quiet (openReader : String → Nat → Except GoError Reader)
    (chunker : Reader → Nat → List BytesChunk) (ctx : Context) (h : ctx.doneAfter = none)
    (path : String) (chunkSize : Nat) :
    streamFileChunks openReader chunker ctx path chunkSize =
      match openReader path (readerBufferSize chunkSize) with
      | Except.error err => ⟨[], some (GoError.wrapped ("open reader for " ++ path) err), ctx⟩
      | Except.ok reader => ⟨(chunker reader chunkSize).map (fun c => ⟨path, c⟩), none, ctx⟩ := by
  simp only [streamFileChunks]
  cases openReader path (readerBufferSize chunkSize) with
  | error e => rfl
  | ok r => exact sendChunks_quiet path _ ctx h

/-- Without cancellation and with fewer failing jobs than running workers, every
job is claimed: the pool emits the chunks of every job and every error is
accepted by the error channel. -/
theorem poolLoop_quiet (openReader : String → Nat → Except GoError Reader)
    (chunker : Reader → Nat → List BytesChunk) (workerCount chunkSize : Nat)
    (ctx : Context) (hctx : ctx.doneAfter = none) (jobs : List FileJob) :
    ∀ st : PoolState, st.ctx = ctx → st.errCh.length + st.live = workerCount →
      (jobs.filter (openFails openReader chunkSize)).length < st.live →
      poolLoop openReader chunker workerCount chunkSize st jobs =
        (⟨0,
          st.out ++ jobs.flatMap
            (fun j => (streamFileChunks openReader chunker ctx j.Path chunkSize).sent),
          st.errCh ++ jobs.filterMap
            (fun j => (streamFileChunks openReader chunker ctx j.Path chunkSize).err),
          st.dropped, ctx⟩, []) := by
  induction jobs with
  | nil =>
    intro st hc _ _
    simp [poolLoop, hc]
  | cons job rest ih =>
    intro st hc hcap hlive
    have hlive0 : st.live ≠ 0 := by omega
    simp only [poolLoop, hlive0, if_false, hc, (never_done hctx).1, (never_done hctx).2,
      Bool.false_eq_true]
    have hs := streamFileChunks_quiet openReader chunker ctx hctx job.Path chunkSize
    cases ho : openReader job.Path (readerBufferSize chunkSize) with
    | error e =>
      rw [ho] at hs
      have hf : openFails openReader chunkSize job = true := by simp [openFails, ho]
      simp only [List.filter_cons, hf, if_true, List.length_cons] at hlive
      have hsend : st.errCh.length < workerCount := by omega
      simp only [hs, hsend, decide_True, if_true]
      rw [ih _ rfl (by simp; omega) (by simp; omega)]
      simp [List.flatMap_cons, List.filterMap_cons, hs]
    | ok r =>
      rw [ho] at hs
      have hf : openFails openReader chunkSize job = false := by simp [openFails, ho]
      simp only [List.filter_cons, hf, Bool.false_eq_true, if_false] at hlive
      simp only [hs]
      rw [ih _ rfl (by simpa using hcap) (by simpa using hlive)]
      simp [List.flatMap_cons, List.filterMap_cons, hs]

/-- C9, as stated, fails for one worker: input `"A"` cannot be opened, `"B"`
and `"C"` can. The worker reports the error of `"A"` and returns, so `"B"`
and `"C"` are never claimed and none of their chunks is emitted. -/
theorem C9_counterexample :
    StartChunkWorkers exampleFS SliceToBytesChunks Context.background 1 4
        [⟨"A"⟩, ⟨"B"⟩, ⟨"C"⟩]
      = (⟨0, [], [GoError.wrapped "open reader for A" (GoError.msg "no such file")], [],
          Context.background⟩, [⟨"B"⟩, ⟨"C"⟩])
    ∧ exampleFS "B" (readerBufferSize 4) = Except.ok ⟨bytes "b1\nb2\n", none⟩
    ∧ SliceToBytesChunks ⟨bytes "b1\nb2\n", none⟩ 4 ≠ [] := by
  refine ⟨by decide, by simp [exampleFS], by decide⟩

/-- C9 (fault isolation), amended: a worker whose job fails reports the error
and stops. When no cancellation occurs and fewer jobs fail to open than there
are workers, every job is claimed, every chunk of every input that opens is
emitted, the error of every input that does not open is on the error channel,
and no error is dropped. -/
theorem C9_fault_isolation (openReader : String → Nat → Except GoError Reader)
    (chunker : Reader → Nat → List BytesChunk) (ctx : Context)
    (workerCount chunkSize : Nat) (files : List FileJob)
    (hctx : ctx.doneAfter = none)
    (hfail : (files.filter (openFails openReader chunkSize)).length < workerCount) :
    (StartChunkWorkers openReader chunker ctx workerCount chunkSize files).2 = [] ∧
    (∀ j ∈ files, ∀ r, openReader j.Path (readerBufferSize chunkSize) = Except.ok r →
      ∀ c ∈ chunker r chunkSize,
        (⟨j.Path, c⟩ : FileChunk) ∈
          (StartChunkWorkers openReader chunker ctx workerCount chunkSize files).1.out) ∧
    (∀ j ∈ files, ∀ e, openReader j.Path (readerBufferSize chunkSize) = Except.error e →
      GoError.wrapped ("open reader for " ++ j.Path) e ∈
        (StartChunkWorkers openReader chunker ctx workerCount chunkSize files).1.errCh) ∧
    (StartChunkWorkers openReader chunker ctx workerCount chunkSize files).1.dropped = [] := by
  have h := poolLoop_quiet openReader chunker workerCount chunkSize ctx hctx files
    ⟨workerCount, [], [], [], ctx⟩ rfl (by simp) hfail
  simp only [StartChunkWorkers, h, List.nil_append]
  refine ⟨trivial, ?_, ?_, trivial⟩
  · intro j hj r hr c hc
    rw [List.mem_flatMap]
    refine ⟨j, hj, ?_⟩
    rw [streamFileChunks_quiet openReader chunker ctx hctx, hr]
    exact List.mem_map.mpr ⟨c, hc, rfl⟩
  · intro j hj e he
    rw [List.mem_filterMap]
    refine ⟨j, hj, ?_⟩
    rw [streamFileChunks_quiet openReader chunker ctx hctx, he]

/-- Witness of C9: two workers, input `"A"` cannot be opened, `"B"` and `"C"` can. -/
theorem C9_fault_isolation_witness :
    (StartChunkWorkers exampleFS SliceToBytesChunks Context.background 2 4
      [⟨"A"⟩, ⟨"B"⟩, ⟨"C"⟩]).2 = [] ∧
    (∀ j ∈ [(⟨"A"⟩ : FileJob), ⟨"B"⟩, ⟨"C"⟩], ∀ r,
      exampleFS j.Path (readerBufferSize 4) = Except.ok r →
      ∀ c ∈ SliceToBytesChunks r 4,
        (⟨j.Path, c⟩ : FileChunk) ∈
          (StartChunkWorkers exampleFS SliceToBytesChunks Context.background 2 4
            [⟨"A"⟩, ⟨"B"⟩, ⟨"C"⟩]).1.out) ∧
    (∀ j ∈ [(⟨"A"⟩ : FileJob), ⟨"B"⟩, ⟨"C"⟩], ∀ e,
      exampleFS j.Path (readerBufferSize 4) = Except.error e →
      GoError.wrapped ("open reader for " ++ j.Path) e ∈
        (StartChunkWorkers exampleFS SliceToBytesChunks Context.background 2 4
          [⟨"A"⟩, ⟨"B"⟩, ⟨"C"⟩]).1.errCh) ∧
    (StartChunkWorkers exampleFS SliceToBytesChunks Context.background 2 4
      [⟨"A"⟩, ⟨"B"⟩, ⟨"C"⟩]).1.dropped = [] :=
  C9_fault_isolation exampleFS SliceToBytesChunks Context.background 2 4
    [⟨"A"⟩, ⟨"B"⟩, ⟨"C"⟩] rfl (by decide)

/-- C10, as stated, fails: input `"C"` opens and reading it fails after one
line. `streamFileChunks` sends the chunk of that line and returns a nil
error, exactly as for the same bytes followed by end of stream. -/
theorem C10_counterexample :
    exampleFS "C" (readerBufferSize 4)
      = Except.ok ⟨bytes "c1\n", some (GoError.msg "read failure")⟩
    ∧ streamFileChunks exampleFS SliceToBytesChunks Context.background "C" 4
      = ⟨[⟨"C", ⟨0, bytes "c1\n"⟩⟩], none, Context.background⟩
    ∧ streamFileChunks (fun _ _ => Except.ok ⟨bytes "c1\n", none⟩) SliceToBytesChunks
        Context.background "C" 4
      = ⟨[⟨"C", ⟨0, bytes "c1\n"⟩⟩], none, Context.background⟩ := by
  refine ⟨by simp [exampleFS], by decide, by decide⟩

/-- C10 (read failure), amended: when the input opens, whatever the error
that ends its stream, `streamFileChunks` returns a nil error or, if
cancellation is observed, the error of the context; without cancellation it
returns nil after sending every chunk of the splitter. A read failure is not
reported: `SliceToBytesChunks` emits the same chunks as for the bytes read
before the failure followed by end of stream. -/
theorem C10_read_failure (openReader : String → Nat → Except GoError Reader)
    (chunker : Reader → Nat → List BytesChunk) (ctx : Context) (path : String)
    (chunkSize : Nat) (reader : Reader)
    (hopen : openReader path (readerBufferSize chunkSize) = Except.ok reader) :
    ((streamFileChunks openReader chunker ctx path chunkSize).err = none ∨
      ((streamFileChunks openReader chunker ctx path chunkSize).err = some ctx.cause ∧
        ctx.doneAfter ≠ none)) ∧
    (ctx.doneAfter = none →
      streamFileChunks openReader chunker ctx path chunkSize
        = ⟨(chunker reader chunkSize).map (fun c => ⟨path, c⟩), none, ctx⟩) ∧
    SliceToBytesChunks reader chunkSize = SliceToBytesChunks ⟨reader.data, none⟩ chunkSize := by
  refine ⟨?_, ?_, rfl⟩
  · simp only [streamFileChunks, hopen]
    exact sendChunks_err path _ ctx
  · intro h
    rw [streamFileChunks_quiet openReader chunker ctx h, hopen]

/-- Witness of C10 on input `"C"` of the example file system. -/
theorem C10_read_failure_witness :
    ((streamFileChunks exampleFS SliceToBytesChunks Context.background "C" 4).err = none ∨
      ((streamFileChunks exampleFS SliceToBytesChunks Context.background "C" 4).err
          = some Context.background.cause ∧
        Context.background.doneAfter ≠ none)) ∧
    (Context.background.doneAfter = none →
      streamFileChunks exampleFS SliceToBytesChunks Context.background "C" 4
        = ⟨(SliceToBytesChunks ⟨bytes "c1\n", some (GoError.msg "read failure")⟩ 4).map
            (fun c => ⟨"C", c⟩), none, Context.background⟩) ∧
    SliceToBytesChunks ⟨bytes "c1\n", some (GoError.msg "read failure")⟩ 4
      = SliceToBytesChunks
          ⟨(⟨bytes "c1\n", some (GoError.msg "read failure")⟩ : Reader).data, none⟩ 4 :=
  C10_read_failure exampleFS SliceToBytesChunks Context.background "C" 4
    ⟨bytes "c1\n", some (GoError.msg "read failure")⟩ (by simp [exampleFS])

/-! ### Further claims about the chunk splitter -/

theorem readAll_line (body rest : List Byte) (h : NL ∉ body) :
    readAll (body ++ NL :: rest) = (body ++ [NL]) :: readAll rest := by
  induction body with
  | nil => simp [readAll]
  | cons b bs ih =>
    simp only [List.mem_cons, not_or] at h
    have hb : ¬ b = NL := fun hc => h.1 hc.symm
    have ih2 := ih h.2
    rw [List.cons_append, readAll]
    simp only [hb, if_false, ih2, List.cons_append]

theorem readAll_noNL (l : List Byte) (h : NL ∉ l) : readAll l = [l] := by
  induction l with
  | nil => rfl
  | cons b bs ih =>
    simp only [List.mem_cons, not_or] at h
    have hb : ¬ b = NL := fun hc => h.1 hc.symm
    simp only [readAll, hb, if_false, ih h.2]

/-- C13, as stated, fails: 20 bytes without terminator followed by `"short\n"`
are one line of 26 bytes, which the splitter emits as a single chunk at index
0, not as two chunks. -/
theorem C13_counterexample :
    SliceToBytesChunks ⟨bytes "xxxxxxxxxxxxxxxxxxxx" ++ bytes "short\n", none⟩ 10
      = [⟨0, bytes "xxxxxxxxxxxxxxxxxxxxshort\n"⟩]
    ∧ SliceToBytesChunks ⟨bytes "xxxxxxxxxxxxxxxxxxxx" ++ bytes "short\n", none⟩ 10
      ≠ [⟨0, bytes "xxxxxxxxxxxxxxxxxxxx"⟩, ⟨1, bytes "short\n"⟩] := by
  constructor <;> decide

/-- C13 (example of the spec), amended: for every 20-byte line `l` followed by
its terminator and then by `"short\n"`, with chunk size 10, the splitter emits
exactly two chunks, `l` with its terminator at index 0 and `"short\n"` at
index 1; when the terminator after `l` is missing, it emits the 26 bytes as
one chunk at index 0. -/
theorem C13_spec_example (l : List Byte) (e : Option GoError) (hlen : l.length = 20)
    (hnl : NL ∉ l) :
    SliceToBytesChunks ⟨l ++ NL :: bytes "short\n", e⟩ 10
      = [⟨0, l ++ [NL]⟩, ⟨1, bytes "short\n"⟩] ∧
    SliceToBytesChunks ⟨l ++ bytes "short\n", e⟩ 10 = [⟨0, l ++ bytes "short\n"⟩] := by
  have hshort : readAll (bytes "short\n") = [bytes "short\n", []] := by decide
  have hlen6 : (bytes "short\n").length = 6 := by decide
  constructor
  · have h1 : readAll (l ++ NL :: bytes "short\n") = [l ++ [NL], bytes "short\n", []] := by
      rw [readAll_line l _ hnl, hshort]
    simp [SliceToBytesChunks, sliceLoop, h1, processLine, SliceState.flush, hlen, hlen6]
  · have hsplit : bytes "short\n" = bytes "short" ++ NL :: [] := by decide
    have hno : NL ∉ l ++ bytes "short" := by
      intro hc
      rcases List.mem_append.mp hc with h | h
      · exact hnl h
      · revert h; decide
    have h1 : readAll (l ++ bytes "short\n") = [l ++ bytes "short\n", []] := by
      have := readAll_line (l ++ bytes "short") [] hno
      rw [hsplit]
      simpa [readAll] using this
    simp [SliceToBytesChunks, sliceLoop, h1, processLine, SliceState.flush, hlen, hlen6]

/-- Witness of C13 with 20 bytes `x`. -/
theorem C13_spec_example_witness :
    SliceToBytesChunks ⟨bytes "xxxxxxxxxxxxxxxxxxxx" ++ NL :: bytes "short\n", none⟩ 10
      = [⟨0, bytes "xxxxxxxxxxxxxxxxxxxx" ++ [NL]⟩, ⟨1, bytes "short\n"⟩] ∧
    SliceToBytesChunks ⟨bytes "xxxxxxxxxxxxxxxxxxxx" ++ bytes "short\n", none⟩ 10
      = [⟨0, bytes "xxxxxxxxxxxxxxxxxxxx" ++ bytes "short\n"⟩] :=
  C13_spec_example (bytes "xxxxxxxxxxxxxxxxxxxx") none (by decide) (by decide)

/-- C14 (empty input): on an empty stream `SliceToBytesChunks` emits no chunk,
and on any input it never emits a chunk whose `Data` is empty; for every chunk size. -/
theorem C14_empty_input (chunkSize : Nat) :
    (∀ e : Option GoError, SliceToBytesChunks ⟨[], e⟩ chunkSize = []) ∧
    (∀ (r : Reader) (c : BytesChunk), c ∈ SliceToBytesChunks r chunkSize → c.Data ≠ []) := by
  constructor
  · intro e
    simp [SliceToBytesChunks, sliceLoop, readAll, processLine]
  · intro r c hc
    rcases Nat.eq_zero_or_pos chunkSize with h0 | hpos
    · subst h0; simp [SliceToBytesChunks] at hc
    · obtain ⟨groups, h1, h2, h3, _⟩ := slice_groups r hpos
      have hd : c.Data ∈ payloads (SliceToBytesChunks r chunkSize) :=
        List.mem_map.mpr ⟨c, hc, rfl⟩
      rw [h1] at hd
      obtain ⟨g, hg, hgc⟩ := List.mem_map.mp hd
      intro hnil
      rw [hnil] at hgc
      have hall : ∀ l ∈ g, l ≠ [] := by
        intro l hl
        apply inputLines_ne_nil r.data
        rw [← h2]
        exact List.mem_flatten.mpr ⟨g, hg, hl⟩
      exact (h3 g hg).1 (flatten_eq_nil_of_ne hall hgc)

/-- Witness of C14: the chunks of `"line1\nline2"` with chunk size 10 are not empty. -/
theorem C14_empty_input_witness :
    (∀ e : Option GoError, SliceToBytesChunks ⟨[], e⟩ 10 = []) ∧
    (∀ (r : Reader) (c : BytesChunk), c ∈ SliceToBytesChunks r 10 → c.Data ≠ []) ∧
    (⟨1, bytes "line2"⟩ : BytesChunk).Data ≠ [] :=
  ⟨(C14_empty_input 10).1, (C14_empty_input 10).2,
    (C14_empty_input 10).2 ⟨bytes "line1\nline2", none⟩ ⟨1, bytes "line2"⟩ (by decide)⟩

/-! ### A context that is never cancelled -/

theorem tick_doneAfter_none {ctx : Context} (h : ctx.doneAfter = none) :
    ctx.tick.doneAfter = none := by
  rw [(never_done h).2]; exact h

/-! ### Truncated results, cancellation -/

theorem find_pair_self {T : Type} (inp : List (ProcessedChunk T))
    (hpairs : (inp.map (fun b => (b.File, b.ChunkIndex))).Nodup)
    (b : ProcessedChunk T) (hb : b ∈ inp) :
    inp.find? (fun x => decide (x.File = b.File ∧ x.ChunkIndex = b.ChunkIndex)) = some b := by
  induction inp with
  | nil => simp at hb
  | cons a rest ih =>
    simp only [List.map_cons, List.nodup_cons] at hpairs
    by_cases hm : a.File = b.File ∧ a.ChunkIndex = b.ChunkIndex
    · have hba : b = a := by
        rcases List.mem_cons.mp hb with h | h
        · exact h
        · exfalso
          apply hpairs.1
          rw [List.mem_map]
          exact ⟨b, h, by rw [hm.1, hm.2]⟩
      subst hba
      simp [List.find?_cons]
    · have hne : b ≠ a := by
        intro hc; subst hc; exact hm ⟨rfl, rfl⟩
      have hrest : b ∈ rest := by
        rcases List.mem_cons.mp hb with h | h
        · exact absurd h hne
        · exact h
      simp only [List.find?_cons, hm, decide_False]
      exact ih hpairs.2 hrest

theorem fileIndices_nodup {T : Type} (inp : List (ProcessedChunk T))
    (hpairs : (inp.map (fun b => (b.File, b.ChunkIndex))).Nodup) (f : String) :
    (fileIndices inp f).Nodup := by
  induction inp with
  | nil => simp [fileIndices]
  | cons a rest ih =>
    simp only [List.map_cons, List.nodup_cons] at hpairs
    rw [fileIndices_cons]
    split_ifs with haf
    · refine List.nodup_cons.mpr ⟨?_, ih hpairs.2⟩
      intro hc
      simp only [fileIndices, List.mem_map, List.mem_filter, decide_eq_true_eq] at hc
      obtain ⟨b, ⟨hb, hbf⟩, hbi⟩ := hc
      apply hpairs.1
      rw [List.mem_map]
      exact ⟨b, hb, by rw [hbf, hbi, haf]⟩
    · exact ih hpairs.2

/-- C12 (truncated result): when the channel closes after batches without
error and with non-nil `Items`, each pair of input and index occurring at most
once, and no cancellation is observed, `CollectOrdered` returns a non-nil map
and a nil error, and for every input the records of the chunks `0..m-1` in
order, `m` being the least index not received for that input; the records
received with a greater index are left out. -/
theorem C12_truncated_result {T : Type} (ctx : Context) (inp : List (ProcessedChunk T))
    (hq : ctx.quietFor (inp.length + 1))
    (herr : ∀ b ∈ inp, b.Err = none)
    (hitems : ∀ b ∈ inp, b.Items ≠ none)
    (hpairs : (inp.map (fun b => (b.File, b.ChunkIndex))).Nodup) :
    (CollectOrdered ctx inp).err = none ∧
    (CollectOrdered ctx inp).results.isSome = true ∧
    ∀ f, ∃ m, (∀ i, i < m → i ∈ fileIndices inp f) ∧ m ∉ fileIndices inp f ∧
      (CollectOrdered ctx inp).records f = (List.range m).flatMap (recordsAt inp f) := by
  have key : ∀ f, ∀ b ∈ inp, b.File = f → b.Items = some (recordsAt inp f b.ChunkIndex) := by
    intro f b hb hbf
    have hfind := find_pair_self inp hpairs b hb
    rw [hbf] at hfind
    simp only [recordsAt, hfind]
    cases hi : b.Items with
    | none => exact absurd hi (hitems b hb)
    | some items => rfl
  have h0 := collect_records ctx inp "" (recordsAt inp "") hq herr (key "")
    (fileIndices_nodup inp hpairs "")
  obtain ⟨_, _, _, _, he, hr⟩ := h0
  refine ⟨he, hr, ?_⟩
  intro f
  obtain ⟨m, h1, h2, h3, _, _⟩ := collect_records ctx inp f (recordsAt inp f) hq herr (key f)
    (fileIndices_nodup inp hpairs f)
  exact ⟨m, h1, h2, h3⟩

/-- Witness of C12: indices 0, 1 and 3 of input `"a"` are received, index 2 is
not; the result holds the records of indices 0 and 1. -/
theorem C12_truncated_result_witness :
    (CollectOrdered Context.background
      [(⟨"a", 1, some [10], none⟩ : ProcessedChunk Nat), ⟨"a", 3, some [30], none⟩,
        ⟨"a", 0, some [0], none⟩]).err = none ∧
    (CollectOrdered Context.background
      [(⟨"a", 1, some [10], none⟩ : ProcessedChunk Nat), ⟨"a", 3, some [30], none⟩,
        ⟨"a", 0, some [0], none⟩]).records "a" = [0, 10] :=
  ⟨(C12_truncated_result Context.background
      [(⟨"a", 1, some [10], none⟩ : ProcessedChunk Nat), ⟨"a", 3, some [30], none⟩,
        ⟨"a", 0, some [0], none⟩]
      (quietFor_background _) (by decide) (by decide) (by decide)).1,
    by decide⟩

theorem doneAfter_succ {ctx : Context} {k : Nat} (h : ctx.doneAfter = some (k + 1)) :
    ctx.isDone = false ∧ ctx.tick.doneAfter = some k ∧ ctx.tick.cause = ctx.cause := by
  obtain ⟨d, c⟩ := ctx
  simp only at h
  subst h
  exact ⟨rfl, rfl, rfl⟩

theorem doneAfter_zero {ctx : Context} (h : ctx.doneAfter = some 0) : ctx.isDone = true := by
  obtain ⟨d, c⟩ := ctx
  simp only at h
  subst h
  rfl

theorem collectLoop_cancel {T : Type} (pre post : List (ProcessedChunk T)) :
    ∀ (ctx : Context) (st : CollectState T), ctx.doneAfter = some pre.length →
      (∀ b ∈ pre, b.Err = none) →
      (collectLoop ctx st (pre ++ post)).results = none ∧
      (collectLoop ctx st (pre ++ post)).err = some ctx.cause ∧
      (collectLoop ctx st (pre ++ post)).unread = post := by
  induction pre with
  | nil =>
    intro ctx st hd _
    have := doneAfter_zero hd
    cases post <;> simp [collectLoop, this]
  | cons b pre ih =>
    intro ctx st hd herr
    obtain ⟨h1, h2, h3⟩ := doneAfter_succ hd
    have hb : b.Err = none := herr b (by simp)
    simp only [List.cons_append, collectLoop, h1, hb, Bool.false_eq_true, if_false]
    rw [← h3]
    exact ih ctx.tick (collectStep st b) h2 (fun x hx => herr x (List.mem_cons_of_mem _ hx))

/-! ### StreamOrdered against CollectOrdered -/

theorem streamRecords_snoc {T : Type} (calls : List (SinkCall T)) (g : String) (i : Nat)
    (items : List T) (f : String) :
    streamRecords (calls ++ [⟨g, i, items⟩]) f
      = if g = f then streamRecords calls f ++ items else streamRecords calls f := by
  by_cases h : g = f <;>
    simp [streamRecords, List.filter_append, List.filter_cons, h, List.flatMap_append]

theorem readSlice_setKey {T : Type} (m : String → Option (List T)) (g : String)
    (l : List T) (f : String) :
    readSlice (setKey m g (some l)) f = if g = f then l else readSlice m f := by
  by_cases h : g = f
  · subst h; simp [readSlice, setKey]
  · have h2 : ¬ f = g := fun hc => h hc.symm
    simp [readSlice, setKey, h, h2]

/-- Delivering the same records on both sides keeps the correspondence. -/
theorem streamSim_deliver {T : Type} (calls : List (SinkCall T))
    (cs : CollectState T) (file : String) (i : Nat) (items : List T)
    (nextIndex : String → Nat) (buffers : String → Option (List (Nat × List T)))
    (h : ∀ f, streamRecords calls f = readSlice cs.results f) :
    StreamSim
      { nextIndex := nextIndex, buffers := buffers, calls := calls ++ [⟨file, i, items⟩] }
      { results := setKey cs.results file (some (readSlice cs.results file ++ items)),
        nextIndex := nextIndex, buffers := buffers } := by
  refine ⟨rfl, rfl, ?_⟩
  intro f
  simp only [streamRecords_snoc, readSlice_setKey]
  by_cases hf : file = f
  · subst hf; simp [h file]
  · simp [hf, h f]

theorem flushLoop_sim {T : Type} (sink : Sink T) (hsink : ∀ h f items, sink h f items = none)
    (file : String) (fuel : Nat) :
    ∀ (ss : StreamState T) (cs : CollectState T), StreamSim ss cs →
      (flushLoop sink fuel file ss).2 = none ∧
      StreamSim (flushLoop sink fuel file ss).1 (drainLoop fuel file cs) := by
  induction fuel with
  | zero => intro ss cs h; exact ⟨rfl, h⟩
  | succ fuel ih =>
    intro ss cs h
    obtain ⟨n, b, calls⟩ := ss
    obtain ⟨h1, h2, h3⟩ := h
    simp only at h1 h2 h3
    subst h1 h2
    simp only [flushLoop, drainLoop]
    cases hb : cs.buffers file with
    | none => exact ⟨rfl, rfl, rfl, h3⟩
    | some pending =>
      simp only
      cases hp : pendingGet (cs.nextIndex file) pending with
      | none =>
        simp only
        split_ifs
        · exact ⟨rfl, rfl, rfl, h3⟩
        · exact ⟨rfl, rfl, rfl, h3⟩
      | some items =>
        simp only [hsink]
        exact ih _ _ (streamSim_deliver calls cs file _ items _ _ h3)

theorem streamStep_sim {T : Type} (sink : Sink T) (hsink : ∀ h f items, sink h f items = none)
    (ss : StreamState T) (cs : CollectState T) (res : ProcessedChunk T)
    (h : StreamSim ss cs) :
    (streamStep sink ss res).2 = none ∧
    StreamSim (streamStep sink ss res).1 (collectStep cs res) := by
  obtain ⟨n, b, calls⟩ := ss
  obtain ⟨h1, h2, h3⟩ := h
  simp only at h1 h2 h3
  subst h1 h2
  simp only [streamStep, collectStep]
  cases hi : res.Items with
  | none => exact ⟨rfl, rfl, rfl, h3⟩
  | some items =>
    simp only
    split_ifs with hidx
    · simp only [hsink, streamFlush, drainBuffer]
      exact flushLoop_sim sink hsink res.File _ _ _
        (streamSim_deliver calls cs res.File _ items _ _ h3)
    · exact ⟨rfl, rfl, rfl, h3⟩

/-- With a sink that never fails, without failed batch or cancellation,
`StreamOrdered` returns nil after handing to the sink, for every input, the
records `CollectOrdered` accumulates on the same batches. -/
theorem streamLoop_sim {T : Type} (sink : Sink T) (hsink : ∀ h f items, sink h f items = none)
    (inp : List (ProcessedChunk T)) :
    ∀ (ctx : Context) (ss : StreamState T) (cs : CollectState T), StreamSim ss cs →
      ctx.quietFor (inp.length + 1) → (∀ b ∈ inp, b.Err = none) →
      (streamLoop sink ctx ss inp).err = none ∧
      ∀ f, streamRecords (streamLoop sink ctx ss inp).calls f
        = readSlice (inp.foldl collectStep cs).results f := by
  induction inp with
  | nil =>
    intro ctx ss cs h hq _
    simp only [streamLoop, (quietFor_succ hq).1, Bool.false_eq_true, if_false, List.foldl_nil]
    exact ⟨trivial, h.2.2⟩
  | cons b rest ih =>
    intro ctx ss cs h hq herr
    have hb : b.Err = none := herr b (by simp)
    have hq2 := quietFor_succ hq
    have hstep := streamStep_sim sink hsink ss cs b h
    simp only [streamLoop, hq2.1, hb, Bool.false_eq_true, if_false, List.foldl_cons]
    rcases hr : streamStep sink ss b with ⟨ss2, _ | err⟩
    · rw [hr] at hstep
      exact ih ctx.tick ss2 (collectStep cs b) hstep.2 hq2.2
        (fun x hx => herr x (List.mem_cons_of_mem _ hx))
    · rw [hr] at hstep
      exact absurd hstep.1 (by simp)

theorem stream_collect_records {T : Type} (ctx : Context) (inp : List (ProcessedChunk T))
    (sink : Sink T) (hsink : ∀ h f items, sink h f items = none)
    (hq : ctx.quietFor (inp.length + 1)) (herr : ∀ b ∈ inp, b.Err = none) (f : String) :
    (StreamOrdered ctx inp sink).err = none ∧
    streamRecords (StreamOrdered ctx inp sink).calls f = (CollectOrdered ctx inp).records f := by
  have h := streamLoop_sim sink hsink inp ctx ⟨fun _ => 0, fun _ => none, []⟩
    ⟨fun _ => none, fun _ => 0, fun _ => none⟩
    ⟨rfl, rfl, fun f => by simp [streamRecords, readSlice]⟩ hq herr
  refine ⟨h.1, ?_⟩
  simp only [CollectOrdered, collectLoop_quiet inp ctx _ hq herr, CollectOutcome.records]
  exact h.2 f

theorem streamLoop_cancel {T : Type} (sink : Sink T)
    (hsink : ∀ h f items, sink h f items = none) (pre post : List (ProcessedChunk T)) :
    ∀ (ctx : Context) (ss : StreamState T), ctx.doneAfter = some pre.length →
      (∀ b ∈ pre, b.Err = none) →
      (streamLoop sink ctx ss (pre ++ post)).err = some ctx.cause ∧
      (streamLoop sink ctx ss (pre ++ post)).unread = post := by
  induction pre with
  | nil =>
    intro ctx ss hd _
    have := doneAfter_zero hd
    cases post <;> simp [streamLoop, this]
  | cons b pre ih =>
    intro ctx ss hd herr
    obtain ⟨h1, h2, h3⟩ := doneAfter_succ hd
    have hb : b.Err = none := herr b (by simp)
    have hstep := streamStep_sim sink hsink ss
      ⟨fun f => some (streamRecords ss.calls f), ss.nextIndex, ss.buffers⟩ b
      ⟨rfl, rfl, fun f => by simp [readSlice]⟩
    simp only [List.cons_append, streamLoop, h1, hb, Bool.false_eq_true, if_false]
    rcases hr : streamStep sink ss b with ⟨ss2, _ | err⟩
    · simp only
      rw [← h3]
      exact ih ctx.tick ss2 h2 (fun x hx => herr x (List.mem_cons_of_mem _ hx))
    · rw [hr] at hstep
      exact absurd hstep.1 (by simp)

/-- C17 (cancellation result): when cancellation is observed after the
batches `pre` were received (none of them failed, the sink never failed),
whatever they left in the results and in the pending buffers, `CollectOrdered`
returns a nil map together with the error of the context and `StreamOrdered`
returns the error of the context; the other batches stay unread. -/
theorem C17_cancellation {T : Type} (ctx : Context) (pre post : List (ProcessedChunk T))
    (sink : Sink T) (hd : ctx.doneAfter = some pre.length)
    (hpre : ∀ b ∈ pre, b.Err = none) (hsink : ∀ h f items, sink h f items = none) :
    (CollectOrdered ctx (pre ++ post)).results = none ∧
    (CollectOrdered ctx (pre ++ post)).err = some ctx.cause ∧
    (CollectOrdered ctx (pre ++ post)).unread = post ∧
    (StreamOrdered ctx (pre ++ post) sink).err = some ctx.cause ∧
    (StreamOrdered ctx (pre ++ post) sink).unread = post := by
  obtain ⟨h1, h2, h3⟩ := collectLoop_cancel pre post ctx
    ⟨fun _ => none, fun _ => 0, fun _ => none⟩ hd hpre
  obtain ⟨h4, h5⟩ := streamLoop_cancel sink hsink pre post ctx
    ⟨fun _ => 0, fun _ => none, []⟩ hd hpre
  exact ⟨h1, h2, h3, h4, h5⟩

/-- Witness of C17: cancellation observed after two batches, one delivered
and one pending, a third batch unread. -/
theorem C17_cancellation_witness :
    (CollectOrdered ⟨some 2, GoError.canceled⟩
      ([(⟨"a", 0, some [1], none⟩ : ProcessedChunk Nat), ⟨"a", 2, some [3], none⟩] ++
        [⟨"a", 1, some [2], none⟩])).results = none ∧
    (CollectOrdered ⟨some 2, GoError.canceled⟩
      ([(⟨"a", 0, some [1], none⟩ : ProcessedChunk Nat), ⟨"a", 2, some [3], none⟩] ++
        [⟨"a", 1, some [2], none⟩])).err = some GoError.canceled ∧
    (CollectOrdered ⟨some 2, GoError.canceled⟩
      ([(⟨"a", 0, some [1], none⟩ : ProcessedChunk Nat), ⟨"a", 2, some [3], none⟩] ++
        [⟨"a", 1, some [2], none⟩])).unread = [⟨"a", 1, some [2], none⟩] ∧
    (StreamOrdered ⟨some 2, GoError.canceled⟩
      ([(⟨"a", 0, some [1], none⟩ : ProcessedChunk Nat), ⟨"a", 2, some [3], none⟩] ++
        [⟨"a", 1, some [2], none⟩]) (fun _ _ _ => none)).err = some GoError.canceled ∧
    (StreamOrdered ⟨some 2, GoError.canceled⟩
      ([(⟨"a", 0, some [1], none⟩ : ProcessedChunk Nat), ⟨"a", 2, some [3], none⟩] ++
        [⟨"a", 1, some [2], none⟩]) (fun _ _ _ => none)).unread
      = [⟨"a", 1, some [2], none⟩] :=
  C17_cancellation ⟨some 2, GoError.canceled⟩
    [⟨"a", 0, some [1], none⟩, ⟨"a", 2, some [3], none⟩] [⟨"a", 1, some [2], none⟩]
    (fun _ _ _ => none) rfl (by decide) (fun _ _ _ => rfl)

/-! ### End to end: split, transform, reassemble -/

theorem linesShape_cons {l : List Byte} {rest : List (List Byte)}
    (hl : ∃ body, l = body ++ [NL] ∧ NL ∉ body) (h : LinesShape rest) :
    LinesShape (l :: rest) := by
  cases rest with
  | nil =>
    obtain ⟨body, hb, hno⟩ := hl
    subst hb
    exact ⟨by simp, by simpa using hno⟩
  | cons l2 rest => exact ⟨hl, h⟩

theorem linesShape_tail {l : List Byte} {rest : List (List Byte)}
    (h : LinesShape (l :: rest)) : LinesShape rest := by
  cases rest with
  | nil => trivial
  | cons l2 rest => exact h.2

theorem linesShape_head {l : List Byte} {rest : List (List Byte)}
    (h : LinesShape (l :: rest)) : l ≠ [] ∧ NL ∉ l.dropLast := by
  cases rest with
  | nil => exact h
  | cons l2 rest =>
    obtain ⟨⟨body, hb, hno⟩, _⟩ := h
    subst hb
    exact ⟨by simp, by simpa using hno⟩

theorem linesShape_append (a b : List (List Byte)) (h : LinesShape (a ++ b)) :
    LinesShape a ∧ LinesShape b := by
  induction a with
  | nil => exact ⟨trivial, h⟩
  | cons l a ih =>
    have ht := ih (linesShape_tail h)
    refine ⟨?_, ht.2⟩
    cases a with
    | nil => exact linesShape_head h
    | cons l2 a => exact ⟨h.1, ht.1⟩

theorem linesShape_inputLines (d : List Byte) : LinesShape (inputLines d) := by
  obtain ⟨init, last, h1, h2, h3⟩ := readAll_shape d
  have hinit : init.filter (fun l => decide (0 < l.length)) = init := by
    rw [List.filter_eq_self]
    intro a ha
    obtain ⟨⟨ys, hys⟩, _⟩ := h2 a ha
    simp [hys]
  have htail : LinesShape ([last].filter (fun l => decide (0 < l.length))) := by
    by_cases hl : 0 < last.length
    · simp only [List.filter_cons, hl, decide_True, if_true, List.filter_nil]
      exact ⟨List.length_pos.mp hl, fun hc => h3 (List.mem_of_mem_dropLast hc)⟩
    · simp only [List.filter_cons, hl, decide_False, List.filter_nil]
      simp [LinesShape]
  rw [inputLines, h1, List.filter_append, hinit]
  clear h1 hinit
  induction init with
  | nil => simpa using htail
  | cons l init ih =>
    obtain ⟨⟨ys, hys⟩, hno⟩ := h2 l (by simp)
    refine linesShape_cons ⟨ys, hys, ?_⟩ (ih (fun x hx => h2 x (List.mem_cons_of_mem _ hx)))
    rw [hys] at hno
    simpa using hno

theorem inputLines_cons_line (body rest : List Byte) (h : NL ∉ body) :
    inputLines (body ++ NL :: rest) = (body ++ [NL]) :: inputLines rest := by
  simp [inputLines, readAll_line body rest h, List.filter_cons]

/-- Reading back the concatenation of well-shaped lines gives these lines. -/
theorem inputLines_flatten_of_shape (ls : List (List Byte)) (h : LinesShape ls) :
    inputLines ls.flatten = ls := by
  induction ls with
  | nil => simp [inputLines, readAll]
  | cons l tl ih =>
    cases tl with
    | nil =>
      obtain ⟨hne, hno⟩ := h
      rcases List.eq_nil_or_concat l with hnil | ⟨body, x, hx⟩
      · exact absurd hnil hne
      · rw [List.concat_eq_append] at hx
        subst hx
        simp only [List.dropLast_concat] at hno
        by_cases hxn : x = NL
        · subst hxn
          have := inputLines_cons_line body [] hno
          simpa [inputLines, readAll] using this
        · have hnl : NL ∉ body ++ [x] := by
            intro hc
            rcases List.mem_append.mp hc with hc | hc
            · exact hno hc
            · simp at hc; exact hxn hc.symm
          simp [inputLines, readAll_noNL _ hnl, List.filter_cons]
    | cons l2 rest =>
      obtain ⟨⟨body, hb, hno⟩, htl⟩ := h
      subst hb
      have hflat : ((body ++ [NL]) :: l2 :: rest).flatten
          = body ++ NL :: (l2 :: rest).flatten := by simp
      rw [hflat, inputLines_cons_line body _ hno, ih htl]

theorem linesShape_groups (G : List (List (List Byte))) (h : LinesShape G.flatten) :
    ∀ g ∈ G, LinesShape g := by
  induction G with
  | nil => intro g hg; simp at hg
  | cons a G ih =>
    intro g hg
    simp only [List.flatten_cons] at h
    obtain ⟨ha, hG⟩ := linesShape_append a G.flatten h
    rcases List.mem_cons.mp hg with hg | hg
    · subst hg; exact ha
    · exact ih hG g hg

theorem flatMap_groups {T : Type} (G : List (List (List Byte))) (t : List Byte → List T) :
    G.flatMap (fun g => g.flatMap t) = G.flatten.flatMap t := by
  induction G with
  | nil => rfl
  | cons a G ih => simp [List.flatMap_cons, List.flatMap_append, ih]

theorem flatMap_range_getElem {α β : Type} (F : α → List β) (cs : List α) :
    (List.range cs.length).flatMap (recordsOfChunk F cs) = cs.flatMap F := by
  induction cs with
  | nil => rfl
  | cons c cs ih =>
    rw [List.length_cons, List.range_succ_eq_map, List.flatMap_cons, List.flatMap_map,
      List.flatMap_cons, ← ih]
    simp only [recordsOfChunk, List.getElem?_cons_zero, Nat.succ_eq_add_one,
      List.getElem?_cons_succ]
    rfl

/-- A per-line transform applied to every chunk of the splitter gives, chunk
after chunk, the records of all the lines of the input. -/
theorem chunks_per_line {T : Type} (r : Reader) {n : Nat} (hn : 0 < n)
    (t : List Byte → List T) :
    (SliceToBytesChunks r n).flatMap (fun c => (inputLines c.Data).flatMap t)
      = (inputLines r.data).flatMap t := by
  obtain ⟨G, h1, h2, _, _⟩ := slice_groups r hn
  have hshape : ∀ g ∈ G, LinesShape g :=
    linesShape_groups G (by rw [h2]; exact linesShape_inputLines r.data)
  have e1 : (SliceToBytesChunks r n).flatMap (fun c => (inputLines c.Data).flatMap t)
      = (payloads (SliceToBytesChunks r n)).flatMap (fun p => (inputLines p).flatMap t) := by
    simp [payloads, List.flatMap_map]
  rw [e1, h1, List.flatMap_map, ← h2, ← flatMap_groups]
  apply List.flatMap_congr
  intro g hg
  rw [inputLines_flatten_of_shape g (hshape g hg)]

/-- The indices of the emitted chunks, for use in later proofs. -/
theorem slice_indices (r : Reader) (chunkSize : Nat) :
    (SliceToBytesChunks r chunkSize).map BytesChunk.Index
      = List.range (SliceToBytesChunks r chunkSize).length := by
  rcases Nat.eq_zero_or_pos chunkSize with h0 | hpos
  · subst h0; simp [SliceToBytesChunks]
  · obtain ⟨_, _, _, _, h4⟩ := slice_groups r hpos
    exact h4

/-- C11 (end-to-end equivalence): for every input, every positive chunk size
and every per-line transform `t` (the processor returns for a chunk the non-nil
concatenation of `t` on the lines of the chunk, and no error), when the
batches of the chunks of the input arrive in any order, interleaved in any way
with error-free batches of other inputs, and no cancellation is observed,
`StreamOrdered` with a sink that never fails hands over for that input, and
`CollectOrdered` returns for it, exactly the records of all its lines in line
order: what the processor returns on the whole input taken as one chunk. -/
theorem C11_end_to_end {T : Type} (r : Reader) (chunkSize : Nat) (hpos : 0 < chunkSize)
    (f : String) (t : List Byte → List T) (lineProcessor : ChunkProcessorFunc T)
    (hlp : ∀ c : FileChunk,
      lineProcessor c = (some ((inputLines c.Chunk.Data).flatMap t), none))
    (ctx : Context) (arrival : List (ProcessedChunk T)) (sink : Sink T)
    (hsink : ∀ h g items, sink h g items = none)
    (hq : ctx.quietFor (arrival.length + 1))
    (herr : ∀ b ∈ arrival, b.Err = none)
    (hperm : (arrival.filter (fun b => decide (b.File = f))).Perm
      ((SliceToBytesChunks r chunkSize).map (fun c => processChunk lineProcessor ⟨f, c⟩))) :
    (StreamOrdered ctx arrival sink).err = none ∧
    (CollectOrdered ctx arrival).err = none ∧
    streamRecords (StreamOrdered ctx arrival sink).calls f = (inputLines r.data).flatMap t ∧
    (CollectOrdered ctx arrival).records f = (inputLines r.data).flatMap t ∧
    some (streamRecords (StreamOrdered ctx arrival sink).calls f)
      = (lineProcessor ⟨f, ⟨0, r.data⟩⟩).1 := by
  have hidx := slice_indices r chunkSize
  have hfi : (fileIndices arrival f).Perm
      (List.range (SliceToBytesChunks r chunkSize).length) := by
    have := hperm.map ProcessedChunk.ChunkIndex
    rw [List.map_map] at this
    have hc : (ProcessedChunk.ChunkIndex ∘ fun c => processChunk lineProcessor ⟨f, c⟩)
        = BytesChunk.Index := by
      funext c; rfl
    rw [hc, hidx] at this
    exact this
  have hitems : ∀ b ∈ arrival, b.File = f → b.Items = some
      (recordsOfChunk (fun c : BytesChunk => (inputLines c.Data).flatMap t)
        (SliceToBytesChunks r chunkSize) b.ChunkIndex) := by
    intro b hb hbf
    have hmem : b ∈ arrival.filter (fun b => decide (b.File = f)) := by
      simp [List.mem_filter, hb, hbf]
    obtain ⟨c, hc, hcb⟩ := List.mem_map.mp (hperm.subset hmem)
    obtain ⟨cs1, cs2, hsplit⟩ := List.append_of_mem hc
    have hci : c.Index = cs1.length := index_of_position hidx hsplit
    have hget : (SliceToBytesChunks r chunkSize)[c.Index]? = some c := by
      rw [hci, hsplit]; exact getElem?_middle cs1 c cs2
    rw [← hcb]
    simp only [processChunk, hlp, recordsOfChunk, hget]
  obtain ⟨m, h1, h2, h3, h4, _⟩ := collect_records ctx arrival f
    (recordsOfChunk (fun c : BytesChunk => (inputLines c.Data).flatMap t)
      (SliceToBytesChunks r chunkSize)) hq herr hitems
    (hfi.nodup_iff.mpr (List.nodup_range _))
  have hm : m = (SliceToBytesChunks r chunkSize).length := by
    rcases Nat.lt_trichotomy m (SliceToBytesChunks r chunkSize).length with h | h | h
    · exact absurd (hfi.symm.subset (List.mem_range.mpr h)) h2
    · exact h
    · have := hfi.subset (h1 _ h)
      simp at this
  rw [hm, flatMap_range_getElem (fun c : BytesChunk => (inputLines c.Data).flatMap t),
    chunks_per_line r hpos t] at h3
  obtain ⟨s1, s2⟩ := stream_collect_records ctx arrival sink hsink hq herr f
  refine ⟨s1, h4, by rw [s2, h3], h3, ?_⟩
  rw [s2, h3, hlp]

/-- Witness of C11: the input `"a\nb\nc\n"` with chunk size 4 gives two chunks;
their batches, for the transform that gives the length of each line, arrive
in reverse order. -/
theorem C11_end_to_end_witness :
    streamRecords (StreamOrdered Context.background
      [(⟨"f", 1, some [2], none⟩ : ProcessedChunk Nat), ⟨"f", 0, some [2, 2], none⟩]
      (fun _ _ _ => none)).calls "f"
      = (inputLines (bytes "a\nb\nc\n")).flatMap (fun l => [l.length]) :=
  (C11_end_to_end ⟨bytes "a\nb\nc\n", none⟩ 4 (by decide) "f" (fun l => [l.length])
    (perLineProcessor (fun l => [l.length])) (fun _ => rfl) Context.background
    [⟨"f", 1, some [2], none⟩, ⟨"f", 0, some [2, 2], none⟩] (fun _ _ _ => none)
    (fun _ _ _ => rfl) (quietFor_background _) (by decide)
    (by
      have hc : SliceToBytesChunks ⟨bytes "a\nb\nc\n", none⟩ 4
          = [⟨0, bytes "a\nb\n"⟩, ⟨1, bytes "c\n"⟩] := by decide
      have h0 : (inputLines (bytes "a\nb\n")).flatMap (fun l => [l.length]) = [2, 2] := by
        decide
      have h1 : (inputLines (bytes "c\n")).flatMap (fun l => [l.length]) = [2] := by
        decide
      rw [hc]
      simp only [List.map_cons, List.map_nil, processChunk, perLineProcessor, h0, h1]
      simpa [List.filter_cons] using
        List.Perm.swap (⟨"f", 0, some [2, 2], none⟩ : ProcessedChunk Nat)
          ⟨"f", 1, some [2], none⟩ [])).2.2.1

/-! ## Proofs: package common -/

theorem validators_examples :
    IsValidSHA1 asciiStrings (List.replicate 40 97) = true ∧
    IsValidSHA1 asciiStrings (List.replicate 40 65) = true ∧
    IsValidSHA1 asciiStrings (List.replicate 39 97) = false ∧
    IsValidSHA1 asciiStrings (List.replicate 39 97 ++ bytes "g") = false ∧
    IsValidDomain (bytes "example.com") = true ∧
    IsValidDomain (bytes "sub.domain.example") = true ∧
    IsValidDomain (bytes "") = false ∧
    IsValidDomain (bytes "localhost") = false ∧
    IsValidDomain (bytes "exa$mple.com") = false ∧
    IsValidDomain (bytes "-example.com") = false ∧
    IsValidDomain (bytes "Example.com") = false ∧
    IsValidDomain (bytes "foo_bar.com") = true := by
  refine ⟨?_, ?_, ?_, ?_, ?_, ?_, ?_, ?_, ?_, ?_, ?_, ?_⟩ <;> decide

theorem isLowerHex_asciiLower (b : Nat) :
    isLowerHexRune (asciiLower b) = true ↔ isHexDigit b := by
  simp only [isLowerHexRune, asciiLower, isHexDigit, decide_eq_true_eq]
  split_ifs with h <;> omega

theorem isHexDigit_lt (b : Nat) (h : isHexDigit b) : b < 128 := by
  simp only [isHexDigit] at h
  omega

/-- The three hash validators share one loop: with the required length `n`,
the check succeeds exactly on the strings of `n` hexadecimal digits. -/
theorem hash_check (lib : GoStrings) (hlib : lib.Lawful) (s : GoString) :
    (lib.runes (lib.ToLower s)).all isLowerHexRune = true ↔ ∀ b ∈ s, isHexDigit b := by
  constructor
  · intro hall
    have hascii : ∀ b ∈ s, b < 128 := by
      by_contra hc
      push_neg at hc
      obtain ⟨b, hb, hge⟩ := hc
      obtain ⟨r, hr, hno⟩ := hlib.nonAscii s ⟨b, hb, hge⟩
      have := List.all_eq_true.mp hall r hr
      simp only [isLowerHexRune, decide_eq_true_eq] at this
      exact hno this
    rw [hlib.ascii s hascii] at hall
    intro b hb
    have := List.all_eq_true.mp hall (asciiLower b) (List.mem_map.mpr ⟨b, hb, rfl⟩)
    exact (isLowerHex_asciiLower b).mp this
  · intro hhex
    rw [hlib.ascii s (fun b hb => isHexDigit_lt b (hhex b hb))]
    rw [List.all_eq_true]
    intro r hr
    obtain ⟨b, hb, hbr⟩ := List.mem_map.mp hr
    rw [← hbr]
    exact (isLowerHex_asciiLower b).mpr (hhex b hb)

/-- C18 (hash validators): `IsValidSHA1`, `IsValidSHA256` and `IsValidSHA512`
return true exactly on the strings of 40, 64 and 128 bytes respectively, all
of them hexadecimal digits `0-9`, `a-f` or `A-F`. -/
theorem C18_hash_validators (lib : GoStrings) (hlib : lib.Lawful) (s : GoString) :
    (IsValidSHA1 lib s = true ↔ s.length = 40 ∧ ∀ b ∈ s, isHexDigit b) ∧
    (IsValidSHA256 lib s = true ↔ s.length = 64 ∧ ∀ b ∈ s, isHexDigit b) ∧
    (IsValidSHA512 lib s = true ↔ s.length = 128 ∧ ∀ b ∈ s, isHexDigit b) := by
  have h := hash_check lib hlib s
  refine ⟨?_, ?_, ?_⟩
  · by_cases hl : s.length = 40
    · simp only [IsValidSHA1, hl, ne_eq, not_true_eq_false, if_false, true_and]; exact h
    · simp [IsValidSHA1, hl]
  · by_cases hl : s.length = 64
    · simp only [IsValidSHA256, hl, ne_eq, not_true_eq_false, if_false, true_and]; exact h
    · simp [IsValidSHA256, hl]
  · by_cases hl : s.length = 128
    · simp only [IsValidSHA512, hl, ne_eq, not_true_eq_false, if_false, true_and]; exact h
    · simp [IsValidSHA512, hl]

theorem asciiStrings_lawful : asciiStrings.Lawful := by
  constructor
  · intro s hs
    simp only [asciiStrings, List.map_map]
    apply List.map_congr_left
    intro b hb
    have := hs b hb
    simp only [Function.comp, asciiLower]
    split_ifs <;> first | rfl | omega
  · intro s ⟨b, hb, hge⟩
    refine ⟨65533, ?_, by omega⟩
    simp only [asciiStrings, List.map_map, List.mem_map]
    refine ⟨b, hb, ?_⟩
    have h1 : asciiLower b = b := by
      simp only [asciiLower]; split_ifs <;> first | rfl | omega
    simp only [Function.comp, h1]
    split_ifs <;> first | rfl | omega

/-- Witness of C18: the upper-case string of 40 letters `A` of the tests. -/
theorem C18_hash_validators_witness :
    (IsValidSHA1 asciiStrings (List.replicate 40 65) = true ↔
      (List.replicate 40 65).length = 40 ∧ ∀ b ∈ List.replicate 40 65, isHexDigit b) ∧
    IsValidSHA1 asciiStrings (List.replicate 40 65) = true :=
  ⟨(C18_hash_validators asciiStrings asciiStrings_lawful (List.replicate 40 65)).1, by decide⟩

/-! ### The label expression of IsValidDomain -/

theorem mem_run_cls (p : Nat → Bool) (s t : List Nat) :
    t ∈ (Regex.cls p).run s ↔ ∃ c, s = c :: t ∧ p c = true := by
  cases s with
  | nil => simp [Regex.run]
  | cons c rest =>
    simp only [Regex.run]
    by_cases hp : p c = true
    · rw [if_pos hp]
      constructor
      · intro h
        have ht := List.mem_singleton.mp h
        subst ht
        exact ⟨c, rfl, hp⟩
      · rintro ⟨c2, hc, _⟩
        injection hc with h1 h2
        exact List.mem_singleton.mpr h2.symm
    · rw [if_neg hp]
      constructor
      · intro h; exact absurd h (List.not_mem_nil _)
      · rintro ⟨c2, hc, h3⟩
        injection hc with h1 h2
        subst h1
        exact absurd h3 hp

/-- The ways to match `[class]{0,n}`: drop `k ≤ n` leading bytes of the class. -/
theorem mem_repRun_cls (p : Nat → Bool) (n : Nat) :
    ∀ s t : List Nat, t ∈ repRun (fun u => (Regex.cls p).run u) n s ↔
      ∃ k, k ≤ n ∧ k ≤ s.length ∧ (∀ c ∈ s.take k, p c = true) ∧ t = s.drop k := by
  induction n with
  | zero =>
    intro s t
    simp only [repRun, List.mem_singleton]
    constructor
    · intro h; exact ⟨0, Nat.le_refl _, Nat.zero_le _, by simp, by simp [h]⟩
    · rintro ⟨k, hk, _, _, ht⟩
      have : k = 0 := by omega
      subst this
      simpa using ht
  | succ n ih =>
    intro s t
    simp only [repRun, List.mem_cons, List.mem_flatMap, mem_run_cls, ih]
    constructor
    · rintro (h | ⟨u, ⟨c, hs, hp⟩, k, hk, hkl, hall, ht⟩)
      · exact ⟨0, Nat.zero_le _, Nat.zero_le _, by simp, by simp [h]⟩
      · subst hs
        refine ⟨k + 1, by omega, by simp; omega, ?_, by simpa using ht⟩
        intro x hx
        simp only [List.take_succ_cons, List.mem_cons] at hx
        rcases hx with hx | hx
        · rw [hx]; exact hp
        · exact hall x hx
    · rintro ⟨k, hk, hkl, hall, ht⟩
      cases k with
      | zero => left; simpa using ht
      | succ k =>
        right
        cases s with
        | nil => simp at hkl
        | cons c rest =>
          refine ⟨rest, ⟨c, rfl, hall c (by simp)⟩, k, by omega, by simpa using hkl, ?_,
            by simpa using ht⟩
          intro x hx
          exact hall x (by simp [hx])

theorem isAlnum_isLabel (b : Nat) (h : isAlnumLower b = true) : isLabelByte b = true := by
  simp only [isAlnumLower, isLabelByte, decide_eq_true_eq] at h ⊢
  omega

/-- The tail of the label expression, `[a-z0-9-_]{0,61}[a-z0-9]`, matches
exactly the non-empty strings of at most 62 bytes of the class that end with a
letter or digit. -/
theorem label_tail_match (rest : List Nat) :
    [] ∈ (Regex.cat (Regex.rep 61 (Regex.cls isLabelByte)) (Regex.cls isAlnumLower)).run rest ↔
      rest.length ≤ 62 ∧ (∀ c ∈ rest, isLabelByte c = true) ∧
        ∃ z, rest.getLast? = some z ∧ isAlnumLower z = true := by
  simp only [Regex.run, List.mem_flatMap]
  constructor
  · rintro ⟨t, ht, hz⟩
    obtain ⟨k, hk, hkl, hall, hdrop⟩ := (mem_repRun_cls isLabelByte 61 rest t).mp ht
    obtain ⟨z, hzt, hzp⟩ := (mem_run_cls isAlnumLower t []).mp hz
    have hrest : rest = rest.take k ++ [z] := by
      conv_lhs => rw [← List.take_append_drop k rest]
      rw [← hdrop, hzt]
    have hlen : rest.length = k + 1 := by
      have := congrArg List.length hrest
      simp only [List.length_append, List.length_take, List.length_singleton] at this
      omega
    refine ⟨by omega, ?_, z, ?_, hzp⟩
    · intro c hc
      rw [hrest] at hc
      rcases List.mem_append.mp hc with hc | hc
      · exact hall c hc
      · simp at hc; rw [hc]; exact isAlnum_isLabel z hzp
    · rw [hrest]; exact List.getLast?_concat _
  · rintro ⟨hlen, hall, z, hz, hzp⟩
    obtain ⟨ys, hys⟩ := List.getLast?_eq_some_iff.mp hz
    refine ⟨[z], ?_, (mem_run_cls isAlnumLower [z] []).mpr ⟨z, rfl, hzp⟩⟩
    apply (mem_repRun_cls isLabelByte 61 rest [z]).mpr
    have hl : rest.length = ys.length + 1 := by rw [hys]; simp
    refine ⟨ys.length, by omega, by omega, ?_, ?_⟩
    · intro c hc
      apply hall
      rw [hys] at hc ⊢
      simp only [List.take_left'] at hc
      exact List.mem_append_left _ hc
    · rw [hys]; simp

/-- The label expression matches exactly the strings of 1 to 63 bytes of the
class `[a-z0-9-_]` whose first and last bytes are letters or digits. -/
theorem labelRegex_match (l : GoString) :
    labelRegex.MatchString l = true ↔
      (1 ≤ l.length ∧ l.length ≤ 63) ∧ (∀ c ∈ l, isLabelByte c = true) ∧
      (∃ a, l.head? = some a ∧ isAlnumLower a = true) ∧
      (∃ z, l.getLast? = some z ∧ isAlnumLower z = true) := by
  have hmatch : labelRegex.MatchString l = true ↔ [] ∈ labelRegex.run l := by
    simp only [Regex.MatchString, List.any_eq_true, List.isEmpty_iff]
    constructor
    · rintro ⟨t, ht, he⟩; rw [← he]; exact ht
    · intro h; exact ⟨[], h, rfl⟩
  rw [hmatch]
  cases l with
  | nil =>
    simp [labelRegex, Regex.run]
  | cons c rest =>
    have hrun : [] ∈ labelRegex.run (c :: rest) ↔
        isAlnumLower c = true ∧ (rest = [] ∨
          [] ∈ (Regex.cat (Regex.rep 61 (Regex.cls isLabelByte))
            (Regex.cls isAlnumLower)).run rest) := by
      rw [labelRegex, Regex.run]
      simp only [List.mem_flatMap, mem_run_cls]
      constructor
      · rintro ⟨t, ⟨c2, hc, hp⟩, hm⟩
        simp only [List.cons.injEq] at hc
        obtain ⟨h1, h2⟩ := hc
        subst h1 h2
        refine ⟨hp, ?_⟩
        rw [Regex.run] at hm
        rcases List.mem_cons.mp hm with h | h
        · left; exact h.symm
        · right; exact h
      · rintro ⟨hp, h⟩
        refine ⟨rest, ⟨c, rfl, hp⟩, ?_⟩
        rw [Regex.run]
        rcases h with h | h
        · rw [h]; simp
        · exact List.mem_cons_of_mem _ h
    rw [hrun, label_tail_match]
    constructor
    · rintro ⟨hc, h | ⟨hlen, hall, z, hz, hzp⟩⟩
      · subst h
        refine ⟨by simp, ?_, ⟨c, rfl, hc⟩, ⟨c, rfl, hc⟩⟩
        intro x hx
        simp at hx; rw [hx]; exact isAlnum_isLabel c hc
      · refine ⟨by simp; omega, ?_, ⟨c, rfl, hc⟩, ⟨z, ?_, hzp⟩⟩
        · intro x hx
          rcases List.mem_cons.mp hx with hx | hx
          · rw [hx]; exact isAlnum_isLabel c hc
          · exact hall x hx
        · obtain ⟨ys, hys⟩ := List.getLast?_eq_some_iff.mp hz
          rw [hys, ← List.cons_append]
          exact List.getLast?_concat _
    · rintro ⟨⟨_, hlen⟩, hall, ⟨a, ha, hap⟩, ⟨z, hz, hzp⟩⟩
      simp only [List.head?_cons, Option.some.injEq] at ha
      subst ha
      refine ⟨hap, ?_⟩
      cases rest with
      | nil => left; rfl
      | cons r rs =>
        right
        refine ⟨by simp at hlen ⊢; omega, fun x hx => hall x (List.mem_cons_of_mem _ hx),
          z, ?_, hzp⟩
        rw [List.getLast?_cons_cons] at hz
        exact hz

/-- C19 (IsValidDomain): `IsValidDomain d` is true exactly when `d` has
between 1 and 253 bytes, splitting it on `'.'` gives at least two labels, and
every label has between 1 and 63 bytes, all of them lower-case letters,
digits, `'-'` or `'_'`, the first and the last a lower-case letter or a digit. -/
theorem C19_is_valid_domain (d : GoString) :
    IsValidDomain d = true ↔
      (1 ≤ d.length ∧ d.length ≤ 253) ∧ 2 ≤ (Split 46 d).length ∧
      ∀ l ∈ Split 46 d,
        (1 ≤ l.length ∧ l.length ≤ 63) ∧ (∀ c ∈ l, isLabelByte c = true) ∧
        (∃ a, l.head? = some a ∧ isAlnumLower a = true) ∧
        (∃ z, l.getLast? = some z ∧ isAlnumLower z = true) := by
  simp only [IsValidDomain]
  by_cases h1 : d.length = 0 ∨ d.length > 253
  · simp only [h1, if_true, Bool.false_eq_true, false_iff]
    intro hc; omega
  · simp only [h1, if_false]
    by_cases h2 : (Split 46 d).length < 2
    · simp only [h2, if_true, Bool.false_eq_true, false_iff]
      intro hc; omega
    · simp only [h2, if_false, List.all_eq_true]
      have hlabel : ∀ l : GoString,
          ((if l.length = 0 ∨ l.length > 63 then false
            else if (!labelRegex.MatchString l) = true then false else true) = true) ↔
          ((1 ≤ l.length ∧ l.length ≤ 63) ∧ (∀ c ∈ l, isLabelByte c = true) ∧
            (∃ a, l.head? = some a ∧ isAlnumLower a = true) ∧
            (∃ z, l.getLast? = some z ∧ isAlnumLower z = true)) := by
        intro l
        rw [← labelRegex_match]
        by_cases h3 : l.length = 0 ∨ l.length > 63
        · simp only [h3, if_true, Bool.false_eq_true, false_iff]
          intro hm
          have := (labelRegex_match l).mp hm
          omega
        · rw [if_neg h3]
          cases hm : labelRegex.MatchString l <;> simp
      constructor
      · intro h
        exact ⟨by omega, by omega, fun l hl => (hlabel l).mp (h l hl)⟩
      · rintro ⟨_, _, h⟩ l hl
        exact (hlabel l).mpr (h l hl)

/-- The domains of the test `TestValidateDomainNames` that carry no long
label, through `ValidateDomainNames`. -/
theorem validate_example :
    ValidateDomainNames asciiStrings
      [bytes " Example.com ", bytes "foo_bar.com", bytes "duplicate.com",
        bytes "duplicate.com", bytes "-invalid.com", bytes ""]
      = ([bytes "example.com", bytes "foo_bar.com", bytes "duplicate.com"],
          [bytes "-invalid.com"]) := by
  decide

theorem normalisedInputs_concat (lib : GoStrings) (P : List GoString) (raw : GoString) :
    normalisedInputs lib (P ++ [raw])
      = if lib.ToLower (lib.TrimSpace raw) = [] then normalisedInputs lib P
        else normalisedInputs lib P ++ [lib.ToLower (lib.TrimSpace raw)] := by
  by_cases h : lib.ToLower (lib.TrimSpace raw) = [] <;>
    simp [normalisedInputs, List.filter_append, List.filter_cons, h]

theorem firstIndex_append_of_mem (x d : GoString) (N : List GoString) (h : x ∈ N) :
    firstIndex x (N ++ [d]) = firstIndex x N := by
  induction N with
  | nil => simp at h
  | cons y ys ih =>
    simp only [List.cons_append, firstIndex]
    by_cases hy : y = x
    · simp [hy]
    · simp only [hy, if_false]
      rcases List.mem_cons.mp h with hx | hx
      · exact absurd hx.symm hy
      · exact congrArg (fun k => k + 1) (ih hx)

theorem firstIndex_append_of_not_mem (d : GoString) (N : List GoString) (h : d ∉ N) :
    firstIndex d (N ++ [d]) = N.length := by
  induction N with
  | nil => simp [firstIndex]
  | cons y ys ih =>
    simp only [List.mem_cons, not_or] at h
    have hy : ¬ y = d := fun hc => h.1 hc.symm
    simp only [List.cons_append, firstIndex, hy, if_false, List.length_cons]
    exact congrArg (fun k => k + 1) (ih h.2)

theorem firstIndex_lt_length (x : GoString) (N : List GoString) (h : x ∈ N) :
    firstIndex x N < N.length := by
  induction N with
  | nil => simp at h
  | cons y ys ih =>
    simp only [firstIndex, List.length_cons]
    by_cases hy : y = x
    · simp [hy]
    · simp only [hy, if_false]
      rcases List.mem_cons.mp h with hx | hx
      · exact absurd hx.symm hy
      · exact Nat.succ_lt_succ (ih hx)

theorem order_extend {N : List GoString} (d : GoString) {l : List GoString}
    (hl : ∀ x ∈ l, x ∈ N)
    (h : l.Pairwise (fun x y => firstIndex x N < firstIndex y N)) :
    l.Pairwise (fun x y => firstIndex x (N ++ [d]) < firstIndex y (N ++ [d])) := by
  refine List.Pairwise.imp_of_mem ?_ h
  intro a b ha hb hab
  rw [firstIndex_append_of_mem a d N (hl a ha), firstIndex_append_of_mem b d N (hl b hb)]
  exact hab

theorem order_snoc {N : List GoString} (d : GoString) (hd : d ∉ N) {l : List GoString}
    (hl : ∀ x ∈ l, x ∈ N)
    (h : l.Pairwise (fun x y => firstIndex x N < firstIndex y N)) :
    (l ++ [d]).Pairwise (fun x y => firstIndex x (N ++ [d]) < firstIndex y (N ++ [d])) := by
  rw [List.pairwise_append]
  refine ⟨order_extend d hl h, List.pairwise_singleton _ _, ?_⟩
  intro a ha b hb
  simp only [List.mem_singleton] at hb
  subst hb
  rw [firstIndex_append_of_mem a b N (hl a ha), firstIndex_append_of_not_mem b N hd]
  exact firstIndex_lt_length a N (hl a ha)

theorem validateStep_inv (lib : GoStrings) (st : ValidateState) (N : List GoString)
    (raw : GoString) (h : ValidateInv st N) :
    ValidateInv (validateStep lib st raw)
      (if lib.ToLower (lib.TrimSpace raw) = [] then N
        else N ++ [lib.ToLower (lib.TrimSpace raw)]) := by
  simp only [validateStep]
  by_cases hd : lib.ToLower (lib.TrimSpace raw) = []
  · simpa only [hd, if_true] using h
  · simp only [hd, if_false]
    have hvN : ∀ x ∈ st.validDomains, x ∈ N := fun x hx =>
      (h.memIff x).mp (List.mem_append_left _ hx)
    have hiN : ∀ x ∈ st.invalidDomains, x ∈ N := fun x hx =>
      (h.memIff x).mp (List.mem_append_right _ hx)
    by_cases hs : lib.ToLower (lib.TrimSpace raw) ∈ st.seen
    · simp only [hs, if_true]
      have hdN := (h.seenIff _).mp hs
      refine ⟨?_, ?_, h.nodup, order_extend _ hvN h.validOrder,
        order_extend _ hiN h.invalidOrder, h.valid, h.invalid⟩
      · intro x
        rw [h.seenIff x, List.mem_append, List.mem_singleton]
        constructor
        · exact Or.inl
        · rintro (hx | hx)
          · exact hx
          · rw [hx]; exact hdN
      · intro x
        rw [h.memIff x, List.mem_append, List.mem_singleton]
        constructor
        · exact Or.inl
        · rintro (hx | hx)
          · exact hx
          · rw [hx]; exact hdN
    · simp only [hs, if_false]
      have hdN : lib.ToLower (lib.TrimSpace raw) ∉ N := fun hc => hs ((h.seenIff _).mpr hc)
      have hdV : lib.ToLower (lib.TrimSpace raw) ∉ st.validDomains ++ st.invalidDomains :=
        fun hc => hdN ((h.memIff _).mp hc)
      have hseen : ∀ x, x ∈ lib.ToLower (lib.TrimSpace raw) :: st.seen ↔
          x ∈ N ++ [lib.ToLower (lib.TrimSpace raw)] := by
        intro x
        rw [List.mem_cons, List.mem_append, List.mem_singleton, h.seenIff x]
        tauto
      by_cases hv : IsValidDomain (lib.ToLower (lib.TrimSpace raw)) = true
      · simp only [hv, if_true]
        refine ⟨hseen, ?_, ?_, order_snoc _ hdN hvN h.validOrder,
          order_extend _ hiN h.invalidOrder, ?_, h.invalid⟩
        · intro x
          have := h.memIff x
          simp only [List.mem_append, List.mem_singleton] at this ⊢
          tauto
        · have hp : ((st.validDomains ++ [lib.ToLower (lib.TrimSpace raw)])
              ++ st.invalidDomains).Perm
              (lib.ToLower (lib.TrimSpace raw) :: (st.validDomains ++ st.invalidDomains)) := by
            rw [List.append_assoc]
            exact List.perm_middle
          exact hp.nodup_iff.mpr (List.nodup_cons.mpr ⟨hdV, h.nodup⟩)
        · intro x hx
          rcases List.mem_append.mp hx with hx | hx
          · exact h.valid x hx
          · simp only [List.mem_singleton] at hx
            rw [hx]; exact hv
      · simp only [hv, Bool.false_eq_true, if_false]
        refine ⟨hseen, ?_, ?_, order_extend _ hvN h.validOrder,
          order_snoc _ hdN hiN h.invalidOrder, h.valid, ?_⟩
        · intro x
          have := h.memIff x
          simp only [List.mem_append, List.mem_singleton] at this ⊢
          tauto
        · have hp : (st.validDomains ++ (st.invalidDomains
              ++ [lib.ToLower (lib.TrimSpace raw)])).Perm
              (lib.ToLower (lib.TrimSpace raw) :: (st.validDomains ++ st.invalidDomains)) := by
            rw [← List.append_assoc]
            exact List.perm_append_singleton _ _
          exact hp.nodup_iff.mpr (List.nodup_cons.mpr ⟨hdV, h.nodup⟩)
        · intro x hx
          rcases List.mem_append.mp hx with hx | hx
          · exact h.invalid x hx
          · simp only [List.mem_singleton] at hx
            rw [hx]
            cases hb : IsValidDomain (lib.ToLower (lib.TrimSpace raw))
            · rfl
            · exact absurd hb hv

theorem validate_fold_inv (lib : GoStrings) (domains : List GoString) :
    ValidateInv (domains.foldl (validateStep lib) ⟨[], [], []⟩)
      (normalisedInputs lib domains) := by
  induction domains using List.reverseRecOn with
  | nil =>
    exact ⟨by simp [normalisedInputs], by simp [normalisedInputs], by simp, by simp, by simp,
      by simp, by simp⟩
  | append_singleton P raw ih =>
    rw [List.foldl_concat, normalisedInputs_concat]
    exact validateStep_inv lib _ _ raw ih

/-- C20 (ValidateDomainNames partition): with `N` the non-empty normalised
inputs in input order, the two returned lists together hold every element of
`N` and nothing else, without repetition; each list is in order of first
occurrence in `N`; every element of the first list satisfies `IsValidDomain`
and no element of the second does. -/
theorem C20_validate_partition (lib : GoStrings) (domains : List GoString) :
    ((ValidateDomainNames lib domains).1 ++ (ValidateDomainNames lib domains).2).Nodup ∧
    (∀ x, x ∈ (ValidateDomainNames lib domains).1 ++ (ValidateDomainNames lib domains).2 ↔
      x ∈ normalisedInputs lib domains) ∧
    (ValidateDomainNames lib domains).1.Pairwise
      (fun x y => firstIndex x (normalisedInputs lib domains)
        < firstIndex y (normalisedInputs lib domains)) ∧
    (ValidateDomainNames lib domains).2.Pairwise
      (fun x y => firstIndex x (normalisedInputs lib domains)
        < firstIndex y (normalisedInputs lib domains)) ∧
    (∀ x ∈ (ValidateDomainNames lib domains).1, IsValidDomain x = true) ∧
    (∀ x ∈ (ValidateDomainNames lib domains).2, IsValidDomain x = false) := by
  have h := validate_fold_inv lib domains
  exact ⟨h.nodup, h.memIff, h.validOrder, h.invalidOrder, h.valid, h.invalid⟩

/-- Witness of C19 on `"example.com"`, which is valid. -/
theorem C19_is_valid_domain_witness :
    IsValidDomain (bytes "example.com") = true ∧
    ((1 ≤ (bytes "example.com").length ∧ (bytes "example.com").length ≤ 253) ∧
      2 ≤ (Split 46 (bytes "example.com")).length ∧
      ∀ l ∈ Split 46 (bytes "example.com"),
        (1 ≤ l.length ∧ l.length ≤ 63) ∧ (∀ c ∈ l, isLabelByte c = true) ∧
        (∃ a, l.head? = some a ∧ isAlnumLower a = true) ∧
        (∃ z, l.getLast? = some z ∧ isAlnumLower z = true)) :=
  ⟨by decide, (C19_is_valid_domain (bytes "example.com")).mp (by decide)⟩

/-- Witness of C20 on domains of the test `TestValidateDomainNames`. -/
theorem C20_validate_partition_witness :
    ∀ x, x ∈ (ValidateDomainNames asciiStrings
        [bytes " Example.com ", bytes "duplicate.com", bytes "duplicate.com",
          bytes "-invalid.com", bytes ""]).1 ++
      (ValidateDomainNames asciiStrings
        [bytes " Example.com ", bytes "duplicate.com", bytes "duplicate.com",
          bytes "-invalid.com", bytes ""]).2 ↔
      x ∈ normalisedInputs asciiStrings
        [bytes " Example.com ", bytes "duplicate.com", bytes "duplicate.com",
          bytes "-invalid.com", bytes ""] :=
  (C20_validate_partition asciiStrings
    [bytes " Example.com ", bytes "duplicate.com", bytes "duplicate.com",
      bytes "-invalid.com", bytes ""]).2.1

/-! ## Proofs: further properties of the reassembly -/

/-- C26 (nil items are skipped): a batch with a nil `Err` and nil `Items`
leaves the whole state of `CollectOrdered` and of `StreamOrdered` unchanged,
whatever its `ChunkIndex`, and the sink is not invoked: the loops go on with
the next batch from the same state. -/
theorem C26_nil_items_skipped {T : Type} (res : ProcessedChunk T) (hitems : res.Items = none)
    (herr : res.Err = none) (ctx : Context) (hctx : ctx.isDone = false)
    (cs : CollectState T) (ss : StreamState T) (sink : Sink T)
    (rest : List (ProcessedChunk T)) :
    collectStep cs res = cs ∧ streamStep sink ss res = (ss, none) ∧
    collectLoop ctx cs (res :: rest) = collectLoop ctx.tick cs rest ∧
    streamLoop sink ctx ss (res :: rest) = streamLoop sink ctx.tick ss rest := by
  have h1 : collectStep cs res = cs := by simp [collectStep, hitems]
  have h2 : streamStep sink ss res = (ss, none) := by simp [streamStep, hitems]
  refine ⟨h1, h2, ?_, ?_⟩
  · simp [collectLoop, hctx, herr, h1]
  · simp [streamLoop, hctx, herr, h2]

/-- Witness of C26: a batch with nil items whose index is the next expected
one, followed by the batch of index 1; nothing is delivered. -/
theorem C26_nil_items_skipped_witness :
    collectLoop Context.background (⟨fun _ => none, fun _ => 0, fun _ => none⟩ : CollectState Nat)
        [⟨"a", 0, none, none⟩, ⟨"a", 1, some [7], none⟩]
      = collectLoop Context.background.tick ⟨fun _ => none, fun _ => 0, fun _ => none⟩
          [⟨"a", 1, some [7], none⟩] :=
  (C26_nil_items_skipped ⟨"a", 0, none, none⟩ rfl rfl Context.background rfl
    ⟨fun _ => none, fun _ => 0, fun _ => none⟩ ⟨fun _ => 0, fun _ => none, []⟩
    (fun _ _ _ => none) [⟨"a", 1, some [7], none⟩]).2.2.1

/-- C27 (collect and stream agree): for every sequence of batches without
error, followed by the close of the channel and without cancellation, the
records a never-failing sink is handed for an input, appended in invocation
order, are the records `CollectOrdered` returns for that input, and both
functions return a nil error. -/
theorem C27_modes_agree {T : Type} (ctx : Context) (inp : List (ProcessedChunk T))
    (sink : Sink T) (hsink : ∀ h f items, sink h f items = none)
    (hq : ctx.quietFor (inp.length + 1)) (herr : ∀ b ∈ inp, b.Err = none) (f : String) :
    streamRecords (StreamOrdered ctx inp sink).calls f = (CollectOrdered ctx inp).records f ∧
    (StreamOrdered ctx inp sink).err = none ∧ (CollectOrdered ctx inp).err = none := by
  obtain ⟨h1, h2⟩ := stream_collect_records ctx inp sink hsink hq herr f
  refine ⟨h2, h1, ?_⟩
  simp only [CollectOrdered, collectLoop_quiet inp ctx _ hq herr]

/-- Witness of C27: indices 1 and 0 of input `"a"` arrive in that order. -/
theorem C27_modes_agree_witness :
    streamRecords (StreamOrdered Context.background
      [(⟨"a", 1, some [10], none⟩ : ProcessedChunk Nat), ⟨"a", 0, some [0], none⟩]
      (fun _ _ _ => none)).calls "a"
      = (CollectOrdered Context.background
        [(⟨"a", 1, some [10], none⟩ : ProcessedChunk Nat), ⟨"a", 0, some [0], none⟩]).records
          "a" :=
  (C27_modes_agree Context.background
    [⟨"a", 1, some [10], none⟩, ⟨"a", 0, some [0], none⟩] (fun _ _ _ => none)
    (fun _ _ _ => rfl) (quietFor_background _) (by decide) "a").1

/-! ### Independence of the inputs -/

theorem drainLoop_congr {T : Type} (f : String) (fuel : Nat) :
    ∀ st1 st2 : CollectState T, AgreeAt f st1 st2 →
      AgreeAt f (drainLoop fuel f st1) (drainLoop fuel f st2) := by
  induction fuel with
  | zero => intro st1 st2 h; exact h
  | succ fuel ih =>
    intro st1 st2 h
    obtain ⟨h1, h2, h3⟩ := h
    simp only [drainLoop, readSlice, h1, h2, h3]
    cases hb : st2.buffers f with
    | none => exact ⟨h1, h2, by rw [h3, hb]⟩
    | some pending =>
      simp only
      cases hp : pendingGet (st2.nextIndex f) pending with
      | none =>
        simp only
        split_ifs
        · exact ⟨h1, h2, by simp [setKey]⟩
        · exact ⟨h1, h2, by rw [h3]⟩
      | some entry =>
        simp only
        apply ih
        exact ⟨by simp [setKey], by simp [setCount], by simp [setKey]⟩

/-- The effect of a batch of input `f` on the part of the state that belongs
to `f` depends on that part only. -/
theorem collectStep_congr {T : Type} (f : String) (st1 st2 : CollectState T)
    (res : ProcessedChunk T) (hf : res.File = f) (h : AgreeAt f st1 st2) :
    AgreeAt f (collectStep st1 res) (collectStep st2 res) := by
  subst hf
  obtain ⟨h1, h2, h3⟩ := h
  simp only [collectStep, readSlice, h1, h2, h3]
  cases hi : res.Items with
  | none => exact ⟨h1, h2, h3⟩
  | some items =>
    simp only
    split_ifs with hidx
    · simp only [drainBuffer, pendingCount, h3]
      apply drainLoop_congr
      exact ⟨by simp [setKey], by simp [setCount], h3⟩
    · exact ⟨h1, h2, by simp [setKey]⟩

theorem collect_fold_filter {T : Type} (f : String) (inp : List (ProcessedChunk T)) :
    ∀ st1 st2 : CollectState T, AgreeAt f st1 st2 →
      AgreeAt f (inp.foldl collectStep st1)
        ((inp.filter (fun b => decide (b.File = f))).foldl collectStep st2) := by
  induction inp with
  | nil => intro st1 st2 h; exact h
  | cons b rest ih =>
    intro st1 st2 h
    by_cases hb : b.File = f
    · simp only [List.filter_cons, hb, decide_True, if_true, List.foldl_cons]
      exact ih _ _ (collectStep_congr f st1 st2 b hb h)
    · simp only [List.filter_cons, hb, decide_False, List.foldl_cons]
      obtain ⟨e1, e2, e3⟩ := collectStep_frame st1 b f hb
      exact ih _ _ ⟨e1.trans h.1, e2.trans h.2.1, e3.trans h.2.2⟩

theorem quietFor_mono {ctx : Context} {k j : Nat} (h : ctx.quietFor k) (hj : j ≤ k) :
    ctx.quietFor j :=
  fun d hd => Nat.le_trans hj (h d hd)

/-- C29 (independence of the inputs): for every sequence of batches without
error and every input `f`, without cancellation, what `CollectOrdered` returns
for `f` is what it returns on the batches of `f` alone; the batches of the
other inputs change neither the result of `f`, nor its next expected index,
nor its pending buffer. -/
theorem C29_input_independence {T : Type} (ctx : Context) (inp : List (ProcessedChunk T))
    (f : String) (hq : ctx.quietFor (inp.length + 1)) (herr : ∀ b ∈ inp, b.Err = none) :
    (CollectOrdered ctx inp).records f
      = (CollectOrdered ctx (inp.filter (fun b => decide (b.File = f)))).records f ∧
    AgreeAt f (inp.foldl collectStep ⟨fun _ => none, fun _ => 0, fun _ => none⟩)
      ((inp.filter (fun b => decide (b.File = f))).foldl collectStep
        ⟨fun _ => none, fun _ => 0, fun _ => none⟩) ∧
    (∀ (st : CollectState T) (b : ProcessedChunk T), b.File ≠ f →
      AgreeAt f (collectStep st b) st) := by
  have hagree := collect_fold_filter f inp
    (⟨fun _ => none, fun _ => 0, fun _ => none⟩ : CollectState T) _ ⟨rfl, rfl, rfl⟩
  have hq2 : ctx.quietFor ((inp.filter (fun b => decide (b.File = f))).length + 1) :=
    quietFor_mono hq (Nat.succ_le_succ (List.length_filter_le _ _))
  have herr2 : ∀ b ∈ inp.filter (fun b => decide (b.File = f)), b.Err = none :=
    fun b hb => herr b (List.mem_of_mem_filter hb)
  refine ⟨?_, hagree, fun st b hb => collectStep_frame st b f hb⟩
  simp only [CollectOrdered, collectLoop_quiet inp ctx _ hq herr,
    collectLoop_quiet _ ctx _ hq2 herr2, CollectOutcome.records, readSlice, hagree.1]

/-- Witness of C29: batches of inputs `"a"` and `"b"` interleaved. -/
theorem C29_input_independence_witness :
    (CollectOrdered Context.background
      [(⟨"a", 1, some [10], none⟩ : ProcessedChunk Nat), ⟨"b", 0, some [5], none⟩,
        ⟨"a", 0, some [0], none⟩, ⟨"b", 2, some [6], none⟩]).records "a"
      = (CollectOrdered Context.background
        ([(⟨"a", 1, some [10], none⟩ : ProcessedChunk Nat), ⟨"b", 0, some [5], none⟩,
          ⟨"a", 0, some [0], none⟩, ⟨"b", 2, some [6], none⟩].filter
            (fun b => decide (b.File = "a")))).records "a" :=
  (C29_input_independence Context.background
    [⟨"a", 1, some [10], none⟩, ⟨"b", 0, some [5], none⟩,
      ⟨"a", 0, some [0], none⟩, ⟨"b", 2, some [6], none⟩] "a"
    (quietFor_background _) (by decide)).1

/-! ### The pending buffers -/

/-- The loop of `drainBuffer` ends through its `return`: when it stops, the
pending buffer has no entry for the next expected index. -/
theorem drainLoop_exit {T : Type} (f : String) (fuel : Nat) :
    ∀ st : CollectState T, pendingCount st.buffers f < fuel →
      DrainedAt (drainLoop fuel f st).nextIndex (drainLoop fuel f st).buffers f := by
  induction fuel with
  | zero => intro st h; omega
  | succ fuel ih =>
    intro st hfuel
    simp only [drainLoop]
    cases hb : st.buffers f with
    | none => simp [DrainedAt, hb, pendingGet]
    | some pending =>
      simp only
      cases hp : pendingGet (st.nextIndex f) pending with
      | none =>
        simp only
        split_ifs
        · simp [DrainedAt, setKey, pendingGet]
        · simp [DrainedAt, hb, hp]
      | some entry =>
        simp only
        apply ih
        have := pendingDelete_length_lt _ _ _ hp
        simp only [pendingCount, setKey, if_true]
        simp only [pendingCount, hb] at hfuel
        omega

theorem collectStep_drained {T : Type} (st : CollectState T) (res : ProcessedChunk T)
    (h : ∀ f, DrainedAt st.nextIndex st.buffers f) :
    ∀ f, DrainedAt (collectStep st res).nextIndex (collectStep st res).buffers f := by
  intro f
  by_cases hf : res.File = f
  · subst hf
    simp only [collectStep]
    cases hi : res.Items with
    | none => exact h res.File
    | some items =>
      simp only
      split_ifs with hidx
      · exact drainLoop_exit res.File _ _ (by simp)
      · have := h res.File
        simp only [DrainedAt] at this ⊢
        simp only [setKey, if_true, Option.getD_some, pendingGet_set]
        have hne : ¬ st.nextIndex res.File = res.ChunkIndex := fun hc => hidx hc.symm
        simp only [hne, if_false]
        exact this
  · obtain ⟨_, e2, e3⟩ := collectStep_frame st res f hf
    simp only [DrainedAt, e2, e3]
    exact h f

theorem flushLoop_frame {T : Type} (sink : Sink T) (g f : String) (hfg : f ≠ g) (fuel : Nat) :
    ∀ st : StreamState T,
      (flushLoop sink fuel g st).1.nextIndex f = st.nextIndex f ∧
      (flushLoop sink fuel g st).1.buffers f = st.buffers f := by
  induction fuel with
  | zero => intro st; exact ⟨rfl, rfl⟩
  | succ fuel ih =>
    intro st
    simp only [flushLoop]
    cases hb : st.buffers g with
    | none => exact ⟨rfl, rfl⟩
    | some pending =>
      simp only
      cases hp : pendingGet (st.nextIndex g) pending with
      | none =>
        simp only
        split_ifs
        · exact ⟨rfl, by simp [setKey, hfg]⟩
        · exact ⟨rfl, rfl⟩
      | some items =>
        simp only
        cases hs : sink (sinkHistory st.calls) g items with
        | some err => exact ⟨rfl, rfl⟩
        | none =>
          simp only
          obtain ⟨h1, h2⟩ := ih
            { nextIndex := setCount st.nextIndex g (st.nextIndex g + 1),
              buffers := setKey st.buffers g (some (pendingDelete (st.nextIndex g) pending)),
              calls := st.calls ++ [⟨g, st.nextIndex g, items⟩] }
          rw [h1, h2]
          simp [setKey, setCount, hfg]

/-- The loop of `flush` ends through a `return`: when it returns nil, the
pending buffer has no entry for the next expected index. -/
theorem flushLoop_exit {T : Type} (sink : Sink T) (f : String) (fuel : Nat) :
    ∀ st : StreamState T, pendingCount st.buffers f < fuel →
      (flushLoop sink fuel f st).2 = none →
      DrainedAt (flushLoop sink fuel f st).1.nextIndex (flushLoop sink fuel f st).1.buffers f := by
  induction fuel with
  | zero => intro st h; omega
  | succ fuel ih =>
    intro st hfuel
    simp only [flushLoop]
    cases hb : st.buffers f with
    | none => intro _; simp [DrainedAt, hb, pendingGet]
    | some pending =>
      simp only
      cases hp : pendingGet (st.nextIndex f) pending with
      | none =>
        simp only
        split_ifs
        · intro _; simp [DrainedAt, setKey, pendingGet]
        · intro _; simp [DrainedAt, hb, hp]
      | some items =>
        simp only
        cases hs : sink (sinkHistory st.calls) f items with
        | some err => intro hc; simp at hc
        | none =>
          simp only
          apply ih
          have := pendingDelete_length_lt _ _ _ hp
          simp only [pendingCount, setKey, if_true]
          simp only [pendingCount, hb] at hfuel
          omega

theorem streamStep_drained {T : Type} (sink : Sink T) (st : StreamState T)
    (res : ProcessedChunk T) (h : ∀ f, DrainedAt st.nextIndex st.buffers f)
    (hok : (streamStep sink st res).2 = none) :
    ∀ f, DrainedAt (streamStep sink st res).1.nextIndex (streamStep sink st res).1.buffers f := by
  intro f
  simp only [streamStep] at hok ⊢
  cases hi : res.Items with
  | none => exact h f
  | some items =>
    simp only [hi] at hok
    simp only
    by_cases hidx : res.ChunkIndex = st.nextIndex res.File
    · simp only [hidx, if_true] at hok ⊢
      cases hs : sink (sinkHistory st.calls) res.File items with
      | some err => simp [hs] at hok
      | none =>
        simp only [hs] at hok
        simp only
        by_cases hf : res.File = f
        · subst hf
          exact flushLoop_exit sink res.File _ _ (by simp) hok
        · have hfg : f ≠ res.File := fun hc => hf hc.symm
          obtain ⟨e1, e2⟩ := flushLoop_frame sink res.File f hfg
            (pendingCount st.buffers res.File + 1)
            { nextIndex := setCount st.nextIndex res.File (st.nextIndex res.File + 1),
              buffers := st.buffers,
              calls := st.calls ++ [⟨res.File, st.nextIndex res.File, items⟩] }
          simp only [streamFlush, DrainedAt, e1, e2]
          simp only [setCount, hfg, if_false]
          exact h f
    · simp only [hidx, if_false]
      by_cases hf : res.File = f
      · subst hf
        have := h res.File
        simp only [DrainedAt] at this ⊢
        simp only [setKey, if_true, Option.getD_some, pendingGet_set]
        have hne : ¬ st.nextIndex res.File = res.ChunkIndex := fun hc => hidx hc.symm
        simp only [hne, if_false]
        exact this
      · have hfg : ¬ f = res.File := fun hc => hf hc.symm
        have := h f
        simp only [DrainedAt] at this ⊢
        simp only [setKey, hfg, if_false]
        exact this

theorem streamFold_drained {T : Type} (sink : Sink T) (inp : List (ProcessedChunk T)) :
    ∀ st : StreamState T, (∀ f, DrainedAt st.nextIndex st.buffers f) →
      (streamFold sink st inp).2 = none →
      ∀ f, DrainedAt (streamFold sink st inp).1.nextIndex (streamFold sink st inp).1.buffers f := by
  induction inp with
  | nil => intro st h _; exact h
  | cons b rest ih =>
    intro st h
    simp only [streamFold]
    have hstep := streamStep_drained sink st b h
    rcases hr : streamStep sink st b with ⟨st2, _ | err⟩
    · simp only
      rw [hr] at hstep
      exact ih st2 (hstep rfl)
    · intro hc; simp at hc

/-! ### Batches that arrive in order -/

theorem collectStep_inorder {T : Type} (st : CollectState T) (res : ProcessedChunk T)
    (items : List T) (hbuf : ∀ f, st.buffers f = none) (hitems : res.Items = some items)
    (hidx : res.ChunkIndex = st.nextIndex res.File) :
    (collectStep st res).buffers = st.buffers ∧
    (collectStep st res).nextIndex
      = setCount st.nextIndex res.File (st.nextIndex res.File + 1) := by
  simp [collectStep, hitems, hidx, drainBuffer, drainLoop, pendingCount, hbuf]

theorem streamStep_inorder {T : Type} (sink : Sink T) (st : StreamState T)
    (res : ProcessedChunk T) (items : List T) (hbuf : ∀ f, st.buffers f = none)
    (hitems : res.Items = some items) (hidx : res.ChunkIndex = st.nextIndex res.File) :
    (streamStep sink st res).1.buffers = st.buffers ∧
    ((streamStep sink st res).2 = none →
      (streamStep sink st res).1.nextIndex
        = setCount st.nextIndex res.File (st.nextIndex res.File + 1)) := by
  simp only [streamStep, hitems, hidx, if_true]
  cases hs : sink (sinkHistory st.calls) res.File items with
  | some err => exact ⟨rfl, fun hc => by simp at hc⟩
  | none => simp [streamFlush, flushLoop, pendingCount, hbuf]

/-- The indices of the batches of every input that are still to come, given a
batch whose index is the head of the indices of its input. -/
theorem inorder_tail {T : Type} (b : ProcessedChunk T) (rest : List (ProcessedChunk T))
    (next : String → Nat)
    (h : ∀ f, fileIndices (b :: rest) f
      = List.range' (next f) (fileIndices (b :: rest) f).length) :
    b.ChunkIndex = next b.File ∧
    ∀ f, fileIndices rest f
      = List.range' (setCount next b.File (next b.File + 1) f) (fileIndices rest f).length := by
  have hb := h b.File
  rw [fileIndices_cons] at hb
  simp only [if_true, List.length_cons, List.range'_succ, List.cons.injEq] at hb
  refine ⟨hb.1, ?_⟩
  intro f
  by_cases hf : f = b.File
  · subst hf
    simpa [setCount] using hb.2
  · have := h f
    rw [fileIndices_cons] at this
    have hbf : ¬ b.File = f := fun hc => hf hc.symm
    simpa [hbf, setCount, hf] using this

theorem collect_inorder {T : Type} (inp : List (ProcessedChunk T)) :
    ∀ st : CollectState T, (∀ f, st.buffers f = none) → (∀ b ∈ inp, b.Items ≠ none) →
      (∀ f, fileIndices inp f = List.range' (st.nextIndex f) (fileIndices inp f).length) →
      ∀ pre post, inp = pre ++ post → ∀ f, (pre.foldl collectStep st).buffers f = none := by
  induction inp with
  | nil =>
    intro st hbuf _ _ pre post hsplit f
    have : pre = [] := by
      cases pre with
      | nil => rfl
      | cons a t => simp at hsplit
    subst this
    exact hbuf f
  | cons b rest ih =>
    intro st hbuf hitems hidx pre post hsplit f
    cases pre with
    | nil => exact hbuf f
    | cons a pre2 =>
      simp only [List.cons_append, List.cons.injEq] at hsplit
      obtain ⟨hab, hrest⟩ := hsplit
      subst hab
      obtain ⟨h1, h2⟩ := inorder_tail b rest st.nextIndex hidx
      cases hi : b.Items with
      | none => exact absurd hi (hitems b (by simp))
      | some items =>
        obtain ⟨e1, e2⟩ := collectStep_inorder st b items hbuf hi h1
        simp only [List.foldl_cons]
        exact ih (collectStep st b) (by rw [e1]; exact hbuf)
          (fun x hx => hitems x (List.mem_cons_of_mem _ hx)) (by rw [e2]; exact h2)
          pre2 post hrest f

theorem stream_inorder {T : Type} (sink : Sink T) (inp : List (ProcessedChunk T)) :
    ∀ st : StreamState T, (∀ f, st.buffers f = none) → (∀ b ∈ inp, b.Items ≠ none) →
      (∀ f, fileIndices inp f = List.range' (st.nextIndex f) (fileIndices inp f).length) →
      ∀ pre post, inp = pre ++ post → ∀ f, (streamFold sink st pre).1.buffers f = none := by
  induction inp with
  | nil =>
    intro st hbuf _ _ pre post hsplit f
    have : pre = [] := by
      cases pre with
      | nil => rfl
      | cons a t => simp at hsplit
    subst this
    exact hbuf f
  | cons b rest ih =>
    intro st hbuf hitems hidx pre post hsplit f
    cases pre with
    | nil => exact hbuf f
    | cons a pre2 =>
      simp only [List.cons_append, List.cons.injEq] at hsplit
      obtain ⟨hab, hrest⟩ := hsplit
      subst hab
      obtain ⟨h1, h2⟩ := inorder_tail b rest st.nextIndex hidx
      cases hi : b.Items with
      | none => exact absurd hi (hitems b (by simp))
      | some items =>
        obtain ⟨e1, e2⟩ := streamStep_inorder sink st b items hbuf hi h1
        simp only [streamFold]
        rcases hr : streamStep sink st b with ⟨st2, _ | err⟩
        · rw [hr] at e1 e2
          simp only at e1 e2 ⊢
          exact ih st2 (by rw [e1]; exact hbuf)
            (fun x hx => hitems x (List.mem_cons_of_mem _ hx)) (by rw [e2 trivial]; exact h2)
            pre2 post hrest f
        · rw [hr] at e1
          simp only at e1 ⊢
          rw [e1]; exact hbuf f

/-- C24 (only out-of-order chunks are buffered): when the batches of every
input arrive in ascending index order 0, 1, 2, ... with non-nil `Items`, the
inputs interleaved in any way, then after every batch the pending buffers of
`CollectOrdered` and of `StreamOrdered` (whatever the sink does) hold nothing:
no input has a pending map. -/
theorem C24_in_order_not_buffered {T : Type} (inp : List (ProcessedChunk T)) (sink : Sink T)
    (hitems : ∀ b ∈ inp, b.Items ≠ none)
    (horder : ∀ f, fileIndices inp f = List.range (fileIndices inp f).length)
    (pre post : List (ProcessedChunk T)) (hsplit : inp = pre ++ post) (f : String) :
    (pre.foldl collectStep ⟨fun _ => none, fun _ => 0, fun _ => none⟩).buffers f = none ∧
    (streamFold sink ⟨fun _ => 0, fun _ => none, []⟩ pre).1.buffers f = none := by
  have h0 : ∀ g, fileIndices inp g = List.range' 0 (fileIndices inp g).length := by
    intro g
    have := horder g
    rw [List.range_eq_range'] at this
    exact this
  exact ⟨collect_inorder inp _ (fun _ => rfl) hitems h0 pre post hsplit f,
    stream_inorder sink inp _ (fun _ => rfl) hitems h0 pre post hsplit f⟩

/-- Witness of C24: inputs `"a"` and `"b"` interleaved, each in index order. -/
theorem C24_in_order_not_buffered_witness :
    (([(⟨"a", 0, some [1], none⟩ : ProcessedChunk Nat), ⟨"b", 0, some [5], none⟩]).foldl
      collectStep ⟨fun _ => none, fun _ => 0, fun _ => none⟩).buffers "a" = none ∧
    (streamFold (fun _ _ _ => none) ⟨fun _ => 0, fun _ => none, []⟩
      [(⟨"a", 0, some [1], none⟩ : ProcessedChunk Nat), ⟨"b", 0, some [5], none⟩]).1.buffers "a"
      = none :=
  C24_in_order_not_buffered
    [⟨"a", 0, some [1], none⟩, ⟨"b", 0, some [5], none⟩, ⟨"a", 1, some [2], none⟩,
      ⟨"b", 1, some [6], none⟩] (fun _ _ _ => none) (by decide)
    (by
      intro f
      by_cases ha : f = "a"
      · subst ha; decide
      · by_cases hb : f = "b"
        · subst hb; decide
        · have ha2 : ¬ "a" = f := fun hc => ha hc.symm
          have hb2 : ¬ "b" = f := fun hc => hb hc.symm
          simp [fileIndices, List.filter_cons, ha2, hb2])
    [⟨"a", 0, some [1], none⟩, ⟨"b", 0, some [5], none⟩]
    [⟨"a", 1, some [2], none⟩, ⟨"b", 1, some [6], none⟩] rfl "a"

/-! ### A sink that fails -/

theorem allOk_snoc {T : Type} (sink : Sink T) (calls : List (SinkCall T)) (c : SinkCall T)
    (h : AllOk sink calls) (hc : sink (sinkHistory calls) c.File c.Items = none) :
    AllOk sink (calls ++ [c]) := by
  intro pre x post hsplit
  rcases List.eq_nil_or_concat post with hnil | ⟨post2, z, hz⟩
  · subst hnil
    obtain ⟨e1, e2⟩ := List.append_inj' hsplit rfl
    have e3 : x = c := by simpa using e2.symm
    rw [← e1, e3]
    exact hc
  · rw [List.concat_eq_append] at hz
    subst hz
    have hsplit2 : calls ++ [c] = (pre ++ x :: post2) ++ [z] := by
      rw [hsplit]; simp
    obtain ⟨e1, _⟩ := List.append_inj' hsplit2 rfl
    exact h pre x post2 e1

/-- The loop of `flush` stops at the first invocation of the sink that fails
and returns its error; that invocation is the last one. -/
theorem flushLoop_fail {T : Type} (sink : Sink T) (file : String) (fuel : Nat) :
    ∀ st : StreamState T, AllOk sink st.calls →
      ((flushLoop sink fuel file st).2 = none → AllOk sink (flushLoop sink fuel file st).1.calls) ∧
      (∀ e, (flushLoop sink fuel file st).2 = some e →
        ∃ pre c, (flushLoop sink fuel file st).1.calls = pre ++ [c] ∧ AllOk sink pre ∧
          sink (sinkHistory pre) c.File c.Items = some e ∧ c.File = file ∧
          c.Index = (flushLoop sink fuel file st).1.nextIndex file) := by
  induction fuel with
  | zero => intro st h; exact ⟨fun _ => h, fun e he => by simp [flushLoop] at he⟩
  | succ fuel ih =>
    intro st h
    simp only [flushLoop]
    cases hb : st.buffers file with
    | none => exact ⟨fun _ => h, fun e he => by simp at he⟩
    | some pending =>
      simp only
      cases hp : pendingGet (st.nextIndex file) pending with
      | none =>
        simp only
        split_ifs
        · exact ⟨fun _ => h, fun e he => by simp at he⟩
        · exact ⟨fun _ => h, fun e he => by simp at he⟩
      | some items =>
        simp only
        cases hs : sink (sinkHistory st.calls) file items with
        | some err =>
          refine ⟨fun hc => by simp at hc, ?_⟩
          intro e he
          simp only [Option.some.injEq] at he
          subst he
          exact ⟨st.calls, ⟨file, st.nextIndex file, items⟩, rfl, h, hs, rfl, rfl⟩
        | none =>
          exact ih _ (allOk_snoc sink st.calls ⟨file, st.nextIndex file, items⟩ h hs)

theorem streamStep_fail {T : Type} (sink : Sink T) (st : StreamState T)
    (res : ProcessedChunk T) (h : AllOk sink st.calls) :
    ((streamStep sink st res).2 = none → AllOk sink (streamStep sink st res).1.calls) ∧
    (∀ e, (streamStep sink st res).2 = some e →
      ∃ pre c, (streamStep sink st res).1.calls = pre ++ [c] ∧ AllOk sink pre ∧
        sink (sinkHistory pre) c.File c.Items = some e ∧ c.File = res.File ∧
        c.Index = (streamStep sink st res).1.nextIndex res.File) := by
  simp only [streamStep]
  cases hi : res.Items with
  | none => exact ⟨fun _ => h, fun e he => by simp at he⟩
  | some items =>
    simp only
    split_ifs with hidx
    · cases hs : sink (sinkHistory st.calls) res.File items with
      | some err =>
        refine ⟨fun hc => by simp at hc, ?_⟩
        intro e he
        simp only [Option.some.injEq] at he
        subst he
        exact ⟨st.calls, ⟨res.File, res.ChunkIndex, items⟩, rfl, h, hs, rfl, hidx⟩
      | none =>
        simp only [streamFlush]
        exact flushLoop_fail sink res.File _ _
          (allOk_snoc sink st.calls ⟨res.File, res.ChunkIndex, items⟩ h hs)
    · exact ⟨fun _ => h, fun e he => by simp at he⟩

/-- Either no invocation of the sink failed during a run of `StreamOrdered`,
or the last one did: the run returned its error and left unread the batches
after the one it was processing. -/
theorem streamLoop_fail {T : Type} (sink : Sink T) (inp : List (ProcessedChunk T)) :
    ∀ (ctx : Context) (st : StreamState T), AllOk sink st.calls →
      AllOk sink (streamLoop sink ctx st inp).calls ∨
      ∃ e consumed b pre c,
        (streamLoop sink ctx st inp).calls = pre ++ [c] ∧ AllOk sink pre ∧
        sink (sinkHistory pre) c.File c.Items = some e ∧ c.File = b.File ∧
        (streamLoop sink ctx st inp).err = some e ∧
        inp = consumed ++ b :: (streamLoop sink ctx st inp).unread := by
  induction inp with
  | nil =>
    intro ctx st h
    left
    simp only [streamLoop]
    split_ifs <;> exact h
  | cons b rest ih =>
    intro ctx st h
    simp only [streamLoop]
    split_ifs
    · left; exact h
    · cases he : b.Err with
      | some err => left; exact h
      | none =>
        simp only
        have hstep := streamStep_fail sink st b h
        rcases hr : streamStep sink st b with ⟨st2, _ | err⟩
        · rw [hr] at hstep
          simp only
          rcases ih ctx.tick st2 (hstep.1 rfl) with hok | ⟨e, consumed, b2, pre, c, h1, h2, h3, h4, h5, h6⟩
          · left; exact hok
          · right
            refine ⟨e, b :: consumed, b2, pre, c, h1, h2, h3, h4, h5, ?_⟩
            rw [List.cons_append, ← h6]
        · rw [hr] at hstep
          simp only
          right
          obtain ⟨pre, c, h1, h2, h3, h4, _⟩ := hstep.2 err rfl
          exact ⟨err, [], b, pre, c, h1, h2, h3, h4, rfl, rfl⟩

/-- C28 (sink failure aborts streaming): if an invocation of the sink made
by `StreamOrdered` returns an error, it is the last invocation, `StreamOrdered`
returns exactly that error, and the batches after the one being processed,
which is a batch of the same input, stay unread; and whenever the loop body
ends with an error of the sink, the next expected index of that input is the
index of the chunk the sink failed on. -/
theorem C28_sink_failure {T : Type} (ctx : Context) (inp : List (ProcessedChunk T))
    (sink : Sink T) (pre : List (SinkCall T)) (c : SinkCall T) (post : List (SinkCall T))
    (e : GoError) (hcalls : (StreamOrdered ctx inp sink).calls = pre ++ c :: post)
    (hfail : sink (sinkHistory pre) c.File c.Items = some e) :
    post = [] ∧ (StreamOrdered ctx inp sink).err = some e ∧
    (∃ consumed b, inp = consumed ++ b :: (StreamOrdered ctx inp sink).unread ∧
      b.File = c.File) ∧
    (∀ (st : StreamState T) (res : ProcessedChunk T) (e2 : GoError), AllOk sink st.calls →
      (streamStep sink st res).2 = some e2 →
      ∃ c2, (streamStep sink st res).1.calls.getLast? = some c2 ∧ c2.File = res.File ∧
        (streamStep sink st res).1.nextIndex res.File = c2.Index) := by
  have hrun := streamLoop_fail sink inp ctx ⟨fun _ => 0, fun _ => none, []⟩
    (by intro p x q hs; simp at hs)
  have hstepIdx : ∀ (st : StreamState T) (res : ProcessedChunk T) (e2 : GoError),
      AllOk sink st.calls → (streamStep sink st res).2 = some e2 →
      ∃ c2, (streamStep sink st res).1.calls.getLast? = some c2 ∧ c2.File = res.File ∧
        (streamStep sink st res).1.nextIndex res.File = c2.Index := by
    intro st res e2 hok he2
    obtain ⟨p, c2, h1, _, _, h4, h5⟩ := (streamStep_fail sink st res hok).2 e2 he2
    exact ⟨c2, by rw [h1]; exact List.getLast?_concat _, h4, h5.symm⟩
  rcases hrun with hok | ⟨e2, consumed, b, pre2, c2, h1, h2, h3, h4, h5, h6⟩
  · have := hok pre c post hcalls
    rw [this] at hfail
    exact absurd hfail (by simp)
  · have hcalls2 : pre ++ c :: post = pre2 ++ [c2] := by
      rw [← hcalls]; exact h1
    rcases List.eq_nil_or_concat post with hnil | ⟨post2, z, hz⟩
    · subst hnil
      obtain ⟨e1, e3⟩ := List.append_inj' hcalls2 rfl
      have e4 : c = c2 := by simpa using e3
      subst e1 e4
      rw [h3] at hfail
      simp only [Option.some.injEq] at hfail
      subst hfail
      exact ⟨rfl, h5, ⟨consumed, b, h6, h4.symm⟩, hstepIdx⟩
    · rw [List.concat_eq_append] at hz
      subst hz
      have hcalls3 : (pre ++ c :: post2) ++ [z] = pre2 ++ [c2] := by
        rw [← hcalls2]; simp
      obtain ⟨e1, _⟩ := List.append_inj' hcalls3 rfl
      have := h2 pre c post2 e1.symm
      rw [this] at hfail
      exact absurd hfail (by simp)

/-- Witness of C28: index 1 arrives before index 0 and is buffered; the sink
fails on its second invocation, made for the buffered entry; the batch of
index 2 stays unread. -/
theorem C28_sink_failure_witness :
    ([] : List (SinkCall Nat)) = [] ∧
    (StreamOrdered Context.background
      [(⟨"a", 1, some [10], none⟩ : ProcessedChunk Nat), ⟨"a", 0, some [0], none⟩,
        ⟨"a", 2, some [20], none⟩] failsSecond).err = some (GoError.msg "sink failed") :=
  ⟨(C28_sink_failure Context.background
      [⟨"a", 1, some [10], none⟩, ⟨"a", 0, some [0], none⟩, ⟨"a", 2, some [20], none⟩]
      failsSecond [⟨"a", 0, [0]⟩] ⟨"a", 1, [10]⟩ [] (GoError.msg "sink failed") rfl rfl).1,
    (C28_sink_failure Context.background
      [⟨"a", 1, some [10], none⟩, ⟨"a", 0, some [0], none⟩, ⟨"a", 2, some [20], none⟩]
      failsSecond [⟨"a", 0, [0]⟩] ⟨"a", 1, [10]⟩ [] (GoError.msg "sink failed") rfl rfl).2.1⟩

/-! ### The error channel of the worker pool -/

/-- Every error sent takes a worker out of its loop, so the buffered errors
and the running workers together never exceed the capacity of the channel,
and the send never takes its `default` branch. -/
theorem poolLoop_errors (openReader : String → Nat → Except GoError Reader)
    (chunker : Reader → Nat → List BytesChunk) (workerCount chunkSize : Nat)
    (jobs : List FileJob) :
    ∀ st : PoolState, st.errCh.length + st.live ≤ workerCount → st.dropped = [] →
      (poolLoop openReader chunker workerCount chunkSize st jobs).1.dropped = [] ∧
      (poolLoop openReader chunker workerCount chunkSize st jobs).1.errCh.length
        + (poolLoop openReader chunker workerCount chunkSize st jobs).1.live ≤ workerCount := by
  induction jobs with
  | nil =>
    intro st hcap hdrop
    simp only [poolLoop]
    exact ⟨hdrop, by omega⟩
  | cons job rest ih =>
    intro st hcap hdrop
    by_cases hlive : st.live = 0
    · simp only [poolLoop, hlive, if_true]
      exact ⟨hdrop, by omega⟩
    · by_cases hdone : st.ctx.isDone = true
      · simp only [poolLoop, hlive, hdone, if_true, if_false]
        exact ⟨hdrop, by omega⟩
      · have hsend : st.errCh.length < workerCount := by omega
        simp only [poolLoop, hlive, hdone, hsend, decide_True, if_true, if_false]
        cases hr : (streamFileChunks openReader chunker st.ctx.tick job.Path chunkSize).err with
        | none =>
          simp only
          exact ih _ hcap hdrop
        | some err =>
          simp only
          apply ih
          · simp only [List.length_append, List.length_singleton]
            omega
          · exact hdrop

/-- C30 (error reports are never dropped): in `StartChunkWorkers`, whatever the
jobs, the file system and the cancellation, every error a worker sends finds
room in the error channel: no send takes the `default` branch, and the channel
never holds more errors than there are workers, a worker leaving its loop
after the one error it sends. -/
theorem C30_errors_never_dropped (openReader : String → Nat → Except GoError Reader)
    (chunker : Reader → Nat → List BytesChunk) (ctx : Context)
    (workerCount chunkSize : Nat) (files : List FileJob) :
    (StartChunkWorkers openReader chunker ctx workerCount chunkSize files).1.dropped = [] ∧
    (StartChunkWorkers openReader chunker ctx workerCount chunkSize files).1.errCh.length
      ≤ workerCount := by
  obtain ⟨h1, h2⟩ := poolLoop_errors openReader chunker workerCount chunkSize files
    ⟨workerCount, [], [], [], ctx⟩ (by simp) rfl
  exact ⟨h1, by simp only [StartChunkWorkers]; omega⟩

/-- An evaluation of the pool: two workers, inputs `"A"` (cannot be opened),
`"B"`, `"A"` again and `"C"`; both workers stop on `"A"`, two errors are
buffered, none is dropped, and `"C"` is never claimed. -/
theorem pool_example :
    (StartChunkWorkers exampleFS SliceToBytesChunks Context.background 2 4
      [⟨"A"⟩, ⟨"B"⟩, ⟨"A"⟩, ⟨"C"⟩]).1.dropped = [] ∧
    (StartChunkWorkers exampleFS SliceToBytesChunks Context.background 2 4
      [⟨"A"⟩, ⟨"B"⟩, ⟨"A"⟩, ⟨"C"⟩]).1.errCh.length = 2 ∧
    (StartChunkWorkers exampleFS SliceToBytesChunks Context.background 2 4
      [⟨"A"⟩, ⟨"B"⟩, ⟨"A"⟩, ⟨"C"⟩]).2 = [⟨"C"⟩] := by
  refine ⟨by decide, by decide, by decide⟩

/-! ### Why a chunk is closed -/

theorem greedyChain_tail {n : Nat} {x : List (List Byte)} {L : List (List (List Byte))}
    (h : GreedyChain n (x :: L)) : GreedyChain n L := by
  cases L with
  | nil => trivial
  | cons y L => exact h.2

theorem greedyChain_middle {n : Nat} (G1 : List (List (List Byte))) (g g2 : List (List Byte))
    (G2 : List (List (List Byte))) (h : GreedyChain n (G1 ++ g :: g2 :: G2)) :
    GreedyPair n g g2 := by
  induction G1 with
  | nil => exact h.1
  | cons x G1 ih => exact ih (greedyChain_tail h)

theorem greedyChain_snoc2 {n : Nat} (G : List (List (List Byte))) (a b : List (List Byte)) :
    GreedyChain n (G ++ [a, b]) ↔ GreedyChain n (G ++ [a]) ∧ GreedyPair n a b := by
  induction G with
  | nil => simp [GreedyChain]
  | cons g t ih =>
    cases t with
    | nil =>
      simp only [List.cons_append, List.nil_append, GreedyChain]
      tauto
    | cons g2 t2 =>
      have e : ∀ X, GreedyChain n ((g :: g2 :: t2) ++ X)
          = (GreedyPair n g g2 ∧ GreedyChain n ((g2 :: t2) ++ X)) := fun X => rfl
      rw [e, e, ih]
      tauto

theorem greedyChain_replace_last {n : Nat} (G : List (List (List Byte)))
    (a a2 : List (List Byte)) (h : GreedyChain n (G ++ [a]))
    (himp : ∀ g, GreedyPair n g a → GreedyPair n g a2) : GreedyChain n (G ++ [a2]) := by
  induction G with
  | nil => trivial
  | cons g t ih =>
    cases t with
    | nil =>
      simp only [List.cons_append, List.nil_append, GreedyChain] at h ⊢
      exact ⟨himp g h.1, trivial⟩
    | cons g2 t2 =>
      have e : ∀ X, GreedyChain n ((g :: g2 :: t2) ++ X)
          = (GreedyPair n g g2 ∧ GreedyChain n ((g2 :: t2) ++ X)) := fun X => rfl
      rw [e] at h ⊢
      exact ⟨h.1, ih h.2⟩

theorem greedyChain_init {n : Nat} (G : List (List (List Byte))) (a : List (List Byte))
    (h : GreedyChain n (G ++ [a])) : GreedyChain n G := by
  induction G with
  | nil => trivial
  | cons g t ih =>
    cases t with
    | nil => trivial
    | cons g2 t2 =>
      have e : GreedyChain n ((g :: g2 :: t2) ++ [a])
          = (GreedyPair n g g2 ∧ GreedyChain n ((g2 :: t2) ++ [a])) := rfl
      rw [e] at h
      exact ⟨h.1, ih h.2⟩

theorem greedyPair_full {n : Nat} (g g2 : List (List Byte)) (h : n ≤ g.flatten.length) :
    GreedyPair n g g2 := Or.inl h

theorem greedyPair_append {n : Nat} (g a : List (List Byte)) (line : List Byte)
    (h : GreedyPair n g a) : GreedyPair n g (a ++ [line]) := by
  rcases h with h | ⟨l, hl, hlen⟩
  · exact Or.inl h
  · right
    refine ⟨l, ?_, hlen⟩
    cases a with
    | nil => simp at hl
    | cons x t => simpa using hl

theorem flush_of_ne {s : SliceState} (h : s.buffer ≠ []) :
    s.flush = ⟨s.index + 1, [], s.out ++ [⟨s.index, s.buffer⟩]⟩ := by
  have hlen : s.buffer.length ≠ 0 := fun hc => h (List.length_eq_zero.mp hc)
  simp [SliceState.flush, hlen]

theorem greedyInv_step {n : Nat} (hn : 0 < n) {s : SliceState} {ls : List (List Byte)}
    (h : GreedyInv n s ls) (line : List Byte) (hl : line ≠ []) :
    GreedyInv n (processLine n s line) (ls ++ [line]) := by
  obtain ⟨groups, gb, h1, h2, h3, h5, h6, hch⟩ := h
  have hlpos : 0 < line.length := List.length_pos.mpr hl
  unfold processLine
  rw [if_pos hlpos]
  by_cases hA : line.length > n ∧ s.buffer.length = 0
  · rw [if_pos hA]
    have hb : s.buffer = [] := List.length_eq_zero.mp hA.2
    have hgb : gb = [] := flatten_eq_nil_of_ne h5 (by rw [← h2]; exact hb)
    subst hgb
    refine ⟨groups ++ [[line]], [], ?_, ?_, ?_, by simp, by simpa [hb] using hn, ?_⟩
    · simp [payloads_append, h1]; simp [payloads]
    · simpa using hb
    · simp at h3; simp [h3]
    · rw [List.append_assoc]
      apply (greedyChain_snoc2 groups [line] []).mpr
      refine ⟨greedyChain_replace_last groups [] [line] hch ?_, greedyPair_full _ _ ?_⟩
      · intro g hp
        rcases hp with hp | ⟨l, hl2, _⟩
        · exact Or.inl hp
        · simp at hl2
      · simp; omega
  · rw [if_neg hA]
    by_cases hB : s.buffer.length + line.length > n ∧ s.buffer.length > 0
    · simp only [hB, and_self, if_true]
      have hne : s.buffer ≠ [] := List.length_pos.mp hB.2
      have hpair : GreedyPair n gb [line] :=
        Or.inr ⟨line, rfl, by rw [← h2]; exact hB.1⟩
      have hch1 : GreedyChain n (groups ++ [gb, [line]]) :=
        (greedyChain_snoc2 groups gb [line]).mpr ⟨hch, hpair⟩
      simp only [flush_of_ne hne, List.nil_append]
      by_cases hC : line.length ≥ n
      · rw [if_pos hC]
        rw [flush_of_ne (s := SliceState.mk (s.index + 1) line
          (s.out ++ [BytesChunk.mk s.index s.buffer])) hl]
        refine ⟨groups ++ [gb, [line]], [], ?_, by simp, ?_, by simp, by simpa using hn, ?_⟩
        · simp [payloads_append, h1]; simp [payloads, h2]
        · simp [← h3]
        · have e : groups ++ [gb, [line]] ++ [[]] = (groups ++ [gb]) ++ [[line], []] := by simp
          rw [e]
          apply (greedyChain_snoc2 (groups ++ [gb]) [line] []).mpr
          refine ⟨?_, greedyPair_full _ _ (by simpa using hC)⟩
          have e2 : groups ++ [gb] ++ [[line]] = groups ++ [gb, [line]] := by simp
          rw [e2]; exact hch1
      · rw [if_neg hC]
        refine ⟨groups ++ [gb], [line], ?_, by simp, ?_, by simpa using hl,
          by simpa using hC, ?_⟩
        · simp [payloads_append, h1]; simp [payloads, h2]
        · simp [← h3]
        · have e2 : groups ++ [gb] ++ [[line]] = groups ++ [gb, [line]] := by simp
          rw [e2]; exact hch1
    · simp only [hB, if_false]
      have hch2 : GreedyChain n (groups ++ [gb ++ [line]]) :=
        greedyChain_replace_last groups gb (gb ++ [line]) hch
          (fun g hp => greedyPair_append g gb line hp)
      have hall : ∀ l ∈ gb ++ [line], l ≠ [] := by
        intro l hl2
        rcases List.mem_append.mp hl2 with hl2 | hl2
        · exact h5 l hl2
        · simp at hl2; subst hl2; exact hl
      by_cases hC : (s.buffer ++ line).length ≥ n
      · rw [if_pos hC]
        rw [flush_of_ne (s := SliceState.mk s.index (s.buffer ++ line) s.out) (by simp [hl])]
        refine ⟨groups ++ [gb ++ [line]], [], ?_, by simp, ?_, by simp, by simpa using hn, ?_⟩
        · simp [payloads_append, h1]; simp [payloads, h2]
        · simp [← h3]
        · rw [List.append_assoc]
          apply (greedyChain_snoc2 groups (gb ++ [line]) []).mpr
          refine ⟨hch2, greedyPair_full _ _ ?_⟩
          simpa [h2] using hC
      · rw [if_neg hC]
        exact ⟨groups, gb ++ [line], h1, by simp [h2], by simp [← h3], hall,
          by simpa using hC, hch2⟩

theorem greedyInv_loop {n : Nat} (hn : 0 < n) (lines : List (List Byte)) :
    ∀ (s : SliceState) (ls : List (List Byte)), GreedyInv n s ls →
      GreedyInv n (sliceLoop n s lines)
        (ls ++ lines.filter (fun l => decide (0 < l.length))) := by
  induction lines with
  | nil => intro s ls h; simpa [sliceLoop] using h
  | cons line rest ih =>
    intro s ls h
    by_cases hl : line = []
    · subst hl
      have hp : processLine n s [] = s := by simp [processLine]
      have := ih s ls h
      simpa [sliceLoop, hp] using this
    · have hpos : 0 < line.length := List.length_pos.mpr hl
      have := ih (processLine n s line) (ls ++ [line]) (greedyInv_step hn h line hl)
      simpa [sliceLoop, hpos, List.filter_cons] using this

/-- The groups of lines of the emitted chunks form a chain: every chunk that
is followed by another was closed because it was full or because the next
line did not fit. -/
theorem greedy_groups (r : Reader) {n : Nat} (hn : 0 < n) :
    ∃ groups : List (List (List Byte)),
      payloads (SliceToBytesChunks r n) = groups.map List.flatten ∧
      groups.flatten = inputLines r.data ∧ GreedyChain n groups := by
  have h := greedyInv_loop hn (readAll r.data) ⟨0, [], []⟩ []
    ⟨[], [], by simp [payloads], by simp, by simp, by simp, by simpa using hn, trivial⟩
  have hn0 : ¬ n ≤ 0 := Nat.not_le.mpr hn
  simp only [SliceToBytesChunks, hn0, if_false]
  simp only [List.nil_append] at h
  obtain ⟨groups, gb, h1, h2, h3, h5, _, hch⟩ := h
  by_cases hb : (sliceLoop n ⟨0, [], []⟩ (readAll r.data)).buffer.length > 0
  · simp only [hb, if_true]
    have hne : (sliceLoop n ⟨0, [], []⟩ (readAll r.data)).buffer ≠ [] := List.length_pos.mp hb
    rw [flush_of_ne hne]
    refine ⟨groups ++ [gb], ?_, by simpa using h3, hch⟩
    simp [payloads_append, h1]; simp [payloads, h2]
  · simp only [hb, if_false]
    have hnil : (sliceLoop n ⟨0, [], []⟩ (readAll r.data)).buffer = [] :=
      List.length_eq_zero.mp (Nat.eq_zero_of_not_pos hb)
    have hgb : gb = [] := flatten_eq_nil_of_ne h5 (by rw [← h2]; exact hnil)
    subst hgb
    exact ⟨groups, h1, by simpa using h3, greedyChain_init groups [] hch⟩

/-- C25 (greedy chunk closing): for every input and positive chunk size, and
every two consecutive chunks emitted by `SliceToBytesChunks`, the first is at
least `chunkSize` bytes long, or its length plus the length of the first line
of the second exceeds `chunkSize`. -/
theorem C25_greedy_closing (r : Reader) (chunkSize : Nat) (h : 0 < chunkSize)
    (cs : List BytesChunk) (c c2 : BytesChunk) (rest : List BytesChunk)
    (hsplit : SliceToBytesChunks r chunkSize = cs ++ c :: c2 :: rest) :
    chunkSize ≤ c.Data.length ∨
    ∃ l, (inputLines c2.Data).head? = some l ∧ chunkSize < c.Data.length + l.length := by
  obtain ⟨groups, h1, h2, hch⟩ := greedy_groups r h
  rw [hsplit] at h1
  simp only [payloads, List.map_append, List.map_cons] at h1
  obtain ⟨G1, GB, e1, _, e3⟩ := List.map_eq_append_iff.mp h1.symm
  obtain ⟨g, GB2, f1, f2, f3⟩ := List.map_eq_cons_iff.mp e3
  obtain ⟨g2, G2, k1, k2, _⟩ := List.map_eq_cons_iff.mp f3
  subst f1 k1 e1
  have hshape : LinesShape g2 :=
    linesShape_groups _ (by rw [h2]; exact linesShape_inputLines r.data) g2 (by simp)
  have hlines : inputLines c2.Data = g2 := by
    rw [← k2]; exact inputLines_flatten_of_shape g2 hshape
  rcases greedyChain_middle G1 g g2 G2 hch with hp | ⟨l, hl, hlen⟩
  · left; rw [← f2]; exact hp
  · right
    exact ⟨l, by rw [hlines]; exact hl, by rw [← f2]; exact hlen⟩

/-- Witness of C25 on the test `BasicAggregation`: `"line1\nline2\n"` is closed
because `"line3\n"` does not fit in 15 bytes. -/
theorem C25_greedy_closing_witness :
    15 ≤ (bytes "line1\nline2\n").length ∨
    ∃ l, (inputLines (bytes "line3\n")).head? = some l ∧
      15 < (bytes "line1\nline2\n").length + l.length :=
  C25_greedy_closing ⟨bytes "line1\nline2\nline3\n", none⟩ 15 (by decide) []
    ⟨0, bytes "line1\nline2\n"⟩ ⟨1, bytes "line3\n"⟩ [] (by decide)

/-- The two examples of C25, evaluated: the tests `BasicAggregation` and
`EveryLineOwnChunk`. -/
theorem greedy_examples :
    SliceToBytesChunks ⟨bytes "line1\nline2\nline3\n", none⟩ 15
      = [⟨0, bytes "line1\nline2\n"⟩, ⟨1, bytes "line3\n"⟩] ∧
    SliceToBytesChunks ⟨bytes "line1\nline2\nline3\n", none⟩ 10
      = [⟨0, bytes "line1\n"⟩, ⟨1, bytes "line2\n"⟩, ⟨2, bytes "line3\n"⟩] := by
  constructor <;> decide

/-! ## Proofs: `GenerateDomainPairs` -/

/-- The call `strings.Split` returns at least one part. -/
theorem split_ne_nil (sep : Nat) (s : GoString) : Split sep s ≠ [] := by
  cases s with
  | nil => simp [Split]
  | cons b bs =>
    simp only [Split]
    split_ifs
    · simp
    · cases Split sep bs <;> simp

/-- Joining after putting a byte in front of the first part. -/
theorem join_cons_head (b : Nat) (p : GoString) (ps : List GoString) (sep : GoString) :
    Join ((b :: p) :: ps) sep = b :: Join (p :: ps) sep := by
  cases ps <;> simp [Join]

/-- Joining the parts of a split by the separator gives the string back. -/
theorem join_split (sep : Nat) (s : GoString) : Join (Split sep s) [sep] = s := by
  induction s with
  | nil => simp [Split, Join]
  | cons b bs ih =>
    simp only [Split]
    split_ifs with hb
    · have hne := split_ne_nil sep bs
      cases hs : Split sep bs with
      | nil => exact absurd hs hne
      | cons p ps =>
        rw [hs] at ih
        simp [Join, ih, hb]
    · have hne := split_ne_nil sep bs
      cases hs : Split sep bs with
      | nil => exact absurd hs hne
      | cons p ps =>
        rw [hs] at ih
        simp only [join_cons_head, ih]

/-- The last suffix of a non-empty list holds its last element. -/
theorem drop_length_pred {α : Type} (l : List α) (h : l ≠ []) :
    l.drop (l.length - 1) = [l.getLast h] := by
  induction l with
  | nil => exact absurd rfl h
  | cons a t ih =>
    cases t with
    | nil => simp
    | cons b t2 =>
      have := ih (by simp)
      simp only [List.length_cons, Nat.add_sub_cancel] at this ⊢
      rw [List.drop_succ_cons, this]
      simp

/-- The pairs of `GenerateDomainPairs`, by position. -/
theorem pairs_getElem (lib : GoStrings) (domain : GoString) (i : Nat)
    (hi : i < (Split 46 (lib.ToLower (lib.TrimSpace domain))).length - 1) :
    (GenerateDomainPairs lib domain)[i]? =
      some (Join ((Split 46 (lib.ToLower (lib.TrimSpace domain))).drop i) [46],
            Join ((Split 46 (lib.ToLower (lib.TrimSpace domain))).drop (i + 1)) [46]) := by
  simp only [GenerateDomainPairs, List.getElem?_map, List.getElem?_range hi, Option.map_some']

/-- The number of pairs of `GenerateDomainPairs`. -/
theorem pairs_length (lib : GoStrings) (domain : GoString) :
    (GenerateDomainPairs lib domain).length =
      (Split 46 (lib.ToLower (lib.TrimSpace domain))).length - 1 := by
  simp [GenerateDomainPairs]

/-- An entry of the result of `GenerateDomainPairs` is at a position below the
number of pairs, and is the pair of that position. -/
theorem pairs_entry (lib : GoStrings) (domain : GoString) (i : Nat) (p : GoString × GoString)
    (hp : (GenerateDomainPairs lib domain)[i]? = some p) :
    i < (Split 46 (lib.ToLower (lib.TrimSpace domain))).length - 1 ∧
    p = (Join ((Split 46 (lib.ToLower (lib.TrimSpace domain))).drop i) [46],
         Join ((Split 46 (lib.ToLower (lib.TrimSpace domain))).drop (i + 1)) [46]) := by
  have hi : i < (Split 46 (lib.ToLower (lib.TrimSpace domain))).length - 1 := by
    rw [← pairs_length]
    by_contra hge
    rw [List.getElem?_eq_none (by omega)] at hp
    cases hp
  refine ⟨hi, ?_⟩
  rw [pairs_getElem lib domain i hi] at hp
  exact (Option.some.inj hp).symm

/-- **C21** (GenerateDomainPairs chain). With `parts` the `k` dot-separated
labels of the trimmed, lower-cased domain: `k >= 1`; `GenerateDomainPairs`
returns exactly `k - 1` pairs; the `i`-th pair is (labels `i..k-1` joined by
`'.'`, labels `i+1..k-1` joined by `'.'`); the first child is the whole
normalised domain; the parent of each pair is the child of the next pair; and
the last parent is the final label. -/
theorem C21_domain_pairs_chain (lib : GoStrings) (domain : GoString) :
    1 ≤ (Split 46 (lib.ToLower (lib.TrimSpace domain))).length ∧
    (GenerateDomainPairs lib domain).length + 1 =
      (Split 46 (lib.ToLower (lib.TrimSpace domain))).length ∧
    (∀ i, i + 1 < (Split 46 (lib.ToLower (lib.TrimSpace domain))).length →
      (GenerateDomainPairs lib domain)[i]? =
        some (Join ((Split 46 (lib.ToLower (lib.TrimSpace domain))).drop i) [46],
              Join ((Split 46 (lib.ToLower (lib.TrimSpace domain))).drop (i + 1)) [46])) ∧
    (∀ p, (GenerateDomainPairs lib domain).head? = some p →
      p.1 = lib.ToLower (lib.TrimSpace domain)) ∧
    (∀ i p q, (GenerateDomainPairs lib domain)[i]? = some p →
      (GenerateDomainPairs lib domain)[i + 1]? = some q → p.2 = q.1) ∧
    (∀ p, (GenerateDomainPairs lib domain).getLast? = some p →
      some p.2 = (Split 46 (lib.ToLower (lib.TrimSpace domain))).getLast?) := by
  have hne := split_ne_nil 46 (lib.ToLower (lib.TrimSpace domain))
  have hlen : 1 ≤ (Split 46 (lib.ToLower (lib.TrimSpace domain))).length :=
    List.length_pos.mpr hne
  refine ⟨hlen, ?_, ?_, ?_, ?_, ?_⟩
  · rw [pairs_length]; omega
  · intro i hi
    exact pairs_getElem lib domain i (by omega)
  · intro p hp
    rw [List.head?_eq_getElem?] at hp
    obtain ⟨_, rfl⟩ := pairs_entry lib domain 0 p hp
    simp only [List.drop_zero]
    exact join_split 46 _
  · intro i p q hp hq
    obtain ⟨_, rfl⟩ := pairs_entry lib domain i p hp
    obtain ⟨_, rfl⟩ := pairs_entry lib domain (i + 1) q hq
    rfl
  · intro p hp
    rw [List.getLast?_eq_getElem?] at hp
    obtain ⟨hi, rfl⟩ := pairs_entry lib domain _ p hp
    rw [pairs_length] at hi ⊢
    have e : (Split 46 (lib.ToLower (lib.TrimSpace domain))).length - 1 - 1 + 1 =
        (Split 46 (lib.ToLower (lib.TrimSpace domain))).length - 1 := by omega
    simp only [e, drop_length_pred _ hne, Join]
    exact (List.getLast?_eq_getLast _ hne).symm

/-- The two cases of the test of `GenerateDomainPairs`, on the ASCII instance of
the standard library: `" A.b.Example "` normalises to `"a.b.example"` and gives
the pairs of that domain; `"example.com"` gives one pair, and a domain of one
label none. -/
theorem domain_pairs_examples :
    GenerateDomainPairs asciiStrings (bytes " A.b.Example ") =
      [(bytes "a.b.example", bytes "b.example"), (bytes "b.example", bytes "example")] ∧
    GenerateDomainPairs asciiStrings (bytes "example.com") =
      [(bytes "example.com", bytes "com")] ∧
    GenerateDomainPairs asciiStrings (bytes "localhost") = [] := by
  refine ⟨?_, ?_, ?_⟩ <;> decide

/-! ## Proofs: `Unique` -/

/-- When `s < t` fails for two non-empty strings. -/
theorem strLess_cons_false (a b : Nat) (s t : GoString) :
    strLess (a :: s) (b :: t) = false ↔ b < a ∨ (a = b ∧ strLess s t = false) := by
  simp only [strLess]
  split_ifs with h1 h2
  · simp; omega
  · simp; omega
  · have e : a = b := by omega
    simp [e]

/-- No string is smaller than itself. -/
theorem strLess_irrefl (s : GoString) : strLess s s = false := by
  induction s with
  | nil => simp [strLess]
  | cons a s ih => rw [strLess_cons_false]; exact Or.inr ⟨rfl, ih⟩

/-- The order `<=` of Go strings is total. -/
theorem strLe_total (s t : GoString) : StrLe s t ∨ StrLe t s := by
  unfold StrLe
  induction s generalizing t with
  | nil => left; cases t <;> simp [strLess]
  | cons a s ih =>
    cases t with
    | nil => right; simp [strLess]
    | cons b t =>
      rw [strLess_cons_false, strLess_cons_false]
      rcases Nat.lt_trichotomy a b with h | h | h
      · left; exact Or.inl h
      · rcases ih t with h2 | h2
        · left; exact Or.inr ⟨h.symm, h2⟩
        · right; exact Or.inr ⟨h, h2⟩
      · right; exact Or.inl h

/-- The order `<=` of Go strings is transitive. -/
theorem strLe_trans (s t u : GoString) (h1 : StrLe s t) (h2 : StrLe t u) : StrLe s u := by
  unfold StrLe at *
  induction s generalizing t u with
  | nil => cases u <;> simp [strLess]
  | cons a s ih =>
    cases t with
    | nil => simp [strLess] at h1
    | cons b t =>
      cases u with
      | nil => simp [strLess] at h2
      | cons c u =>
        rw [strLess_cons_false] at h1 h2 ⊢
        rcases h1 with h1 | ⟨e1, h1⟩
        · rcases h2 with h2 | ⟨e2, h2⟩
          · left; omega
          · left; omega
        · rcases h2 with h2 | ⟨e2, h2⟩
          · left; omega
          · right; exact ⟨by omega, ih t u h1 h2⟩

/-- The order `<=` of Go strings is antisymmetric. -/
theorem strLe_antisymm (s t : GoString) (h1 : StrLe s t) (h2 : StrLe t s) : s = t := by
  unfold StrLe at *
  induction s generalizing t with
  | nil =>
    cases t with
    | nil => rfl
    | cons b t => simp [strLess] at h2
  | cons a s ih =>
    cases t with
    | nil => simp [strLess] at h1
    | cons b t =>
      rw [strLess_cons_false] at h1 h2
      rcases h1 with h1 | ⟨e1, h1⟩
      · rcases h2 with h2 | ⟨e2, _⟩ <;> omega
      · rcases h2 with h2 | ⟨_, h2⟩
        · omega
        · rw [e1, ih t h1 h2]

/-- Two different strings in ascending order are in strictly ascending order. -/
theorem strLess_of_le_of_ne (s t : GoString) (h : StrLe s t) (hne : s ≠ t) :
    strLess s t = true := by
  by_contra hlt
  exact hne (strLe_antisymm s t h (by simpa [StrLe] using hlt))

instance StrLe.isTotal : IsTotal GoString StrLe := ⟨strLe_total⟩

instance StrLe.isTrans : IsTrans GoString StrLe := ⟨strLe_trans⟩

instance StrLe.isAntisymm : IsAntisymm GoString StrLe := ⟨strLe_antisymm⟩

/-- The insertion sort meets what `Unique` needs from `sort.Strings`. -/
theorem insertionSortStrings_sorts : SortsStrings insertionSortStrings where
  perm := fun l => List.perm_insertionSort StrLe l
  sorted := fun l => List.sorted_insertionSort StrLe l

/-- The loop of `Unique`: `result` stays free of duplicates, `seen` holds the
values of `result`, and `result` gains exactly the values of the input. -/
theorem unique_fold (input : List GoString) (st : UniqueState)
    (hnd : st.result.Nodup) (hseen : ∀ x, x ∈ st.seen ↔ x ∈ st.result) :
    (input.foldl uniqueStep st).result.Nodup ∧
    (∀ x, x ∈ (input.foldl uniqueStep st).seen ↔ x ∈ (input.foldl uniqueStep st).result) ∧
    (∀ x, x ∈ (input.foldl uniqueStep st).result ↔ x ∈ st.result ∨ x ∈ input) := by
  induction input generalizing st with
  | nil => simp [hnd, hseen]
  | cons v rest ih =>
    rw [List.foldl_cons]
    by_cases hv : v ∈ st.seen
    · have e : uniqueStep st v = st := by simp [uniqueStep, hv]
      rw [e]
      obtain ⟨h1, h2, h3⟩ := ih st hnd hseen
      refine ⟨h1, h2, fun x => ?_⟩
      rw [h3 x, List.mem_cons]
      constructor
      · rintro (h | h)
        · exact Or.inl h
        · exact Or.inr (Or.inr h)
      · rintro (h | h | h)
        · exact Or.inl h
        · exact Or.inl (h ▸ (hseen v).mp hv)
        · exact Or.inr h
    · have e : uniqueStep st v = { seen := v :: st.seen, result := st.result ++ [v] } := by
        simp [uniqueStep, hv]
      rw [e]
      have hv2 : v ∉ st.result := fun h => hv ((hseen v).mpr h)
      obtain ⟨h1, h2, h3⟩ := ih { seen := v :: st.seen, result := st.result ++ [v] }
        (by
          show (st.result ++ [v]).Nodup
          rw [List.nodup_append]
          refine ⟨hnd, List.nodup_singleton v, ?_⟩
          intro a ha hb
          rw [List.mem_singleton] at hb
          exact hv2 (hb ▸ ha))
        (by
          intro x
          show x ∈ v :: st.seen ↔ x ∈ st.result ++ [v]
          rw [List.mem_cons, List.mem_append, List.mem_singleton, hseen x]
          tauto)
      refine ⟨h1, h2, fun x => ?_⟩
      rw [h3 x]
      show x ∈ st.result ++ [v] ∨ x ∈ rest ↔ x ∈ st.result ∨ x ∈ v :: rest
      rw [List.mem_append, List.mem_singleton, List.mem_cons]
      tauto

/-- On values that are pairwise different and not yet seen, the loop of
`Unique` appends every one of them. -/
theorem unique_fold_nodup (input : List GoString) (st : UniqueState)
    (hnd : input.Nodup) (hnew : ∀ x ∈ input, x ∉ st.seen) :
    (input.foldl uniqueStep st).result = st.result ++ input := by
  induction input generalizing st with
  | nil => simp
  | cons v rest ih =>
    rw [List.foldl_cons]
    have hv : v ∉ st.seen := hnew v (List.mem_cons_self v rest)
    have e : uniqueStep st v = { seen := v :: st.seen, result := st.result ++ [v] } := by
      simp [uniqueStep, hv]
    rw [e, ih _ (List.nodup_cons.mp hnd).2]
    · simp
    · intro x hx
      show x ∉ v :: st.seen
      rw [List.mem_cons]
      rintro (h | h)
      · exact (List.nodup_cons.mp hnd).1 (h ▸ hx)
      · exact hnew x (List.mem_cons_of_mem v hx) h

/-- **C22** (Unique). For every sorting function that does what `sort.Strings`
does, and every list of strings: the result of `Unique` is in strictly
ascending order, has no duplicates, and holds exactly the values of the input;
and `Unique` of that result is the result itself. -/
theorem C22_unique_sorted_distinct (sort : List GoString → List GoString)
    (hsort : SortsStrings sort) (input : List GoString) :
    (Unique sort input).Pairwise (fun s t => strLess s t = true) ∧
    (Unique sort input).Nodup ∧
    (∀ x, x ∈ Unique sort input ↔ x ∈ input) ∧
    Unique sort (Unique sort input) = Unique sort input := by
  obtain ⟨h1, _, h3⟩ := unique_fold input { seen := [], result := [] }
    List.nodup_nil (fun x => Iff.rfl)
  have hperm := hsort.perm (input.foldl uniqueStep { seen := [], result := [] }).result
  have hsorted := hsort.sorted (input.foldl uniqueStep { seen := [], result := [] }).result
  have hnd : (Unique sort input).Nodup := hperm.nodup_iff.mpr h1
  have hstrict : (Unique sort input).Pairwise (fun s t => strLess s t = true) := by
    have hne : (Unique sort input).Pairwise (fun s t => s ≠ t) := hnd
    have hboth := List.Pairwise.and hsorted hne
    exact hboth.imp (fun h => strLess_of_le_of_ne _ _ h.1 h.2)
  refine ⟨hstrict, hnd, fun x => ?_, ?_⟩
  · show x ∈ sort _ ↔ _
    rw [hperm.mem_iff, h3 x]
    simp
  · have e : (List.foldl uniqueStep { seen := [], result := [] } (Unique sort input)).result =
        Unique sort input := by
      rw [unique_fold_nodup _ _ hnd (fun x _ => List.not_mem_nil x)]
      simp
    show sort (List.foldl uniqueStep { seen := [], result := [] } (Unique sort input)).result = _
    rw [e]
    exact List.eq_of_perm_of_sorted (hsort.perm _) (hsort.sorted _) hsorted

/-- A run of C22 with the insertion sort: `["b", "a", "B", "b", "ab", "a"]` gives
`["B", "a", "ab", "b"]` (upper case sorts before lower case, a prefix before its
extensions). -/
theorem C22_unique_sorted_distinct_witness :
    SortsStrings insertionSortStrings ∧
    Unique insertionSortStrings
      [bytes "b", bytes "a", bytes "B", bytes "b", bytes "ab", bytes "a"] =
      [bytes "B", bytes "a", bytes "ab", bytes "b"] ∧
    (Unique insertionSortStrings
      [bytes "b", bytes "a", bytes "B", bytes "b", bytes "ab", bytes "a"]).Pairwise
      (fun s t => strLess s t = true) ∧
    Unique insertionSortStrings (Unique insertionSortStrings
      [bytes "b", bytes "a", bytes "B", bytes "b", bytes "ab", bytes "a"]) =
      Unique insertionSortStrings
        [bytes "b", bytes "a", bytes "B", bytes "b", bytes "ab", bytes "a"] :=
  ⟨insertionSortStrings_sorts, by decide,
    (C22_unique_sorted_distinct insertionSortStrings insertionSortStrings_sorts _).1,
    (C22_unique_sorted_distinct insertionSortStrings insertionSortStrings_sorts _).2.2.2⟩

/-! ## Proofs: the loop of `StreamOrdered` as a fold -/

/-- Without cancellation and on batches with a nil `Err`, `StreamOrdered` is
the fold `streamFold` of its loop body: it returns the error the fold ends with
and has made the sink invocations of the state the fold reaches. -/
theorem streamLoop_fold {T : Type} (sink : Sink T) (inp : List (ProcessedChunk T)) :
    ∀ (ctx : Context) (st : StreamState T), ctx.quietFor (inp.length + 1) →
      (∀ b ∈ inp, b.Err = none) →
      (streamLoop sink ctx st inp).err = (streamFold sink st inp).2 ∧
      (streamLoop sink ctx st inp).calls = (streamFold sink st inp).1.calls := by
  induction inp with
  | nil =>
    intro ctx st hq _
    simp [streamLoop, streamFold, (quietFor_succ hq).1]
  | cons b rest ih =>
    intro ctx st hq herr
    have hb : b.Err = none := herr b (by simp)
    have hq2 := quietFor_succ hq
    simp only [streamLoop, streamFold, hq2.1, hb, Bool.false_eq_true, if_false]
    rcases hr : streamStep sink st b with ⟨st2, _ | err⟩
    · simp only
      exact ih ctx.tick st2 hq2.2 (fun x hx => herr x (List.mem_cons_of_mem _ hx))
    · simp

/-! ## Proofs: the producer and the processor workers against their receivers -/

/-- The run of `StartFileProducer` in closed form: the jobs handed off are the
first identifiers, as many as the cancellation and the receivers allow, and
`out` is closed unless the producer is left blocked on a send. -/
theorem startFileProducer_eq (files : List String) :
    ∀ (ctx : Context) (demand : Option Nat),
      StartFileProducer ctx demand files =
        ⟨(files.take (capAt ctx.doneAfter (capAt demand files.length))).map FileJob.mk,
          ctx.doneAfter.isSome || decide (files.length ≤ capAt demand files.length)⟩ := by
  induction files with
  | nil =>
    intro ctx demand
    simp [StartFileProducer]
  | cons f rest ih =>
    intro ctx demand
    obtain ⟨da, c⟩ := ctx
    rcases da with _ | _ | d <;> rcases demand with _ | _ | m <;>
      simp [StartFileProducer, Context.isDone, Context.tick, receiverReady, receiverNext,
        capAt, ih, Nat.succ_min_succ]

/-- The batches of a processor worker in closed form. -/
theorem processorWorker_eq {T : Type} (lineProcessor : ChunkProcessorFunc T)
    (chunks : List FileChunk) :
    ∀ (ctx : Context) (demand : Option Nat),
      processorWorker ctx demand lineProcessor chunks =
        (chunks.take (capAt ctx.doneAfter (capAt demand chunks.length))).map
          (processChunk lineProcessor) := by
  induction chunks with
  | nil =>
    intro ctx demand
    simp [processorWorker]
  | cons c rest ih =>
    intro ctx demand
    obtain ⟨da, e⟩ := ctx
    rcases da with _ | _ | d <;> rcases demand with _ | _ | m <;>
      simp [processorWorker, Context.isDone, Context.tick, receiverReady, receiverNext,
        capAt, ih, Nat.succ_min_succ]

theorem capAt_le (bound : Option Nat) (n : Nat) : capAt bound n ≤ n := by
  cases bound with
  | none => exact Nat.le_refl n
  | some b => exact Nat.min_le_right b n

/-- The run of the claim C15 that fails: no cancellation, and the receivers
take one job and never receive again, as the pool of one worker does whose
first job `"A"` cannot be opened (it leaves `"B"` and `"C"` unclaimed). The
producer hands off `"A"` only and stays blocked on the send of `"B"`, so the
channel is not closed. -/
theorem C15_counterexample :
    Context.background.doneAfter = none ∧
    StartFileProducer Context.background (some 1) ["A", "B", "C"] = ⟨[⟨"A"⟩], false⟩ ∧
    (StartFileProducer Context.background (some 1) ["A", "B", "C"]).published
      ≠ ["A", "B", "C"].map FileJob.mk ∧
    (StartChunkWorkers exampleFS SliceToBytesChunks Context.background 1 4
      [⟨"A"⟩, ⟨"B"⟩, ⟨"C"⟩]).2 = [⟨"B"⟩, ⟨"C"⟩] := by
  refine ⟨rfl, by decide, by decide, by decide⟩

/-- **C15** (job publication order), amended. Against any receivers of the
unbuffered channel, the jobs `StartFileProducer` hands off are a prefix of the
file list, in list order, each job carrying the corresponding identifier:
the first identifiers, as many as cancellation and the receivers allow.
Without cancellation and with receivers that take every job it is the whole
list, each identifier once, and the channel is closed. Without cancellation
and with receivers that stop after `m` jobs, fewer than the list has, exactly
the first `m` are handed off and the channel is never closed. When
cancellation is observed at the select of position `d`, nothing from position
`d` on is handed off, the channel is closed, and with receivers that take
every job exactly the first `d` identifiers are handed off. -/
theorem C15_job_publication (ctx : Context) (demand : Option Nat) (files : List String) :
    (StartFileProducer ctx demand files).published <+: files.map FileJob.mk ∧
    (StartFileProducer ctx demand files).published =
      (files.take (capAt ctx.doneAfter (capAt demand files.length))).map FileJob.mk ∧
    (ctx.doneAfter = none → (∀ m, demand = some m → files.length ≤ m) →
      StartFileProducer ctx demand files = ⟨files.map FileJob.mk, true⟩) ∧
    (ctx.doneAfter = none → ∀ m, demand = some m → m < files.length →
      StartFileProducer ctx demand files = ⟨(files.take m).map FileJob.mk, false⟩) ∧
    (∀ d, ctx.doneAfter = some d →
      (StartFileProducer ctx demand files).published <+: (files.take d).map FileJob.mk ∧
      (demand = none →
        (StartFileProducer ctx demand files).published = (files.take d).map FileJob.mk) ∧
      (StartFileProducer ctx demand files).closed = true) := by
  rw [startFileProducer_eq files ctx demand]
  refine ⟨(List.take_prefix _ files).map FileJob.mk, rfl, ?_, ?_, ?_⟩
  · intro hctx hdem
    have hcap : capAt demand files.length = files.length := by
      cases demand with
      | none => rfl
      | some m => exact Nat.min_eq_right (hdem m rfl)
    rw [hcap, hctx]
    simp [capAt]
  · intro hctx m hdem hm
    subst hdem
    have hcap : capAt (some m) files.length = m := Nat.min_eq_left (Nat.le_of_lt hm)
    simp [hctx, hcap, capAt, hm]
  · intro d hd
    refine ⟨?_, ?_, by simp [hd]⟩
    · have e : files.take (capAt ctx.doneAfter (capAt demand files.length))
          = (files.take d).take (capAt demand files.length) := by
        rw [List.take_take, hd, Nat.min_comm]; rfl
      simp only [e]
      exact (List.take_prefix _ _).map FileJob.mk
    · intro hdem
      subst hdem
      have e : files.take (capAt ctx.doneAfter (capAt none files.length)) = files.take d := by
        rw [hd]
        show files.take (min d files.length) = files.take d
        rw [← List.take_take, List.take_length]
      simp only [e]

/-- Three files: cancellation observed at the third select, with receivers
that take every job; and no cancellation, with receivers that take every job. -/
theorem C15_job_publication_witness :
    (StartFileProducer ⟨some 2, GoError.canceled⟩ none ["a", "b", "c"]).published
      = (["a", "b", "c"].take 2).map FileJob.mk ∧
    StartFileProducer Context.background none ["a", "b", "c"]
      = ⟨["a", "b", "c"].map FileJob.mk, true⟩ :=
  ⟨((C15_job_publication ⟨some 2, GoError.canceled⟩ none ["a", "b", "c"]).2.2.2.2 2 rfl).2.1 rfl,
    (C15_job_publication Context.background none ["a", "b", "c"]).2.2.1 rfl
      (fun _ h => by cases h)⟩

/-- **C16** (batch identity). Against any receivers of the unbuffered channel
`out`, the batches one processor worker hands off are, in order, those of the
first chunks it took, one batch per chunk, as many as cancellation and the
receivers allow: all of them without cancellation and with receivers that take
every batch. Each batch carries the `File` and the `Index` of its chunk and,
as `Items` and `Err`, the two values the transform returned for that chunk. -/
theorem C16_batch_identity {T : Type} (ctx : Context) (demand : Option Nat)
    (lineProcessor : ChunkProcessorFunc T) (chunks : List FileChunk) :
    (processorWorker ctx demand lineProcessor chunks).length
      = capAt ctx.doneAfter (capAt demand chunks.length) ∧
    (ctx.doneAfter = none → demand = none →
      (processorWorker ctx demand lineProcessor chunks).length = chunks.length) ∧
    List.Forall₂
      (fun (c : FileChunk) (b : ProcessedChunk T) =>
        b.File = c.File ∧ b.ChunkIndex = c.Chunk.Index ∧
        b.Items = (lineProcessor c).1 ∧ b.Err = (lineProcessor c).2)
      (chunks.take (processorWorker ctx demand lineProcessor chunks).length)
      (processorWorker ctx demand lineProcessor chunks) := by
  have hle : capAt ctx.doneAfter (capAt demand chunks.length) ≤ chunks.length :=
    Nat.le_trans (capAt_le _ _) (capAt_le _ _)
  have hlen : (processorWorker ctx demand lineProcessor chunks).length
      = capAt ctx.doneAfter (capAt demand chunks.length) := by
    rw [processorWorker_eq]
    simp [List.length_take, hle]
  refine ⟨hlen, ?_, ?_⟩
  · intro hctx hdem
    rw [hlen, hctx, hdem]
    rfl
  · rw [hlen, processorWorker_eq, List.forall₂_map_right_iff]
    exact List.forall₂_same.mpr (fun c _ => ⟨rfl, rfl, rfl, rfl⟩)

/-- A worker takes two chunks of input `"f"`, the processor gives the length
of the chunk as its only record; no cancellation, every batch is received. -/
theorem C16_batch_identity_witness :
    (processorWorker Context.background none
      (fun c => ((some [c.Chunk.Data.length] : Option (List Nat)), (none : Option GoError)))
      [⟨"f", ⟨0, bytes "ab\n"⟩⟩, ⟨"f", ⟨1, bytes "c\n"⟩⟩]).length
      = [(⟨"f", ⟨0, bytes "ab\n"⟩⟩ : FileChunk), ⟨"f", ⟨1, bytes "c\n"⟩⟩].length :=
  (C16_batch_identity Context.background none (fun c => (some [c.Chunk.Data.length], none))
    [⟨"f", ⟨0, bytes "ab\n"⟩⟩, ⟨"f", ⟨1, bytes "c\n"⟩⟩]).2.1 rfl rfl

/-- Evaluations of a processor worker: without cancellation and with every
batch received, two chunks give their two batches; with receivers that take one
batch and never receive again, only the first batch is handed off. -/
theorem processorWorker_examples :
    processorWorker Context.background none
      (fun c => ((some [c.Chunk.Data.length] : Option (List Nat)), (none : Option GoError)))
      [⟨"f", ⟨0, bytes "ab\n"⟩⟩, ⟨"f", ⟨1, bytes "c\n"⟩⟩]
      = [⟨"f", 0, some [3], none⟩, ⟨"f", 1, some [2], none⟩] ∧
    processorWorker Context.background (some 1)
      (fun c => ((some [c.Chunk.Data.length] : Option (List Nat)), (none : Option GoError)))
      [⟨"f", ⟨0, bytes "ab\n"⟩⟩, ⟨"f", ⟨1, bytes "c\n"⟩⟩]
      = [⟨"f", 0, some [3], none⟩] := by
  constructor <;> simp [processorWorker, Context.background, Context.isDone, Context.tick,
    receiverReady, receiverNext, processChunk, bytes]

/-! ## Proofs: what a drain delivers and removes -/

theorem readyEntries_succ {T : Type} (pending : List (Nat × List T)) (n k : Nat)
    (e : List T) (h : pendingGet n pending = some e) :
    readyEntries pending n (k + 1) = (n, e) :: readyEntries (pendingDelete n pending) (n + 1) k := by
  simp only [readyEntries, List.range_succ_eq_map, List.map_cons, List.map_map, Nat.add_zero, h,
    Option.getD_some]
  congr 1
  apply List.map_congr_left
  intro j _
  have hne : ¬ n + 1 + j = n := by omega
  simp only [Function.comp, pendingGet_delete, hne, if_false]
  have e2 : n + (j + 1) = n + 1 + j := by omega
  rw [Nat.succ_eq_add_one, e2]

theorem drainedRun_zero {T : Type} (old new : List (Nat × List T)) (n : Nat)
    (h : pendingGet n old = none) (hsame : ∀ i, pendingGet i new = pendingGet i old) :
    DrainedRun old new n 0 := by
  refine ⟨fun j hj => absurd hj (Nat.not_lt_zero j), h, fun i => ?_⟩
  have hc : ¬ (n ≤ i ∧ i < n + 0) := by omega
  rw [if_neg hc]
  exact hsame i

theorem drainedRun_succ {T : Type} (old new : List (Nat × List T)) (n k : Nat) (e : List T)
    (h : pendingGet n old = some e) (hrun : DrainedRun (pendingDelete n old) new (n + 1) k) :
    DrainedRun old new n (k + 1) := by
  obtain ⟨h1, h2, h3⟩ := hrun
  refine ⟨?_, ?_, ?_⟩
  · intro j hj
    cases j with
    | zero => simp [h]
    | succ j =>
      have := h1 j (by omega)
      rw [pendingGet_delete] at this
      have hne : ¬ n + 1 + j = n := by omega
      simp only [hne, if_false] at this
      have e2 : n + (j + 1) = n + 1 + j := by omega
      rw [e2]; exact this
  · rw [pendingGet_delete] at h2
    have hne : ¬ n + 1 + k = n := by omega
    simp only [hne, if_false] at h2
    have e2 : n + (k + 1) = n + 1 + k := by omega
    rw [e2]; exact h2
  · intro i
    rw [h3 i, pendingGet_delete]
    by_cases hi : i = n
    · subst hi
      have hc : (i ≤ i ∧ i < i + (k + 1)) := ⟨Nat.le_refl i, by omega⟩
      simp [hc]
    · by_cases hc : n + 1 ≤ i ∧ i < n + 1 + k
      · have hc2 : n ≤ i ∧ i < n + (k + 1) := by omega
        simp [hc, hc2]
      · have hc2 : ¬ (n ≤ i ∧ i < n + (k + 1)) := by omega
        simp [hc, hc2, hi]

/-- The loop of `drainBuffer` on input `f`: it appends to the result the
entries of the next expected index and of the indices that follow it without a
gap, in index order, advances the next expected index past them, and removes
exactly these entries from the pending map. -/
theorem drainLoop_run {T : Type} (f : String) (fuel : Nat) :
    ∀ st : CollectState T, pendingCount st.buffers f < fuel →
      ∃ k, (drainLoop fuel f st).nextIndex f = st.nextIndex f + k ∧
        readSlice (drainLoop fuel f st).results f = readSlice st.results f ++
          (readyEntries ((st.buffers f).getD []) (st.nextIndex f) k).flatMap Prod.snd ∧
        DrainedRun ((st.buffers f).getD []) (((drainLoop fuel f st).buffers f).getD [])
          (st.nextIndex f) k := by
  induction fuel with
  | zero => intro st h; omega
  | succ fuel ih =>
    intro st hfuel
    simp only [drainLoop]
    cases hb : st.buffers f with
    | none =>
      refine ⟨0, rfl, by simp [readyEntries], ?_⟩
      simp only [hb, Option.getD_none]
      exact drainedRun_zero _ _ _ (by simp [pendingGet]) (fun _ => rfl)
    | some pending =>
      simp only [Option.getD_some]
      cases hp : pendingGet (st.nextIndex f) pending with
      | none =>
        simp only
        refine ⟨0, ?_, ?_, ?_⟩
        · split_ifs <;> rfl
        · split_ifs <;> simp [readyEntries]
        · apply drainedRun_zero _ _ _ hp
          intro i
          split_ifs with hlen
          · have hnil : pending = [] := List.length_eq_zero.mp hlen
            simp [setKey, hnil]
          · simp [hb]
      | some entry =>
        simp only
        have hcount : pendingCount
            (setKey st.buffers f (some (pendingDelete (st.nextIndex f) pending))) f < fuel := by
          have := pendingDelete_length_lt _ _ _ hp
          simp only [pendingCount, hb] at hfuel
          simp only [pendingCount, setKey, if_true]
          omega
        obtain ⟨k, h1, h2, h3⟩ := ih
          { results := setKey st.results f (some (readSlice st.results f ++ entry)),
            nextIndex := setCount st.nextIndex f (st.nextIndex f + 1),
            buffers := setKey st.buffers f
              (some (pendingDelete (st.nextIndex f) pending)) } hcount
        simp only [setCount, setKey, if_true, readSlice_setKey, Option.getD_some] at h1 h2 h3
        refine ⟨k + 1, ?_, ?_, ?_⟩
        · rw [h1]; omega
        · rw [h2, readyEntries_succ _ _ _ _ hp]
          simp [List.flatMap_cons]
        · exact drainedRun_succ _ _ _ _ _ hp h3

/-- The loop of `flush` on input `f`, when the sink does not fail: it hands
to the sink the entries of the next expected index and of the indices that
follow it without a gap, in index order, advances the next expected index past
them, and removes exactly these entries from the pending map. -/
theorem flushLoop_run {T : Type} (sink : Sink T) (f : String) (fuel : Nat) :
    ∀ st : StreamState T, pendingCount st.buffers f < fuel →
      (flushLoop sink fuel f st).2 = none →
      ∃ k, (flushLoop sink fuel f st).1.nextIndex f = st.nextIndex f + k ∧
        (flushLoop sink fuel f st).1.calls = st.calls ++
          (readyEntries ((st.buffers f).getD []) (st.nextIndex f) k).map
            (fun e => (⟨f, e.1, e.2⟩ : SinkCall T)) ∧
        DrainedRun ((st.buffers f).getD []) (((flushLoop sink fuel f st).1.buffers f).getD [])
          (st.nextIndex f) k := by
  induction fuel with
  | zero => intro st h; omega
  | succ fuel ih =>
    intro st hfuel
    simp only [flushLoop]
    cases hb : st.buffers f with
    | none =>
      intro _
      refine ⟨0, rfl, by simp [readyEntries], ?_⟩
      simp only [hb, Option.getD_none]
      exact drainedRun_zero _ _ _ (by simp [pendingGet]) (fun _ => rfl)
    | some pending =>
      simp only [Option.getD_some]
      cases hp : pendingGet (st.nextIndex f) pending with
      | none =>
        simp only
        intro _
        refine ⟨0, ?_, ?_, ?_⟩
        · split_ifs <;> rfl
        · split_ifs <;> simp [readyEntries]
        · apply drainedRun_zero _ _ _ hp
          intro i
          split_ifs with hlen
          · have hnil : pending = [] := List.length_eq_zero.mp hlen
            simp [setKey, hnil]
          · simp [hb]
      | some entry =>
        simp only
        cases hs : sink (sinkHistory st.calls) f entry with
        | some err => intro hc; simp at hc
        | none =>
          simp only
          intro hok
          have hcount : pendingCount
              (setKey st.buffers f (some (pendingDelete (st.nextIndex f) pending))) f < fuel := by
            have := pendingDelete_length_lt _ _ _ hp
            simp only [pendingCount, hb] at hfuel
            simp only [pendingCount, setKey, if_true]
            omega
          obtain ⟨k, h1, h2, h3⟩ := ih
            { nextIndex := setCount st.nextIndex f (st.nextIndex f + 1),
              buffers := setKey st.buffers f
                (some (pendingDelete (st.nextIndex f) pending)),
              calls := st.calls ++ [⟨f, st.nextIndex f, entry⟩] } hcount hok
          simp only [setCount, setKey, if_true, Option.getD_some] at h1 h2 h3
          refine ⟨k + 1, ?_, ?_, ?_⟩
          · rw [h1]; omega
          · rw [h2, readyEntries_succ _ _ _ _ hp]
            simp
          · exact drainedRun_succ _ _ _ _ _ hp h3

/-- A step of `CollectOrdered` on a batch that carries the next expected index
of its input: its records and the entries that became ready are appended to
the result in index order, and exactly these entries leave the pending map. -/
theorem collectStep_run {T : Type} (cs : CollectState T) (res : ProcessedChunk T)
    (items : List T) (hitems : res.Items = some items)
    (hidx : res.ChunkIndex = cs.nextIndex res.File) :
    ∃ k, (collectStep cs res).nextIndex res.File = cs.nextIndex res.File + 1 + k ∧
      readSlice (collectStep cs res).results res.File
        = readSlice cs.results res.File ++ items ++
          (readyEntries ((cs.buffers res.File).getD []) (cs.nextIndex res.File + 1) k).flatMap
            Prod.snd ∧
      DrainedRun ((cs.buffers res.File).getD [])
        (((collectStep cs res).buffers res.File).getD []) (cs.nextIndex res.File + 1) k := by
  simp only [collectStep, hitems, hidx, if_true, drainBuffer]
  obtain ⟨k, h1, h2, h3⟩ := drainLoop_run res.File
    (pendingCount cs.buffers res.File + 1)
    { results := setKey cs.results res.File (some (readSlice cs.results res.File ++ items)),
      nextIndex := setCount cs.nextIndex res.File (cs.nextIndex res.File + 1),
      buffers := cs.buffers } (Nat.lt_succ_self _)
  simp only [setCount, if_true, readSlice_setKey] at h1 h2 h3
  exact ⟨k, h1, h2, h3⟩

/-- A step of `StreamOrdered` on a batch that carries the next expected index
of its input, when the sink does not fail: the sink is handed its records and
then the entries that became ready, in index order, and exactly these entries
leave the pending map. -/
theorem streamStep_run {T : Type} (sink : Sink T) (ss : StreamState T)
    (res : ProcessedChunk T) (items : List T) (hitems : res.Items = some items)
    (hidx : res.ChunkIndex = ss.nextIndex res.File)
    (hok : (streamStep sink ss res).2 = none) :
    ∃ k, (streamStep sink ss res).1.nextIndex res.File = ss.nextIndex res.File + 1 + k ∧
      (streamStep sink ss res).1.calls
        = ss.calls ++ (⟨res.File, res.ChunkIndex, items⟩ : SinkCall T) ::
          (readyEntries ((ss.buffers res.File).getD []) (ss.nextIndex res.File + 1) k).map
            (fun e => (⟨res.File, e.1, e.2⟩ : SinkCall T)) ∧
      DrainedRun ((ss.buffers res.File).getD [])
        (((streamStep sink ss res).1.buffers res.File).getD []) (ss.nextIndex res.File + 1) k := by
  simp only [streamStep, hitems, hidx, if_true] at hok ⊢
  cases hs : sink (sinkHistory ss.calls) res.File items with
  | some err => rw [hs] at hok; simp at hok
  | none =>
    rw [hs] at hok
    simp only [streamFlush] at hok ⊢
    obtain ⟨k, h1, h2, h3⟩ := flushLoop_run sink res.File
      (pendingCount ss.buffers res.File + 1)
      { nextIndex := setCount ss.nextIndex res.File (ss.nextIndex res.File + 1),
        buffers := ss.buffers,
        calls := ss.calls ++ [⟨res.File, ss.nextIndex res.File, items⟩] }
      (Nat.lt_succ_self _) hok
    simp only [setCount, if_true] at h1 h2 h3
    refine ⟨k, h1, ?_, h3⟩
    rw [h2]
    simp

/-- A step of `CollectOrdered` on a batch that does not carry the next
expected index of its input: nothing is delivered, and the pending map gains
the records of the batch under its index and is otherwise unchanged. -/
theorem collectStep_buffered {T : Type} (cs : CollectState T) (res : ProcessedChunk T)
    (items : List T) (hitems : res.Items = some items)
    (hidx : res.ChunkIndex ≠ cs.nextIndex res.File) :
    (collectStep cs res).results = cs.results ∧
    (collectStep cs res).nextIndex = cs.nextIndex ∧
    ∀ i, pendingGet i (((collectStep cs res).buffers res.File).getD [])
      = if i = res.ChunkIndex then some items
        else pendingGet i ((cs.buffers res.File).getD []) := by
  simp only [collectStep, hitems, hidx, if_false]
  refine ⟨trivial, trivial, fun i => ?_⟩
  simp only [setKey, if_true, Option.getD_some, pendingGet_set]

/-- A step of `StreamOrdered` on a batch that does not carry the next expected
index of its input: the sink is not invoked, and the pending map gains the
records of the batch under its index and is otherwise unchanged. -/
theorem streamStep_buffered {T : Type} (sink : Sink T) (ss : StreamState T)
    (res : ProcessedChunk T) (items : List T) (hitems : res.Items = some items)
    (hidx : res.ChunkIndex ≠ ss.nextIndex res.File) :
    (streamStep sink ss res).2 = none ∧
    (streamStep sink ss res).1.calls = ss.calls ∧
    (streamStep sink ss res).1.nextIndex = ss.nextIndex ∧
    ∀ i, pendingGet i (((streamStep sink ss res).1.buffers res.File).getD [])
      = if i = res.ChunkIndex then some items
        else pendingGet i ((ss.buffers res.File).getD []) := by
  simp only [streamStep, hitems, hidx, if_false]
  refine ⟨trivial, trivial, trivial, fun i => ?_⟩
  simp only [setKey, if_true, Option.getD_some, pendingGet_set]

/-- While the sink does not fail, the indices handed to it for every input
are those below the next expected index of the input, in ascending order. -/
theorem streamFold_trace {T : Type} (sink : Sink T) (inp : List (ProcessedChunk T)) :
    ∀ st : StreamState T, TraceInv st → (streamFold sink st inp).2 = none →
      TraceInv (streamFold sink st inp).1 := by
  induction inp with
  | nil => intro st h _; exact h
  | cons b rest ih =>
    intro st h
    simp only [streamFold]
    have hstep := (streamStep_trace sink st b h).1
    rcases hr : streamStep sink st b with ⟨st2, _ | err⟩
    · simp only
      rw [hr] at hstep
      exact ih st2 (hstep rfl)
    · intro hc; simp at hc

/-- After any sequence of batches, no input of `CollectOrdered` has a pending
entry at its next expected index. -/
theorem collect_fold_drained {T : Type} (inp : List (ProcessedChunk T)) :
    ∀ st : CollectState T, (∀ g, DrainedAt st.nextIndex st.buffers g) →
      ∀ g, DrainedAt (inp.foldl collectStep st).nextIndex (inp.foldl collectStep st).buffers g := by
  induction inp with
  | nil => intro st h; exact h
  | cons b rest ih => intro st h; exact ih _ (collectStep_drained st b h)

/-- **C23** (drain invariant). For `CollectOrdered`, and for `StreamOrdered`
as long as the sink does not fail:

* after any sequence of batches no input has in its pending buffer an entry
  keyed by its next expected index, and the indices handed to the sink for an
  input are exactly those below its next expected index, in ascending order;
* a batch that carries the next expected index `n` of its input is delivered,
  then the entries of the keys `n+1, ..., n+k` that are in the pending buffer
  without a gap are delivered in index order (appended to the result, handed to
  the sink with their index), the next expected index becomes `n+1+k`, the key
  `n+1+k` is not in the buffer, and exactly the delivered entries have left the
  buffer;
* a batch that carries another index delivers nothing: it is stored under its
  index and the buffer is otherwise unchanged. -/
theorem C23_drain_invariant {T : Type} (sink : Sink T) :
    (∀ (inp : List (ProcessedChunk T)) (f : String),
      DrainedAt (inp.foldl collectStep ⟨fun _ => none, fun _ => 0, fun _ => none⟩).nextIndex
        (inp.foldl collectStep ⟨fun _ => none, fun _ => 0, fun _ => none⟩).buffers f ∧
      ((streamFold sink ⟨fun _ => 0, fun _ => none, []⟩ inp).2 = none →
        DrainedAt (streamFold sink ⟨fun _ => 0, fun _ => none, []⟩ inp).1.nextIndex
          (streamFold sink ⟨fun _ => 0, fun _ => none, []⟩ inp).1.buffers f ∧
        deliveredIndices (streamFold sink ⟨fun _ => 0, fun _ => none, []⟩ inp).1.calls f
          = List.range ((streamFold sink ⟨fun _ => 0, fun _ => none, []⟩ inp).1.nextIndex f))) ∧
    (∀ (cs : CollectState T) (res : ProcessedChunk T) (items : List T),
      res.Items = some items → res.ChunkIndex = cs.nextIndex res.File →
      ∃ k, (collectStep cs res).nextIndex res.File = cs.nextIndex res.File + 1 + k ∧
        readSlice (collectStep cs res).results res.File
          = readSlice cs.results res.File ++ items ++
            (readyEntries ((cs.buffers res.File).getD [])
              (cs.nextIndex res.File + 1) k).flatMap Prod.snd ∧
        DrainedRun ((cs.buffers res.File).getD [])
          (((collectStep cs res).buffers res.File).getD []) (cs.nextIndex res.File + 1) k) ∧
    (∀ (ss : StreamState T) (res : ProcessedChunk T) (items : List T),
      res.Items = some items → res.ChunkIndex = ss.nextIndex res.File →
      (streamStep sink ss res).2 = none →
      ∃ k, (streamStep sink ss res).1.nextIndex res.File = ss.nextIndex res.File + 1 + k ∧
        (streamStep sink ss res).1.calls
          = ss.calls ++ (⟨res.File, res.ChunkIndex, items⟩ : SinkCall T) ::
            (readyEntries ((ss.buffers res.File).getD []) (ss.nextIndex res.File + 1) k).map
              (fun e => (⟨res.File, e.1, e.2⟩ : SinkCall T)) ∧
        DrainedRun ((ss.buffers res.File).getD [])
          (((streamStep sink ss res).1.buffers res.File).getD [])
          (ss.nextIndex res.File + 1) k) ∧
    (∀ (cs : CollectState T) (res : ProcessedChunk T) (items : List T),
      res.Items = some items → res.ChunkIndex ≠ cs.nextIndex res.File →
      (collectStep cs res).results = cs.results ∧
      (collectStep cs res).nextIndex = cs.nextIndex ∧
      ∀ i, pendingGet i (((collectStep cs res).buffers res.File).getD [])
        = if i = res.ChunkIndex then some items
          else pendingGet i ((cs.buffers res.File).getD [])) ∧
    (∀ (ss : StreamState T) (res : ProcessedChunk T) (items : List T),
      res.Items = some items → res.ChunkIndex ≠ ss.nextIndex res.File →
      (streamStep sink ss res).2 = none ∧
      (streamStep sink ss res).1.calls = ss.calls ∧
      (streamStep sink ss res).1.nextIndex = ss.nextIndex ∧
      ∀ i, pendingGet i (((streamStep sink ss res).1.buffers res.File).getD [])
        = if i = res.ChunkIndex then some items
          else pendingGet i ((ss.buffers res.File).getD [])) := by
  refine ⟨?_, ?_, ?_, ?_, ?_⟩
  · intro inp f
    refine ⟨collect_fold_drained inp _ (fun g => by simp [DrainedAt, pendingGet]) f, ?_⟩
    intro hok
    exact ⟨streamFold_drained sink inp _ (fun g => by simp [DrainedAt, pendingGet]) hok f,
      streamFold_trace sink inp _ (fun g => by simp [deliveredIndices]) hok f⟩
  · intro cs res items hitems hidx
    exact collectStep_run cs res items hitems hidx
  · intro ss res items hitems hidx hok
    exact streamStep_run sink ss res items hitems hidx hok
  · intro cs res items hitems hidx
    exact collectStep_buffered cs res items hitems hidx
  · intro ss res items hitems hidx
    exact streamStep_buffered sink ss res items hitems hidx

/-- Indices 2, 0, 1 of input `"a"` arrive in that order at a sink that never
fails: afterwards the pending buffer has no entry for the next expected index,
and the indices handed to the sink are those below it, in ascending order. -/
theorem C23_drain_invariant_witness :
    DrainedAt
      (streamFold (fun _ _ _ => none) ⟨fun _ => 0, fun _ => none, []⟩
        [(⟨"a", 2, some [20], none⟩ : ProcessedChunk Nat), ⟨"a", 0, some [0], none⟩,
          ⟨"a", 1, some [10], none⟩]).1.nextIndex
      (streamFold (fun _ _ _ => none) ⟨fun _ => 0, fun _ => none, []⟩
        [(⟨"a", 2, some [20], none⟩ : ProcessedChunk Nat), ⟨"a", 0, some [0], none⟩,
          ⟨"a", 1, some [10], none⟩]).1.buffers "a" ∧
    deliveredIndices
      (streamFold (fun _ _ _ => none) ⟨fun _ => 0, fun _ => none, []⟩
        [(⟨"a", 2, some [20], none⟩ : ProcessedChunk Nat), ⟨"a", 0, some [0], none⟩,
          ⟨"a", 1, some [10], none⟩]).1.calls "a"
      = List.range
        ((streamFold (fun _ _ _ => none) ⟨fun _ => 0, fun _ => none, []⟩
          [(⟨"a", 2, some [20], none⟩ : ProcessedChunk Nat), ⟨"a", 0, some [0], none⟩,
            ⟨"a", 1, some [10], none⟩]).1.nextIndex "a") :=
  ((C23_drain_invariant (fun _ _ _ => none)).1
    [(⟨"a", 2, some [20], none⟩ : ProcessedChunk Nat), ⟨"a", 0, some [0], none⟩,
      ⟨"a", 1, some [10], none⟩] "a").2 (by decide)

/-- An evaluation of the drain: indices 2, 1 and 4 of input `"a"` are pending
when index 0 arrives. The records of 0, 1 and 2 are delivered in this order,
the next expected index becomes 3, and only the entry of index 4 stays in the
pending buffer; in streaming mode the sink is handed the indices 0, 1, 2. -/
theorem drain_example :
    readSlice (([(⟨"a", 2, some [20], none⟩ : ProcessedChunk Nat), ⟨"a", 1, some [10], none⟩,
        ⟨"a", 4, some [40], none⟩, ⟨"a", 0, some [0], none⟩]).foldl collectStep
      ⟨fun _ => none, fun _ => 0, fun _ => none⟩).results "a" = [0, 10, 20] ∧
    (([(⟨"a", 2, some [20], none⟩ : ProcessedChunk Nat), ⟨"a", 1, some [10], none⟩,
        ⟨"a", 4, some [40], none⟩, ⟨"a", 0, some [0], none⟩]).foldl collectStep
      ⟨fun _ => none, fun _ => 0, fun _ => none⟩).nextIndex "a" = 3 ∧
    (([(⟨"a", 2, some [20], none⟩ : ProcessedChunk Nat), ⟨"a", 1, some [10], none⟩,
        ⟨"a", 4, some [40], none⟩, ⟨"a", 0, some [0], none⟩]).foldl collectStep
      ⟨fun _ => none, fun _ => 0, fun _ => none⟩).buffers "a" = some [(4, [40])] ∧
    deliveredIndices (StreamOrdered Context.background
      [(⟨"a", 2, some [20], none⟩ : ProcessedChunk Nat), ⟨"a", 1, some [10], none⟩,
        ⟨"a", 4, some [40], none⟩, ⟨"a", 0, some [0], none⟩]
      (fun _ _ _ => none)).calls "a" = [0, 1, 2] ∧
    streamRecords (StreamOrdered Context.background
      [(⟨"a", 2, some [20], none⟩ : ProcessedChunk Nat), ⟨"a", 1, some [10], none⟩,
        ⟨"a", 4, some [40], none⟩, ⟨"a", 0, some [0], none⟩]
      (fun _ _ _ => none)).calls "a" = [0, 10, 20] := by
  refine ⟨by decide, by decide, by decide, by decide, by decide⟩

end Goutils
